import Mathlib

/-!
Verification of the input-validation and request-security core of the
b0x.nz link shortener (`functions/_security.js` and its callers).

Strings are modelled as lists of Unicode scalar values (`List Char`),
matching JavaScript strings on all inputs considered here (every code
point involved is below U+10000 and no lone surrogates appear, so the
UTF-16 view and the code-point view agree).  Platform primitives used by
the source (TextEncoder, `String.prototype.trim` / `toLowerCase` /
`normalize`, the WHATWG URL parser) are modelled as executable Lean
definitions; each such model carries a doc comment stating its scope.
-/

namespace B0x

/-- JavaScript strings, as lists of Unicode scalar values. -/
abbrev Str := List Char

/-- Coerce a Lean string literal to the model string type. -/
def S (s : String) : Str := s.data

-- ─── Text Sanitizer (`stripControlChars`) ────────────────────────────────────

/-- Character class of the source regex in `stripControlChars`
(part_000 line 154): U+0000-U+001F, U+007F, U+200B-U+200D, U+FEFF,
U+202A-U+202E. -/
def isStrippedChar (c : Char) : Bool :=
  c.toNat ≤ 0x1F ∨ c.toNat = 0x7F ∨
  (0x200B ≤ c.toNat ∧ c.toNat ≤ 0x200D) ∨ c.toNat = 0xFEFF ∨
  (0x202A ≤ c.toNat ∧ c.toNat ≤ 0x202E)

/-- `stripControlChars` (part_000 lines 151-155): removes every character of
the class above, via `String.prototype.replace` with the global flag, which
deletes exactly the matching characters and keeps everything else in order. -/
def stripControlChars (s : Str) : Str :=
  s.filter (fun c => ¬ isStrippedChar c)

/-- The character classes named by the spec (section 4.1): ASCII control
characters (0x00-0x1F, 0x7F), zero-width spacing/joining marks
(U+200B ZERO WIDTH SPACE, U+200C ZERO WIDTH NON-JOINER,
U+200D ZERO WIDTH JOINER), the byte-order mark U+FEFF, and the
bidirectional embedding/override controls U+202A-U+202E.
Stated from the spec's words, for comparison with `isStrippedChar`. -/
def specRemovedChar (c : Char) : Bool :=
  (c.toNat < 0x20 ∨ c.toNat = 0x7F) ∨
  (c.toNat = 0x200B ∨ c.toNat = 0x200C ∨ c.toNat = 0x200D) ∨
  c.toNat = 0xFEFF ∨
  (0x202A ≤ c.toNat ∧ c.toNat ≤ 0x202E)

-- ─── Platform string primitives used by the source ───────────────────────────

/-- Modelled from the spec: the JavaScript `String.prototype.trim` whitespace
class (ECMA-262 WhiteSpace and LineTerminator code points). -/
def isJsWhitespace (c : Char) : Bool :=
  c.toNat = 0x09 ∨ c.toNat = 0x0A ∨ c.toNat = 0x0B ∨ c.toNat = 0x0C ∨
  c.toNat = 0x0D ∨ c.toNat = 0x20 ∨ c.toNat = 0xA0 ∨ c.toNat = 0x1680 ∨
  (0x2000 ≤ c.toNat ∧ c.toNat ≤ 0x200A) ∨ c.toNat = 0x2028 ∨
  c.toNat = 0x2029 ∨ c.toNat = 0x202F ∨ c.toNat = 0x205F ∨
  c.toNat = 0x3000 ∨ c.toNat = 0xFEFF

/-- Modelled from the spec: `String.prototype.trim` — removes leading and
trailing JavaScript whitespace. -/
def jsTrim (s : Str) : Str :=
  ((s.dropWhile isJsWhitespace).reverse.dropWhile isJsWhitespace).reverse

/-- Modelled from the spec: `String.prototype.toLowerCase`, restricted to the
ASCII simple case mappings (A-Z map to a-z); code points outside A-Z are left
unchanged.  This agrees with the platform on every ASCII string and on every
already-lowercase string; non-ASCII simple case mappings (which none of the
statements proved below depend on) are omitted. -/
def jsLowerChar (c : Char) : Char :=
  if 65 ≤ c.toNat ∧ c.toNat ≤ 90 then Char.ofNat (c.toNat + 32) else c

/-- `toLowerCase` lifted to strings. -/
def jsLower (s : Str) : Str := s.map jsLowerChar

/-- Modelled from the spec: `String.prototype.normalize('NFKC')`.  NFKC is the
identity on ASCII; of the non-ASCII compatibility mappings only the one
exercised below is included (U+2170 SMALL ROMAN NUMERAL ONE
compatibility-decomposes to `i`, per the Unicode character database); every
other code point is left unchanged. -/
def nfkcChar (c : Char) : Str :=
  if c.toNat = 0x2170 then ['i'] else [c]

/-- `normalize('NFKC')` lifted to strings. -/
def nfkc (s : Str) : Str := s.flatMap nfkcChar

-- ─── UTF-8 (TextEncoder / TextDecoder) ───────────────────────────────────────

/-- Modelled from the spec: UTF-8 encoding of one Unicode scalar value, as
performed byte-for-byte by `TextEncoder.encode`. -/
def utf8Bytes (c : Char) : List Nat :=
  let v := c.toNat
  if v < 0x80 then [v]
  else if v < 0x800 then [0xC0 + v / 64, 0x80 + v % 64]
  else if v < 0x10000 then
    [0xE0 + v / 4096, 0x80 + v / 64 % 64, 0x80 + v % 64]
  else
    [0xF0 + v / 262144, 0x80 + v / 4096 % 64, 0x80 + v / 64 % 64,
     0x80 + v % 64]

/-- `TextEncoder.encode` on a whole string. -/
def encodeUTF8 (s : Str) : List Nat := s.flatMap utf8Bytes

/-- Continuation byte test for the strict UTF-8 decoder. -/
def contByte (b : Nat) : Bool := 0x80 ≤ b ∧ b ≤ 0xBF

/-- Modelled from the spec: strict UTF-8 decoding as performed by
`new TextDecoder('utf-8', { fatal: true })` — invalid byte sequences
(including surrogates and overlong forms) yield `none` rather than a
replacement character. -/
def utf8Decode : List Nat → Option Str
  | [] => some []
  | b :: rest =>
    if b < 0x80 then (utf8Decode rest).map (fun s => Char.ofNat b :: s)
    else if 0xC2 ≤ b ∧ b ≤ 0xDF then
      match rest with
      | b2 :: r =>
        if contByte b2 then
          (utf8Decode r).map
            (fun s => Char.ofNat ((b - 0xC0) * 64 + (b2 - 0x80)) :: s)
        else none
      | _ => none
    else if 0xE0 ≤ b ∧ b ≤ 0xEF then
      match rest with
      | b2 :: b3 :: r =>
        if (if b = 0xE0 then 0xA0 ≤ b2 ∧ b2 ≤ 0xBF
            else if b = 0xED then 0x80 ≤ b2 ∧ b2 ≤ 0x9F
            else contByte b2 = true) ∧ contByte b3 then
          (utf8Decode r).map
            (fun s =>
              Char.ofNat ((b - 0xE0) * 4096 + (b2 - 0x80) * 64 + (b3 - 0x80))
                :: s)
        else none
      | _ => none
    else if 0xF0 ≤ b ∧ b ≤ 0xF4 then
      match rest with
      | b2 :: b3 :: b4 :: r =>
        if (if b = 0xF0 then 0x90 ≤ b2 ∧ b2 ≤ 0xBF
            else if b = 0xF4 then 0x80 ≤ b2 ∧ b2 ≤ 0x8F
            else contByte b2 = true) ∧ contByte b3 ∧ contByte b4 then
          (utf8Decode r).map
            (fun s =>
              Char.ofNat ((b - 0xF0) * 262144 + (b2 - 0x80) * 4096 +
                (b3 - 0x80) * 64 + (b4 - 0x80)) :: s)
        else none
      | _ => none
    else none

-- ─── Timing-safe comparison and admin auth ───────────────────────────────────

/-- `timingSafeEqual` (part_000 lines 66-79): encodes both strings to UTF-8,
and on a length mismatch still performs a full-length masked comparison
(whose result is discarded — `bb[i % bb.length] ?? 0` reads wrap into the
shorter value) before returning `false`; on equal lengths it XOR-accumulates
every byte pair and succeeds only when the accumulated difference is zero. -/
def timingSafeEqual (a b : Str) : Bool :=
  let ab := encodeUTF8 a
  let bb := encodeUTF8 b
  if ab.length ≠ bb.length then
    let _diff := (List.range ab.length).foldl
      (fun diff i =>
        diff ||| (ab.getD i 0 ^^^
          (if bb.length = 0 then 0 else bb.getD (i % bb.length) 0))) 0
    false
  else
    ((ab.zip bb).foldl (fun diff p => diff ||| (p.1 ^^^ p.2)) 0) == 0

/-- `checkAdminAuth` (part_000 lines 81-91), with the comparison function
abstracted so that non-invocation of the comparator is expressible: the
configured key must be present and at least 16 characters, the trimmed
`Authorization` header must start with the exact prefix `Bearer `, and only
then is the comparator consulted on the remainder of the header. -/
def checkAdminAuthGen (cmp : Str → Str → Bool) (authHeader : Option Str)
    (adminKey : Option Str) : Bool :=
  match adminKey with
  | none => false
  | some key =>
    if key.length < 16 then false
    else
      let auth := jsTrim (authHeader.getD [])
      if ¬ (S "Bearer ").isPrefixOf auth then false
      else cmp (auth.drop 7) key

/-- `checkAdminAuth` as shipped: the generic guard applied to
`timingSafeEqual`. -/
def checkAdminAuth (authHeader : Option Str) (adminKey : Option Str) : Bool :=
  checkAdminAuthGen timingSafeEqual authHeader adminKey

-- ─── Network Address Classifier (`isBlockedHostname`) ────────────────────────

/-- `BLOCKED_HOSTNAMES` (part_000 lines 96-102). -/
def BLOCKED_HOSTNAMES : List Str :=
  [S "localhost", S "metadata.google.internal", S "metadata.goog",
   S "instance-data", S "computemetadata"]

/-- The suffix test of part_000 line 136 — the regex
matches a dot followed by one of the listed labels at the end of the
(already lowercased) hostname. -/
def internalSuffix (h : Str) : Bool :=
  [S ".local", S ".internal", S ".localhost", S ".lan", S ".corp",
   S ".intranet"].any (fun suf => suf.isSuffixOf h)

def isDigitChar (c : Char) : Bool := 48 ≤ c.toNat ∧ c.toNat ≤ 57

/-- Split a string at every occurrence of `sep` (like the regex-free view of
`String.prototype.split`); always returns at least one part. -/
def splitOnPred (p : Char → Bool) : Str → List Str
  | [] => [[]]
  | c :: cs =>
    match splitOnPred p cs with
    | [] => [[]]
    | h :: t => if p c then [] :: h :: t else (c :: h) :: t

def splitOnChar (sep : Char) (s : Str) : List Str :=
  splitOnPred (fun c => c = sep) s

/-- `String.prototype.includes`: substring containment. -/
def jsIncludes (pat : Str) : Str → Bool
  | [] => pat.isPrefixOf []
  | c :: rest => pat.isPrefixOf (c :: rest) || jsIncludes pat rest

/-- The dotted-quad test of part_000 line 139, the anchored regex
"1-3 digits, then three groups of a dot and 1-3 digits": equivalently,
splitting at dots yields exactly four parts of 1-3 digits each. -/
def isDottedQuad (h : Str) : Bool :=
  let parts := splitOnChar '.' h
  parts.length = 4 ∧
    parts.all (fun p => 1 ≤ p.length ∧ p.length ≤ 3 ∧ p.all isDigitChar)

/-- Regex `0.` anchored at the start — 0.0.0.0/8 (part_000 line 106). -/
def reZero (h : Str) : Bool := (S "0.").isPrefixOf h

/-- Regex `127.` anchored — 127.0.0.0/8 loopback (line 107). -/
def re127 (h : Str) : Bool := (S "127.").isPrefixOf h

/-- Regex `10.` anchored — 10.0.0.0/8 private (line 108). -/
def re10 (h : Str) : Bool := (S "10.").isPrefixOf h

/-- Regex `172.(1[6-9]|2\d|3[01]).` anchored — 172.16.0.0/12 (line 109);
every alternative is two characters followed by a literal dot. -/
def re172 : Str → Bool
  | '1' :: '7' :: '2' :: '.' :: c1 :: c2 :: '.' :: _ =>
    decide ((c1 = '1' ∧ 54 ≤ c2.toNat ∧ c2.toNat ≤ 57) ∨
      (c1 = '2' ∧ isDigitChar c2 = true) ∨ (c1 = '3' ∧ (c2 = '0' ∨ c2 = '1')))
  | _ => false

/-- Regex `192.168.` anchored — 192.168.0.0/16 (line 110). -/
def re192168 (h : Str) : Bool := (S "192.168.").isPrefixOf h

/-- Regex `169.254.` anchored — 169.254.0.0/16 (line 111). -/
def re169254 (h : Str) : Bool := (S "169.254.").isPrefixOf h

/-- The second-octet alternation of the CGNAT regex (line 112):
`6[4-9]|[7-9]\d` (two characters) or `1[01]\d|12[0-7]` (three characters),
in each case followed by a literal dot. -/
def re100Tail (rest : Str) : Bool :=
  (match rest with
   | c1 :: c2 :: '.' :: _ =>
     decide ((c1 = '6' ∧ 52 ≤ c2.toNat ∧ c2.toNat ≤ 57) ∨
       (55 ≤ c1.toNat ∧ c1.toNat ≤ 57 ∧ isDigitChar c2 = true))
   | _ => false) ||
  (match rest with
   | c1 :: c2 :: c3 :: '.' :: _ =>
     decide ((c1 = '1' ∧ (c2 = '0' ∨ c2 = '1') ∧ isDigitChar c3 = true) ∨
       (c1 = '1' ∧ c2 = '2' ∧ 48 ≤ c3.toNat ∧ c3.toNat ≤ 55))
   | _ => false)

/-- Regex `100.(6[4-9]|[7-9]\d|1[01]\d|12[0-7]).` anchored —
100.64.0.0/10 CGNAT (line 112). -/
def re100 : Str → Bool
  | '1' :: '0' :: '0' :: '.' :: rest => re100Tail rest
  | _ => false

/-- Regex `198.51.100.` anchored — TEST-NET-2 (line 113). -/
def re19851100 (h : Str) : Bool := (S "198.51.100.").isPrefixOf h

/-- Regex `203.0.113.` anchored — TEST-NET-3 (line 114). -/
def re2030113 (h : Str) : Bool := (S "203.0.113.").isPrefixOf h

/-- Regex `240.` anchored — the "Reserved" entry (line 115). -/
def re240 (h : Str) : Bool := (S "240.").isPrefixOf h

/-- Regex `255.255.255.255` fully anchored — broadcast (line 116). -/
def re255 (h : Str) : Bool := h = S "255.255.255.255"

/-- `BLOCKED_IPV4` (part_000 lines 105-117). -/
def BLOCKED_IPV4 : List (Str → Bool) :=
  [reZero, re127, re10, re172, re192168, re169254, re100, re19851100,
   re2030113, re240, re255]

/-- `BLOCKED_IPV6` (part_000 lines 120-127); the classifier only consults it
for strings containing a colon, which are already lowercase there, so the
case-insensitive flags reduce to plain prefix tests. -/
def BLOCKED_IPV6 : List (Str → Bool) :=
  [fun h => h = S "::1", fun h => (S "::").isPrefixOf h,
   fun h => (S "fc").isPrefixOf h, fun h => (S "fd").isPrefixOf h,
   fun h => (S "fe80").isPrefixOf h, fun h => (S "ff").isPrefixOf h]

/-- `isBlockedHostname` (part_000 lines 129-149). -/
def isBlockedHostname (hostname : Str) : Bool :=
  let h := jsLower hostname
  if BLOCKED_HOSTNAMES.contains h then true
  else if internalSuffix h then true
  else if isDottedQuad h then BLOCKED_IPV4.any (fun re => re h)
  else if h.contains ':' then BLOCKED_IPV6.any (fun re => re h)
  else false

-- ─── Canonical dotted-quad rendering ─────────────────────────────────────────

/-- The decimal digit character for `n < 10`. -/
def digitChar (n : Nat) : Char := Char.ofNat (48 + n)

/-- Decimal digits of `n`, most significant first, by fuelled division;
empty for `n = 0`. -/
def natToDigitsAux : Nat → Nat → Str
  | 0, _ => []
  | fuel + 1, n =>
    if n = 0 then []
    else natToDigitsAux fuel (n / 10) ++ [digitChar (n % 10)]

/-- Canonical decimal rendering of a natural number (no leading zeros). -/
def natToDigits (n : Nat) : Str := if n = 0 then ['0'] else natToDigitsAux 20 n

/-- Canonical dotted-quad rendering of four octets, as produced by the
WHATWG URL host parser's IPv4 serializer. -/
def renderIPv4 (a b c d : Nat) : Str :=
  natToDigits a ++ '.' :: natToDigits b ++ '.' :: natToDigits c ++
    '.' :: natToDigits d

/-- The IPv4 ranges listed by the claim/spec, including 240.0.0.0/4.
Stated from the spec's words, for comparison with the code's regexes. -/
def inClaimedBlockedRange (a b c d : Nat) : Bool :=
  a = 0 ∨ a = 127 ∨ a = 10 ∨ (a = 172 ∧ 16 ≤ b ∧ b ≤ 31) ∨
    (a = 192 ∧ b = 168) ∨ (a = 169 ∧ b = 254) ∨
    (a = 100 ∧ 64 ≤ b ∧ b ≤ 127) ∨ (a = 198 ∧ b = 51 ∧ c = 100) ∨
    (a = 203 ∧ b = 0 ∧ c = 113) ∨ (240 ≤ a ∧ a ≤ 255) ∨
    (a = 255 ∧ b = 255 ∧ c = 255 ∧ d = 255)

/-- The IPv4 ranges the code's regexes actually cover: as the claimed list,
but with 240.0.0.0/8 in place of 240.0.0.0/4. -/
def inCodeBlockedRange (a b c d : Nat) : Bool :=
  a = 0 ∨ a = 127 ∨ a = 10 ∨ (a = 172 ∧ 16 ≤ b ∧ b ≤ 31) ∨
    (a = 192 ∧ b = 168) ∨ (a = 169 ∧ b = 254) ∨
    (a = 100 ∧ 64 ≤ b ∧ b ≤ 127) ∨ (a = 198 ∧ b = 51 ∧ c = 100) ∨
    (a = 203 ∧ b = 0 ∧ c = 113) ∨ a = 240 ∨
    (a = 255 ∧ b = 255 ∧ c = 255 ∧ d = 255)

-- ─── WHATWG URL model ────────────────────────────────────────────────────────

/-- A parsed URL record, following the WHATWG URL internal representation as
exposed through the JavaScript `URL` API: `scheme` without the trailing
colon, serialized `host`, `port` (`none` when absent or equal to the
scheme's default), `path` as a list of already percent-encoded segments,
and `query`/`fragment` without their leading delimiter. -/
structure URLRecord where
  scheme : Str
  username : Str
  password : Str
  host : Str
  port : Option Nat
  path : List Str
  query : Option Str
  fragment : Option Str
deriving DecidableEq

def isAsciiAlpha (c : Char) : Bool :=
  (65 ≤ c.toNat ∧ c.toNat ≤ 90) ∨ (97 ≤ c.toNat ∧ c.toNat ≤ 122)

/-- Characters allowed after the first in a URL scheme:
`letter | digit | + | - | .` -/
def schemeChar (c : Char) : Bool :=
  isAsciiAlpha c ∨ isDigitChar c ∨ c = '+' ∨ c = '-' ∨ c = '.'

/-- Split a string into a leading scheme (a letter followed by scheme
characters) up to a colon, and the remainder after the colon.  This is both
the capture of the source regex of part_000 line 183 (which additionally
requires `//` to follow) and the WHATWG scheme state. -/
def splitScheme : Str → Option (Str × Str)
  | [] => none
  | c :: cs =>
    if isAsciiAlpha c then
      match cs.dropWhile schemeChar with
      | ':' :: r => some (c :: cs.takeWhile schemeChar, r)
      | _ => none
    else none

/-- WHATWG forbidden host code points (printable subset), plus `%`, which is
forbidden in domains. -/
def forbiddenHostChar (c : Char) : Bool :=
  c = '#' ∨ c = '%' ∨ c = '/' ∨ c = ':' ∨ c = '<' ∨ c = '>' ∨ c = '?' ∨
  c = '@' ∨ c = '[' ∨ c = '\\' ∨ c = ']' ∨ c = '^' ∨ c = '|'

/-- Characters the modelled host parser accepts: printable ASCII that is not
a forbidden host code point.  (Model restriction: non-ASCII hostnames, which
the platform would run through IDNA/punycode, and `%`-escapes in hostnames
are rejected rather than mapped.) -/
def hostChar (c : Char) : Bool :=
  0x20 < c.toNat ∧ c.toNat < 0x7F ∧ ¬ forbiddenHostChar c

def hexVal (c : Char) : Option Nat :=
  if 48 ≤ c.toNat ∧ c.toNat ≤ 57 then some (c.toNat - 48)
  else if 97 ≤ c.toNat ∧ c.toNat ≤ 102 then some (c.toNat - 87)
  else if 65 ≤ c.toNat ∧ c.toNat ≤ 70 then some (c.toNat - 55)
  else none

def radixVal (r : Nat) (c : Char) : Option Nat :=
  match hexVal c with
  | some v => if v < r then some v else none
  | none => none

/-- Parse a whole string as digits of radix `r` (an empty string yields the
accumulator, as in the WHATWG IPv4-number parser). -/
def parseRadix (r : Nat) : Str → Nat → Option Nat
  | [], acc => some acc
  | c :: cs, acc =>
    match radixVal r c with
    | some v => parseRadix r cs (acc * r + v)
    | none => none

/-- The WHATWG IPv4-number parser: `0x`/`0X` prefix selects hex, a leading
zero on a longer numeral selects octal, otherwise decimal; an empty numeral
after the radix prefix is zero. -/
def ipv4Number (s : Str) : Option Nat :=
  if s = [] then none
  else if (S "0x").isPrefixOf s ∨ (S "0X").isPrefixOf s then
    parseRadix 16 (s.drop 2) 0
  else if 2 ≤ s.length ∧ s.head? = some '0' then
    parseRadix 8 (s.drop 1) 0
  else
    parseRadix 10 s 0

/-- The last dot-separated label of a host, ignoring one trailing empty
label, as used by the WHATWG "ends in a number" check. -/
def lastMeaningfulPart (parts : List Str) : Option Str :=
  match parts.getLast? with
  | some last => if last = [] then parts.dropLast.getLast? else some last
  | none => none

/-- WHATWG "ends in a number": the final label is nonempty and consists of
ASCII digits or parses as an IPv4 number. -/
def endsInNumber (h : Str) : Bool :=
  match lastMeaningfulPart (splitOnChar '.' h) with
  | some p => ¬ p = [] ∧ (p.all isDigitChar ∨ (ipv4Number p).isSome)
  | none => false

/-- All parts as IPv4 numbers, or `none` if any part fails. -/
def mapIPv4Numbers : List Str → Option (List Nat)
  | [] => some []
  | p :: ps =>
    match ipv4Number p, mapIPv4Numbers ps with
    | some n, some ns => some (n :: ns)
    | _, _ => none

/-- The WHATWG IPv4 parser: split at dots (one trailing empty label
allowed), at most four parts, every part an IPv4 number, the leading parts
at most 255, and the last part below `256 ^ (5 - n)`. -/
def parseIPv4 (h : Str) : Option Nat :=
  let parts0 := splitOnChar '.' h
  let parts :=
    if parts0.getLast? = some ([] : Str) ∧ 1 < parts0.length
    then parts0.dropLast else parts0
  if parts.length = 0 ∨ 4 < parts.length then none
  else
    match mapIPv4Numbers parts with
    | none => none
    | some nums =>
      let lastN := nums.getLastD 0
      let firsts := nums.dropLast
      if firsts.any (fun x => 255 < x) then none
      else if 256 ^ (4 - firsts.length) ≤ lastN then none
      else
        some ((firsts.foldl (fun acc x => acc * 256 + x) 0) *
          256 ^ (4 - firsts.length) + lastN)

/-- The WHATWG IPv4 serializer: four decimal octets, most significant
first. -/
def serializeIPv4 (n : Nat) : Str :=
  renderIPv4 (n / 16777216 % 256) (n / 65536 % 256) (n / 256 % 256) (n % 256)

/-- Modelled from the spec: the WHATWG host parser for special schemes,
restricted to ASCII hosts (no IDNA, no `%`-decoding, no bracketed IPv6
literals — such inputs fail instead of being mapped).  A host whose final
label is numeric must parse as IPv4 and is replaced by its canonical
dotted-quad serialization. -/
def parseHost (hp : Str) : Option Str :=
  if hp = [] then none
  else if ¬ hp.all hostChar then none
  else
    let h := jsLower hp
    if endsInNumber h then (parseIPv4 h).map serializeIPv4
    else some h

/-- The WHATWG port state: digits only, at most 65535; an empty port is
absent. Returns `none` on failure. -/
def parsePort (p : Str) : Option (Option Nat) :=
  if p = [] then some none
  else if ¬ p.all isDigitChar then none
  else
    match parseRadix 10 p 0 with
    | none => none
    | some v => if 65535 < v then none else some (some v)

/-- Default ports are dropped from the record, as the WHATWG parser does. -/
def stripDefaultPort (scheme : Str) (p : Option Nat) : Option Nat :=
  match p with
  | none => none
  | some v =>
    if (scheme = S "http" ∧ v = 80) ∨ (scheme = S "https" ∧ v = 443)
    then none else some v

/-- Split at the first occurrence of `sep`: `some (before, after)`, or
`none` when absent. -/
def splitFirstAt (sep : Char) : Str → Option (Str × Str)
  | [] => none
  | c :: cs =>
    if c = sep then some ([], cs)
    else (splitFirstAt sep cs).map (fun p => (c :: p.1, p.2))

/-- Split at the last occurrence of `sep`. -/
def splitLastAt (sep : Char) (l : Str) : Option (Str × Str) :=
  match splitFirstAt sep l.reverse with
  | some (afterRev, beforeRev) => some (beforeRev.reverse, afterRev.reverse)
  | none => none

/-- Authority parsing: userinfo before the last `@` (username before the
first `:`, password after — stored raw in the model, which only ever
serializes empty userinfo), then host and optional port. -/
def parseAuthority (auth : Str) :
    Option (Str × Str × Str × Option Nat) :=
  let uiHp :=
    match splitLastAt '@' auth with
    | some (ui, hp) => (some ui, hp)
    | none => (none, auth)
  let userPass :=
    match uiHp.1 with
    | none => (([] : Str), ([] : Str))
    | some ui =>
      match splitFirstAt ':' ui with
      | some (u, pw) => (u, pw)
      | none => (ui, [])
  let hostPort :=
    match splitFirstAt ':' uiHp.2 with
    | some (hs, ps) => (hs, some ps)
    | none => (uiHp.2, none)
  match parseHost hostPort.1 with
  | none => none
  | some host =>
    match hostPort.2 with
    | none => some (userPass.1, userPass.2, host, none)
    | some ps =>
      match parsePort ps with
      | none => none
      | some port => some (userPass.1, userPass.2, host, port)

/-- Code points serialized verbatim in a path segment (the complement of
the WHATWG path percent-encode set, within ASCII). -/
def pathSafeChar (c : Char) : Bool :=
  0x20 < c.toNat ∧ c.toNat < 0x7F ∧
  ¬ (c = '"' ∨ c = '<' ∨ c = '>' ∨ c = Char.ofNat 0x60 ∨ c = '#' ∨
     c = '?' ∨ c = Char.ofNat 0x7B ∨ c = Char.ofNat 0x7D)

/-- Complement of the WHATWG special-query percent-encode set, within
ASCII. -/
def querySafeChar (c : Char) : Bool :=
  0x20 < c.toNat ∧ c.toNat < 0x7F ∧
  ¬ (c = '"' ∨ c = '#' ∨ c = '<' ∨ c = '>' ∨ c = Char.ofNat 0x27)

/-- Complement of the WHATWG fragment percent-encode set, within ASCII. -/
def fragSafeChar (c : Char) : Bool :=
  0x20 < c.toNat ∧ c.toNat < 0x7F ∧
  ¬ (c = '"' ∨ c = '<' ∨ c = '>' ∨ c = Char.ofNat 0x60)

def hexDigitUpper (n : Nat) : Char :=
  if n < 10 then Char.ofNat (48 + n) else Char.ofNat (55 + n)

/-- `%XY` for one byte, uppercase hex as the WHATWG serializer emits. -/
def percentByte (b : Nat) : Str :=
  ['%', hexDigitUpper (b / 16), hexDigitUpper (b % 16)]

/-- UTF-8 percent-encoding of every character not in the safe set. -/
def percentEncodeChar (safe : Char → Bool) (c : Char) : Str :=
  if safe c then [c] else (utf8Bytes c).flatMap percentByte

def percentEncode (safe : Char → Bool) (s : Str) : Str :=
  s.flatMap (percentEncodeChar safe)

def isSlash (c : Char) : Bool := c = '/' ∨ c = '\\'

def authEndChar (c : Char) : Bool :=
  c = '/' ∨ c = '\\' ∨ c = '?' ∨ c = '#'

/-- WHATWG path state over the slash-separated segments: `..` pops a
segment, `.` is dropped, and a dot segment in final position additionally
leaves an empty final segment; other segments are percent-encoded and
appended.  (Model restriction: the `%2e` spellings of dot segments are not
special-cased.) -/
def processSegs : List Str → List Str → List Str
  | acc, [] => acc
  | acc, [s] =>
    if s = S ".." then acc.dropLast ++ [[]]
    else if s = S "." then acc ++ [[]]
    else acc ++ [percentEncode pathSafeChar s]
  | acc, s :: rest =>
    if s = S ".." then processSegs acc.dropLast rest
    else if s = S "." then processSegs acc rest
    else processSegs (acc ++ [percentEncode pathSafeChar s]) rest

/-- Parse the path part (empty, or starting with a slash): drop the leading
slash, split at slashes (both kinds, as for special schemes), process dot
segments and encode.  An absent path yields the single empty segment, which
serializes as `/`. -/
def parsePath (p : Str) : List Str :=
  match p with
  | [] => [[]]
  | _ :: tail => processSegs [] (splitOnPred isSlash tail)

/-- Split everything after the authority into path, query and fragment:
the fragment follows the first `#`, the query follows the first `?` before
that. -/
def parseAfterAuthority (rest : Str) : List Str × Option Str × Option Str :=
  let pq := rest.takeWhile (fun c => ¬ c = '#')
  let fragPart := rest.dropWhile (fun c => ¬ c = '#')
  let frag :=
    match fragPart with
    | [] => none
    | _ :: f => some (percentEncode fragSafeChar f)
  let p := pq.takeWhile (fun c => ¬ c = '?')
  let qPart := pq.dropWhile (fun c => ¬ c = '?')
  let q :=
    match qPart with
    | [] => none
    | _ :: qq => some (percentEncode querySafeChar qq)
  (parsePath p, q, frag)

/-- Modelled from the spec: `new URL(str)`, the WHATWG basic URL parser,
restricted to absolute `http`/`https` URLs with ASCII hosts.  The scheme is
parsed and lowercased; all slashes after the colon are skipped (special
authority ignore slashes state); the authority runs to the first `/`, `\`,
`?` or `#`; host, port, path, query and fragment are parsed as above.
Inputs outside the modelled fragment (other schemes, IPv6 or non-ASCII or
percent-escaped hosts, `%2e` dot segments) fail rather than being mapped;
the WHATWG input preprocessing (stripping C0/space at the ends and
tab/newline anywhere) is omitted because `validateUrl` only parses strings
already stripped of control characters and trimmed. -/
def parseURL (s : Str) : Option URLRecord :=
  match splitScheme s with
  | none => none
  | some (schemeRaw, rest) =>
    let scheme := jsLower schemeRaw
    if ¬ (scheme = S "http" ∨ scheme = S "https") then none
    else
      let r2 := rest.dropWhile isSlash
      let auth := r2.takeWhile (fun c => ¬ authEndChar c)
      let after := r2.dropWhile (fun c => ¬ authEndChar c)
      match parseAuthority auth with
      | none => none
      | some (username, password, host, port0) =>
        let pqf := parseAfterAuthority after
        some { scheme := scheme, username := username, password := password,
               host := host, port := stripDefaultPort scheme port0,
               path := pqf.1, query := pqf.2.1, fragment := pqf.2.2 }

/-- Serialize a path segment list: a `/` before every segment. -/
def joinPath : List Str → Str
  | [] => []
  | seg :: rest => '/' :: seg ++ joinPath rest

/-- `:port` when present. -/
def portSerial : Option Nat → Str
  | none => []
  | some p => ':' :: natToDigits p

/-- `?query` when present. -/
def querySerial : Option Str → Str
  | none => []
  | some q => '?' :: q

/-- `#fragment` when present. -/
def fragSerial : Option Str → Str
  | none => []
  | some f => '#' :: f

/-- The WHATWG URL serializer (`parsed.toString()`): scheme, `://`,
userinfo when present, host, `:port` when present, the path, `?query` and
`#fragment` when present. -/
def serializeURL (u : URLRecord) : Str :=
  u.scheme ++ S "://" ++
  (if u.username = [] ∧ u.password = [] then []
   else
     u.username ++ (if u.password = [] then [] else ':' :: u.password) ++
       ['@']) ++
  u.host ++ portSerial u.port ++ joinPath u.path ++
  querySerial u.query ++ fragSerial u.fragment

/-- The normalization of part_000 lines 232-239: lowercase the protocol
and hostname via the API setters, then clear the port when it equals the
scheme's default. -/
def normalizeRec (parsed : URLRecord) : URLRecord :=
  let n1 := { parsed with
    scheme := jsLower parsed.scheme, host := jsLower parsed.host }
  { n1 with
    port :=
      if (n1.scheme ++ [':'] = S "http:" ∧ n1.port = some 80) ∨
         (n1.scheme ++ [':'] = S "https:" ∧ n1.port = some 443)
      then none else n1.port }

/-- Invariants of every record the modelled parser produces, sufficient
for the serializer and parser to round-trip. -/
structure GoodRec (rec : URLRecord) : Prop where
  scheme_ok : rec.scheme = S "http" ∨ rec.scheme = S "https"
  user_nil : rec.username = []
  pass_nil : rec.password = []
  host_ne : ¬ rec.host = []
  host_chars : ∀ c ∈ rec.host, hostChar c = true
  host_fix : parseHost rec.host = some rec.host
  port_ok : ∀ p, rec.port = some p → p ≤ 65535 ∧
    stripDefaultPort rec.scheme (some p) = some p
  path_ne : ¬ rec.path = []
  path_segs : ∀ seg ∈ rec.path, ¬ seg = S "." ∧ ¬ seg = S ".." ∧
    ∀ c ∈ seg, pathSafeChar c = true ∧ isSlash c = false
  query_chars : ∀ q, rec.query = some q → ∀ c ∈ q, querySafeChar c = true
  frag_chars : ∀ f, rec.fragment = some f → ∀ c ∈ f, fragSafeChar c = true

-- ─── URL Validator (`validateUrl`) ───────────────────────────────────────────

/-- A validation result: either a success carrying the normalized value, or
a failure carrying the user-facing reason. -/
inductive VRes where
  | ok (value : Str)
  | error (msg : Str)
deriving DecidableEq

def VRes.isOk : VRes → Bool
  | .ok _ => true
  | .error _ => false

/-- `validateUrl` (part_000 lines 163-242).  The `typeof` guard is absorbed
by typing; otherwise step for step: sanitize, trim, NFKC-normalize; reject
empty and over-2048-character strings; require `scheme://` and an `http` or
`https` scheme before parsing; parse; re-check the parsed protocol; reject
embedded credentials; require a hostname that is a raw IP or contains a
dot; reject blocked hostnames; lowercase protocol and hostname, strip a
default port, and serialize. -/
def validateUrl (raw : Str) : VRes :=
  let str := nfkc (jsTrim (stripControlChars raw))
  if str.length = 0 then .error (S "URL must not be empty.")
  else if 2048 < str.length then
    .error (S "URL must be 2048 characters or fewer.")
  else
    let schemeM :=
      match splitScheme str with
      | some (schemeRaw, afterColon) =>
        if (S "//").isPrefixOf afterColon then some schemeRaw else none
      | none => none
    match schemeM with
    | none => .error (S "URL must include a scheme (https:// or http://).")
    | some schemeRaw =>
      let scheme := jsLower schemeRaw
      if ¬ (scheme = S "http" ∨ scheme = S "https") then
        .error (S "URL scheme \"" ++ scheme ++
          S "\" is not allowed. Only http and https are accepted.")
      else
        match parseURL str with
        | none => .error (S "URL is not valid and could not be parsed.")
        | some parsed =>
          if ¬ (parsed.scheme ++ [':'] = S "http:" ∨
                parsed.scheme ++ [':'] = S "https:") then
            .error (S "Only http and https URLs are accepted.")
          else if ¬ parsed.username = [] ∨ ¬ parsed.password = [] then
            .error (S "URLs with embedded credentials are not accepted.")
          else if parsed.host = [] then
            .error (S "URL must contain a valid hostname.")
          else if ¬ (isDottedQuad parsed.host ∨ parsed.host.contains ':') ∧
              ¬ parsed.host.contains '.' then
            .error (S "URL hostname does not appear to be a valid domain.")
          else if isBlockedHostname parsed.host then
            .error (S "URL resolves to a reserved or private address.")
          else
            .ok (serializeURL (normalizeRec parsed))

-- ─── Slug Policy ─────────────────────────────────────────────────────────────

/-- `RESERVED_SLUGS` (part_000 lines 247-253). -/
def RESERVED_SLUGS : List Str :=
  [S "api", S "admin", S "assets", S "static", S "public", S "cdn",
   S "_headers", S "_redirects", S "_routes", S "favicon", S "robots",
   S "sitemap", S "index", S "health", S "ping", S "status",
   S "login", S "logout", S "signup", S "register", S "dashboard",
   S "wp-admin", S "wp-login", S ".env", S ".git"]

def slugHeadChar (c : Char) : Bool :=
  (97 ≤ c.toNat ∧ c.toNat ≤ 122) ∨ isDigitChar c

def slugTailChar (c : Char) : Bool :=
  slugHeadChar c ∨ c = '-' ∨ c = '_'

/-- `SLUG_RE` (part_000 line 255), the anchored regex
"one of a-z 0-9, then 1 to 31 of a-z 0-9 hyphen underscore". -/
def SLUG_RE : Str → Bool
  | [] => false
  | c :: rest =>
    slugHeadChar c ∧ 1 ≤ rest.length ∧ rest.length ≤ 31 ∧
      rest.all slugTailChar

/-- `validateCustomSlug` (part_000 lines 261-290): sanitize, trim,
lowercase, NFKC-normalize; length 2-32; `SLUG_RE`; not reserved; no `..`,
`/` or `\`. -/
def validateCustomSlug (raw : Str) : VRes :=
  let slug := nfkc (jsLower (jsTrim (stripControlChars raw)))
  if slug.length < 2 then
    .error (S "customSlug must be at least 2 characters.")
  else if 32 < slug.length then
    .error (S "customSlug must be 32 characters or fewer.")
  else if ¬ SLUG_RE slug then
    .error (S "customSlug may only contain a-z, 0-9, hyphens, and underscores, and must start with a letter or number.")
  else if RESERVED_SLUGS.contains slug then
    .error (S "The slug \"" ++ slug ++ S "\" is reserved and cannot be used.")
  else if jsIncludes (S "..") slug ∨ slug.contains '/' ∨
      slug.contains '\\' then
    .error (S "customSlug must not contain path separators.")
  else .ok slug

/-- `validateLookupSlug` (part_000 lines 295-315): sanitize, trim,
lowercase (no NFKC); length 1-64; characters a-z 0-9 hyphen underscore
only; no `..`. -/
def validateLookupSlug (raw : Str) : VRes :=
  let slug := jsLower (jsTrim (stripControlChars raw))
  if slug.length < 1 ∨ 64 < slug.length then
    .error (S "slug must be between 1 and 64 characters.")
  else if ¬ slug.all slugTailChar then
    .error (S "slug contains invalid characters.")
  else if jsIncludes (S "..") slug then
    .error (S "slug must not contain path traversal sequences.")
  else .ok slug

-- ─── Bounded JSON Ingestion (`readJsonBody`) ─────────────────────────────────

/-- `MAX_BODY_BYTES` (part_000 line 319). -/
def MAX_BODY_BYTES : Nat := 8192

/-- The JSON value shape produced by `JSON.parse`. -/
inductive Json where
  | null
  | bool (b : Bool)
  | num (n : Int)
  | str (s : Str)
  | arr (elems : List Json)
  | obj (fields : List (Str × Json))

/-- `typeof parsed === 'object' && parsed !== null && !Array.isArray(parsed)`. -/
def isPlainObject : Json → Bool
  | .obj _ => true
  | _ => false

/-- The request surface `readJsonBody` consumes: the `Content-Type` and
`Content-Length` headers and the body as the sequence of byte chunks the
stream reader yields. -/
structure JsRequest where
  contentType : Option Str
  contentLength : Option Str
  chunks : List (List Nat)

/-- A body-reading result: decoded object or user-facing reason. -/
inductive JRes where
  | ok (body : Json)
  | error (msg : Str)

def JRes.isOk : JRes → Bool
  | .ok _ => true
  | .error _ => false

/-- Value of a nonempty ASCII digit prefix, `none` when there is none
(`parseInt` yields `NaN`). -/
def digitsPrefixVal (s : Str) : Option Nat :=
  let ds := s.takeWhile isDigitChar
  if ds = [] then none
  else some (ds.foldl (fun acc c => acc * 10 + (c.toNat - 48)) 0)

/-- Modelled from the spec: `parseInt(s, 10)` — skip leading whitespace,
optional sign, then a digit prefix; `none` models `NaN` (every numeric
comparison with which is false). -/
def parseIntJS (s : Str) : Option Int :=
  let t := s.dropWhile isJsWhitespace
  match t with
  | '-' :: rest => (digitsPrefixVal rest).map (fun v => -(v : Int))
  | '+' :: rest => (digitsPrefixVal rest).map (fun v => (v : Int))
  | _ => (digitsPrefixVal t).map (fun v => (v : Int))

/-- The chunked read loop of part_000 lines 343-352: accumulate chunks,
keeping a running byte total; as soon as the total exceeds the cap, cancel
the reader and fail.  The second component counts how many chunks were read
from the stream. -/
def readLoop : List (List Nat) → Nat → Option (List Nat) × Nat
  | [], _ => (some [], 0)
  | chunk :: rest, total =>
    let t := total + chunk.length
    if MAX_BODY_BYTES < t then (none, 1)
    else
      match readLoop rest t with
      | (res, k) => (res.map (fun bs => chunk ++ bs), k + 1)

/-- `readJsonBody` (part_000 lines 325-374), with `JSON.parse` abstracted
(`none` models a thrown `SyntaxError`).  Returns the result paired with the
number of body chunks read.  Content type must be exactly
`application/json` up to parameters and case; a declared content length
above the cap fails before any read; the read loop enforces the cap against
the actual stream; the bytes must decode as strict UTF-8; the parsed value
must be a non-null, non-array object. -/
def readJsonBody (jsonParse : Str → Option Json) (req : JsRequest) :
    JRes × Nat :=
  let ct := jsLower (jsTrim ((req.contentType.getD []).takeWhile
    (fun c => ¬ c = ';')))
  if ¬ ct = S "application/json" then
    (.error (S "Content-Type must be application/json."), 0)
  else
    let cl := parseIntJS (req.contentLength.getD (S "0"))
    let tooLarge : Bool :=
      match cl with
      | some n => decide ((MAX_BODY_BYTES : Int) < n)
      | none => false
    if tooLarge then (.error (S "Request body too large."), 0)
    else
      match readLoop req.chunks 0 with
      | (none, k) => (.error (S "Request body too large."), k)
      | (some bytes, k) =>
        match utf8Decode bytes with
        | none => (.error (S "Could not read request body."), k)
        | some text =>
          match jsonParse text with
          | none => (.error (S "Invalid JSON payload."), k)
          | some j =>
            if isPlainObject j then (.ok j, k)
            else (.error (S "JSON payload must be an object."), k)

/-- Total number of body bytes in a chunk sequence. -/
def sumBytes (chunks : List (List Nat)) : Nat :=
  (chunks.map List.length).sum

/-- A concrete request with an oversized declared `Content-Length`. -/
def c6reqA : JsRequest :=
  { contentType := some (S "application/json"),
    contentLength := some (S "9000"),
    chunks := [[1, 2, 3]] }

/-- A concrete request with no declared length and an oversized stream. -/
def c6reqB : JsRequest :=
  { contentType := some (S "application/json"),
    contentLength := none,
    chunks := [List.replicate 5000 0, List.replicate 5000 0] }

/-- A 2120-character URL string padded with zero-width spaces: longer than
2048 characters, yet sanitized to a 20-character URL. -/
def c2input : Str :=
  S "https://example.com/" ++ List.replicate 2100 (Char.ofNat 0x200B)

/-- A 701-character URL whose path holds 680 spaces: accepted, but its
canonical form percent-encodes every space to `%20` and has 2061
characters. -/
def c7input : Str :=
  S "https://example.com/" ++ List.replicate 680 ' ' ++ S "a"

/-- The canonical serialization of `c7input`: 2061 characters, beyond the
validator's own length bound. -/
def c7output : Str :=
  S "https://example.com/" ++ (List.replicate 680 (S "%20")).flatten ++ S "a"

-- ─── Short-code generation (`generateCode`) ──────────────────────────────────

/-- `CHARS` (part_001 line 11). -/
def CHARS : Str := S "abcdefghijklmnopqrstuvwxyz0123456789"

/-- `generateCode` (part_001 lines 15-19) as a function of the random bytes
`crypto.getRandomValues` filled in: every byte indexes `CHARS` modulo its
length. -/
def generateCode (randomBytes : List Nat) : Str :=
  randomBytes.map (fun b => CHARS.getD (b % CHARS.length) 'a')

-- ─── Helper lemmas ───────────────────────────────────────────────────────────

theorem lor_eq_zero_iff (x y : Nat) : x ||| y = 0 ↔ x = 0 ∧ y = 0 := by
  constructor
  · intro h
    constructor <;>
      · apply Nat.eq_of_testBit_eq
        intro i
        have hb := congrArg (fun n => Nat.testBit n i) h
        simp only [Nat.testBit_or, Nat.zero_testBit,
          Bool.or_eq_false_iff] at hb
        simp [hb.1, hb.2]
  · rintro ⟨rfl, rfl⟩
    rfl

theorem foldl_or_xor_zero :
    ∀ (l : List (Nat × Nat)) (i : Nat),
      l.foldl (fun d p => d ||| (p.1 ^^^ p.2)) i = 0 ↔
        i = 0 ∧ ∀ p ∈ l, p.1 ^^^ p.2 = 0 := by
  intro l
  induction l with
  | nil => simp
  | cons h t ih =>
    intro i
    simp only [List.foldl_cons, ih, lor_eq_zero_iff, List.mem_cons]
    constructor
    · rintro ⟨⟨hi, hh⟩, ht⟩
      exact ⟨hi, fun x hx => hx.elim (fun e => e ▸ hh) (ht x)⟩
    · rintro ⟨hi, hall⟩
      exact ⟨⟨hi, hall h (Or.inl rfl)⟩, fun x hx => hall x (Or.inr hx)⟩

theorem zip_self_fst_eq_snd :
    ∀ (l : List Nat) (p : Nat × Nat), p ∈ l.zip l → p.1 = p.2
  | [], _, h => by simp at h
  | a :: t, p, h => by
    rw [List.zip_cons_cons] at h
    rcases List.mem_cons.mp h with rfl | h2
    · rfl
    · exact zip_self_fst_eq_snd t p h2

theorem eq_of_zip_eq :
    ∀ {l₁ l₂ : List Nat}, l₁.length = l₂.length →
      (∀ p ∈ l₁.zip l₂, p.1 = p.2) → l₁ = l₂
  | [], [], _, _ => rfl
  | [], _ :: _, h, _ => by simp at h
  | _ :: _, [], h, _ => by simp at h
  | a :: l₁, b :: l₂, h, hz => by
    have h1 : a = b := hz (a, b) (by simp [List.zip_cons_cons])
    have h2 : l₁ = l₂ :=
      eq_of_zip_eq (by simpa using h)
        (fun p hp => hz p (by simp [List.zip_cons_cons, hp]))
    rw [h1, h2]

/-- Every `Char` carries a valid Unicode scalar value. -/
theorem char_valid_nat (c : Char) :
    c.toNat < 0xD800 ∨ (0xDFFF < c.toNat ∧ c.toNat < 0x110000) := by
  cases c.valid with
  | inl h => exact Or.inl h
  | inr h => exact Or.inr ⟨h.1, h.2⟩

/-- Explicit description of the four UTF-8 encoding shapes. -/
theorem utf8Bytes_cases (c : Char) :
    (c.toNat < 0x80 ∧ utf8Bytes c = [c.toNat]) ∨
    (0x80 ≤ c.toNat ∧ c.toNat < 0x800 ∧
      utf8Bytes c = [0xC0 + c.toNat / 64, 0x80 + c.toNat % 64]) ∨
    (0x800 ≤ c.toNat ∧ c.toNat < 0x10000 ∧
      utf8Bytes c =
        [0xE0 + c.toNat / 4096, 0x80 + c.toNat / 64 % 64,
         0x80 + c.toNat % 64]) ∨
    (0x10000 ≤ c.toNat ∧ c.toNat < 0x110000 ∧
      utf8Bytes c =
        [0xF0 + c.toNat / 262144, 0x80 + c.toNat / 4096 % 64,
         0x80 + c.toNat / 64 % 64, 0x80 + c.toNat % 64]) := by
  have hv := char_valid_nat c
  unfold utf8Bytes
  by_cases h1 : c.toNat < 0x80
  · exact Or.inl ⟨h1, by rw [if_pos h1]⟩
  · by_cases h2 : c.toNat < 0x800
    · exact Or.inr (Or.inl ⟨by omega, h2, by rw [if_neg h1, if_pos h2]⟩)
    · by_cases h3 : c.toNat < 0x10000
      · exact Or.inr (Or.inr (Or.inl
          ⟨by omega, h3, by rw [if_neg h1, if_neg h2, if_pos h3]⟩))
      · exact Or.inr (Or.inr (Or.inr
          ⟨by omega, by omega, by rw [if_neg h1, if_neg h2, if_neg h3]⟩))

theorem utf8Bytes_ne_nil (c : Char) : utf8Bytes c ≠ [] := by
  rcases utf8Bytes_cases c with ⟨_, he⟩ | ⟨_, _, he⟩ | ⟨_, _, he⟩ | ⟨_, _, he⟩ <;>
    simp [he]

/-- UTF-8 is a prefix code: a character's bytes at the head of a stream
determine the character and the remaining stream. -/
theorem utf8Bytes_prefix_inj {c₁ c₂ : Char} {r₁ r₂ : List Nat}
    (h : utf8Bytes c₁ ++ r₁ = utf8Bytes c₂ ++ r₂) : c₁ = c₂ ∧ r₁ = r₂ := by
  have h641 : c₁.toNat / 64 / 64 = c₁.toNat / 4096 := by
    rw [Nat.div_div_eq_div_mul]
  have h642 : c₂.toNat / 64 / 64 = c₂.toNat / 4096 := by
    rw [Nat.div_div_eq_div_mul]
  have h40961 : c₁.toNat / 4096 / 64 = c₁.toNat / 262144 := by
    rw [Nat.div_div_eq_div_mul]
  have h40962 : c₂.toNat / 4096 / 64 = c₂.toNat / 262144 := by
    rw [Nat.div_div_eq_div_mul]
  have hch : c₁.toNat = c₂.toNat → c₁ = c₂ := fun hh => by
    have h2 := congrArg Char.ofNat hh
    rwa [Char.ofNat_toNat, Char.ofNat_toNat] at h2
  rcases utf8Bytes_cases c₁ with ⟨hb₁, he₁⟩ | ⟨hlo₁, hb₁, he₁⟩ |
      ⟨hlo₁, hb₁, he₁⟩ | ⟨hlo₁, hb₁, he₁⟩ <;>
    rcases utf8Bytes_cases c₂ with ⟨hb₂, he₂⟩ | ⟨hlo₂, hb₂, he₂⟩ |
        ⟨hlo₂, hb₂, he₂⟩ | ⟨hlo₂, hb₂, he₂⟩ <;>
      rw [he₁, he₂] at h <;>
      simp only [List.cons_append, List.nil_append, List.cons.injEq] at h <;>
      first
        | exact absurd h.1 (by omega)
        | exact ⟨hch (by omega), h.2⟩
        | exact ⟨hch (by omega), h.2.2⟩
        | exact ⟨hch (by omega), h.2.2.2⟩
        | exact ⟨hch (by omega), h.2.2.2.2⟩

/-- UTF-8 encoding is injective on strings. -/
theorem encodeUTF8_inj : ∀ {a b : Str}, encodeUTF8 a = encodeUTF8 b → a = b
  | [], [], _ => rfl
  | [], c :: _, h => by
    exfalso
    apply utf8Bytes_ne_nil c
    have h2 : ([] : List Nat) = utf8Bytes c ++ encodeUTF8 _ := h
    exact (List.append_eq_nil.mp h2.symm).1
  | c :: _, [], h => by
    exfalso
    apply utf8Bytes_ne_nil c
    have h2 : utf8Bytes c ++ encodeUTF8 _ = ([] : List Nat) := h
    exact (List.append_eq_nil.mp h2).1
  | c₁ :: t₁, c₂ :: t₂, h => by
    have h2 : utf8Bytes c₁ ++ encodeUTF8 t₁ = utf8Bytes c₂ ++ encodeUTF8 t₂ := h
    obtain ⟨hc, ht⟩ := utf8Bytes_prefix_inj h2
    rw [hc, encodeUTF8_inj ht]

theorem stripControlChars_idem (s : Str) :
    stripControlChars (stripControlChars s) = stripControlChars s := by
  simp [stripControlChars, List.filter_filter]


/-- The timing-safe comparator decides exactly string equality. -/
theorem timingSafeEqual_eq_true_iff (a b : Str) :
    timingSafeEqual a b = true ↔ a = b := by
  constructor
  · intro h
    unfold timingSafeEqual at h
    by_cases hl : (encodeUTF8 a).length ≠ (encodeUTF8 b).length
    · rw [if_pos hl] at h
      exact absurd h (by simp)
    · rw [if_neg hl] at h
      push_neg at hl
      rw [beq_iff_eq, foldl_or_xor_zero] at h
      apply encodeUTF8_inj
      apply eq_of_zip_eq hl
      intro p hp
      exact Nat.xor_eq_zero.mp (h.2 p hp)
  · intro h
    subst h
    unfold timingSafeEqual
    rw [if_neg (by simp), beq_iff_eq, foldl_or_xor_zero]
    exact ⟨rfl, fun p hp => by
      rw [zip_self_fst_eq_snd _ p hp, Nat.xor_self]⟩

theorem stripped_eq_spec (c : Char) :
    isStrippedChar c = specRemovedChar c := by
  unfold isStrippedChar specRemovedChar
  rw [decide_eq_decide]
  omega

-- ─── List and string helper lemmas ───────────────────────────────────────────

theorem takeWhile_append_all {p : Char → Bool} :
    ∀ {l : Str}, (∀ c ∈ l, p c = true) →
      ∀ r, List.takeWhile p (l ++ r) = l ++ List.takeWhile p r
  | [], _, r => rfl
  | c :: t, h, r => by
    have hc : p c = true := h c (List.mem_cons_self c t)
    simp only [List.cons_append, List.takeWhile_cons_of_pos hc]
    rw [takeWhile_append_all (fun x hx => h x (List.mem_cons_of_mem c hx)) r]

theorem dropWhile_append_all {p : Char → Bool} :
    ∀ {l : Str}, (∀ c ∈ l, p c = true) →
      ∀ r, List.dropWhile p (l ++ r) = List.dropWhile p r
  | [], _, r => rfl
  | c :: t, h, r => by
    have hc : p c = true := h c (List.mem_cons_self c t)
    simp only [List.cons_append, List.dropWhile_cons_of_pos hc]
    exact dropWhile_append_all (fun x hx => h x (List.mem_cons_of_mem c hx)) r

theorem takeWhile_all_eq_self {p : Char → Bool} :
    ∀ {l : Str}, (∀ c ∈ l, p c = true) → List.takeWhile p l = l := by
  intro l h
  have := takeWhile_append_all (p := p) h []
  simpa using this

theorem dropWhile_all_eq_nil {p : Char → Bool} :
    ∀ {l : Str}, (∀ c ∈ l, p c = true) → List.dropWhile p l = [] := by
  intro l h
  have := dropWhile_append_all (p := p) h []
  simpa using this

theorem isPrefixOf_mem :
    ∀ {l h : Str}, l.isPrefixOf h = true → ∀ {c : Char}, c ∈ l → c ∈ h
  | [], _, _, _, hc => absurd hc (List.not_mem_nil _)
  | a :: t, [], hp, _, _ => by simp [List.isPrefixOf] at hp
  | a :: t, b :: hs, hp, c, hc => by
    simp only [List.isPrefixOf, Bool.and_eq_true, beq_iff_eq] at hp
    rcases List.mem_cons.mp hc with rfl | hc2
    · rw [hp.1]
      exact List.mem_cons_self _ _
    · exact List.mem_cons_of_mem _ (isPrefixOf_mem hp.2 hc2)

theorem isPrefixOf_self_append (l r : Str) : l.isPrefixOf (l ++ r) = true := by
  induction l with
  | nil => simp
  | cons c t ih => simp [List.isPrefixOf, ih]

theorem isSuffixOf_mem {l h : Str} (hs : l.isSuffixOf h = true) {c : Char}
    (hc : c ∈ l) : c ∈ h := by
  unfold List.isSuffixOf at hs
  have := isPrefixOf_mem hs (List.mem_reverse.mpr hc)
  exact List.mem_reverse.mp this

theorem map_id_of_fix :
    ∀ (f : Char → Char) (l : Str), (∀ c ∈ l, f c = c) → l.map f = l := by
  intro f l
  induction l with
  | nil => intro _; rfl
  | cons c t ih =>
    intro h
    simp only [List.map_cons, h c (List.mem_cons_self c t),
      ih (fun x hx => h x (List.mem_cons_of_mem c hx))]

theorem contains_eq_false_of_ne {s : Str} {c : Char}
    (h : ∀ x ∈ s, ¬ x = c) : s.contains c = false := by
  induction s with
  | nil => rfl
  | cons a t ih =>
    have ha : (c == a) = false :=
      beq_eq_false_iff_ne.mpr (fun e => h a (List.mem_cons_self a t) e.symm)
    calc (a :: t).contains c = (c == a || t.contains c) := rfl
    _ = false := by
        rw [ha, Bool.false_or]
        exact ih (fun x hx => h x (List.mem_cons_of_mem a hx))

theorem jsIncludes_dotdot_false :
    ∀ {s : Str}, (∀ x ∈ s, ¬ x = '.') → jsIncludes (S "..") s = false
  | [], _ => rfl
  | c :: rest, h => by
    unfold jsIncludes
    have h1 : (S "..").isPrefixOf (c :: rest) = false := by
      have hc : ¬ c = '.' := h c (List.mem_cons_self c rest)
      show (('.' :: '.' :: []) : Str).isPrefixOf (c :: rest) = false
      simp only [List.isPrefixOf, Bool.and_eq_true, Bool.and_eq_false_iff,
        beq_eq_false_iff_ne, ne_eq]
      exact Or.inl (fun e => hc e.symm)
    rw [h1, Bool.false_or]
    exact jsIncludes_dotdot_false
      (fun x hx => h x (List.mem_cons_of_mem c hx))

-- ─── Slug lemmas ─────────────────────────────────────────────────────────────

theorem slugRe_chars {s : Str} (h : SLUG_RE s = true) :
    ∀ c ∈ s, slugTailChar c = true := by
  match s, h with
  | c0 :: rest, h =>
    intro c hc
    simp only [SLUG_RE, decide_eq_true_eq] at h
    rcases List.mem_cons.mp hc with rfl | hc2
    · simp [slugTailChar, h.1]
    · exact List.all_eq_true.mp h.2.2.2 c hc2

theorem slugTailChar_ne_dot {c : Char} (h : slugTailChar c = true) :
    ¬ c = '.' := by
  intro e
  subst e
  simp [slugTailChar, slugHeadChar, isDigitChar] at h

theorem slugTailChar_ne_slash {c : Char} (h : slugTailChar c = true) :
    ¬ c = '/' := by
  intro e
  subst e
  simp [slugTailChar, slugHeadChar, isDigitChar] at h

theorem slugTailChar_ne_backslash {c : Char} (h : slugTailChar c = true) :
    ¬ c = '\\' := by
  intro e
  subst e
  simp [slugTailChar, slugHeadChar, isDigitChar] at h

/-- On success, `validateCustomSlug` returns the sanitized, trimmed,
lowercased, NFKC-normalized slug, and every guard of the function held. -/
theorem validateCustomSlug_ok {raw s : Str}
    (h : validateCustomSlug raw = .ok s) :
    s = nfkc (jsLower (jsTrim (stripControlChars raw))) ∧ SLUG_RE s = true ∧
      2 ≤ s.length ∧ s.length ≤ 32 ∧
      RESERVED_SLUGS.contains s = false ∧
      jsIncludes (S "..") s = false ∧ s.contains '/' = false ∧
      s.contains '\\' = false := by
  unfold validateCustomSlug at h
  set slug := nfkc (jsLower (jsTrim (stripControlChars raw))) with hs
  by_cases h1 : slug.length < 2
  · rw [if_pos h1] at h
    exact VRes.noConfusion h
  rw [if_neg h1] at h
  by_cases h2 : 32 < slug.length
  · rw [if_pos h2] at h
    exact VRes.noConfusion h
  rw [if_neg h2] at h
  by_cases h3 : ¬ SLUG_RE slug = true
  · rw [if_pos h3] at h
    exact VRes.noConfusion h
  rw [if_neg h3] at h
  by_cases h4 : RESERVED_SLUGS.contains slug = true
  · rw [if_pos h4] at h
    exact VRes.noConfusion h
  rw [if_neg h4] at h
  by_cases h5 : jsIncludes (S "..") slug = true ∨ slug.contains '/' = true ∨
      slug.contains '\\' = true
  · rw [if_pos h5] at h
    exact VRes.noConfusion h
  rw [if_neg h5] at h
  have hse : slug = s := VRes.ok.inj h
  subst hse
  push_neg at h5
  refine ⟨rfl, not_not.mp h3, by omega, by omega, ?_, ?_, ?_, ?_⟩
  · exact Bool.not_eq_true _ ▸ (by simpa using h4)
  · simpa using h5.1
  · simpa using h5.2.1
  · simpa using h5.2.2

/-- C9: every slug accepted by `validateCustomSlug` matches `SLUG_RE`
(first character a-z 0-9, then 1-31 characters a-z 0-9 hyphen underscore),
hence contains no `.`, `/` or `\` at all, and the dedicated path-traversal
rejection branch after the pattern check can never fire. -/
theorem claim_C9 :
    (∀ raw s, validateCustomSlug raw = .ok s →
      SLUG_RE s = true ∧ s.contains '.' = false ∧ s.contains '/' = false ∧
        s.contains '\\' = false) ∧
    ∀ raw, ¬ validateCustomSlug raw =
      .error (S "customSlug must not contain path separators.") := by
  constructor
  · intro raw s h
    obtain ⟨-, hre, -, -, -, -, hsl, hbs⟩ := validateCustomSlug_ok h
    refine ⟨hre, ?_, hsl, hbs⟩
    exact contains_eq_false_of_ne
      (fun x hx => slugTailChar_ne_dot (slugRe_chars hre x hx))
  · intro raw h
    unfold validateCustomSlug at h
    set slug := nfkc (jsLower (jsTrim (stripControlChars raw))) with hs
    by_cases h1 : slug.length < 2
    · rw [if_pos h1] at h
      exact absurd (VRes.error.inj h) (by decide)
    rw [if_neg h1] at h
    by_cases h2 : 32 < slug.length
    · rw [if_pos h2] at h
      exact absurd (VRes.error.inj h) (by decide)
    rw [if_neg h2] at h
    by_cases h3 : ¬ SLUG_RE slug = true
    · rw [if_pos h3] at h
      exact absurd (VRes.error.inj h) (by decide)
    rw [if_neg h3] at h
    have hre : SLUG_RE slug = true := not_not.mp h3
    by_cases h4 : RESERVED_SLUGS.contains slug = true
    · rw [if_pos h4] at h
      have h6 := VRes.error.inj h
      exact absurd (h6 : ('T' :: (S "he slug \"" ++ slug ++
        S "\" is reserved and cannot be used.")) =
          S "customSlug must not contain path separators.")
        (by intro he; exact absurd (List.cons.injEq _ _ _ _ ▸ he).1 (by decide))
    rw [if_neg h4] at h
    by_cases h5 : jsIncludes (S "..") slug = true ∨
        slug.contains '/' = true ∨ slug.contains '\\' = true
    · rcases h5 with h5 | h5 | h5
      · rw [jsIncludes_dotdot_false
          (fun x hx => slugTailChar_ne_dot (slugRe_chars hre x hx))] at h5
        exact Bool.noConfusion h5
      · rw [contains_eq_false_of_ne
          (fun x hx => slugTailChar_ne_slash (slugRe_chars hre x hx))] at h5
        exact Bool.noConfusion h5
      · rw [contains_eq_false_of_ne
          (fun x hx => slugTailChar_ne_backslash (slugRe_chars hre x hx))] at h5
        exact Bool.noConfusion h5
    rw [if_neg h5] at h
    exact VRes.noConfusion h

/-- Witness for C9 at the concrete slug `my-link_1`. -/
theorem claim_C9_witness :
    validateCustomSlug (S "my-link_1") = .ok (S "my-link_1") ∧
      (SLUG_RE (S "my-link_1") = true ∧
        (S "my-link_1").contains '.' = false ∧
        (S "my-link_1").contains '/' = false ∧
        (S "my-link_1").contains '\\' = false) :=
  ⟨by decide, claim_C9.1 (S "my-link_1") (S "my-link_1") (by decide)⟩

/-- C8: the Text Sanitizer is idempotent, and equals the filter that keeps
exactly the characters outside the spec's removal classes — ASCII controls
(0x00-0x1F, 0x7F), the zero-width marks U+200B-U+200D, the byte-order mark
U+FEFF, and the bidirectional embedding/override controls U+202A-U+202E —
performing no other transformation. -/
theorem claim_C8 (s : Str) :
    stripControlChars (stripControlChars s) = stripControlChars s ∧
    stripControlChars s = s.filter (fun c => ¬ specRemovedChar c) := by
  refine ⟨stripControlChars_idem s, ?_⟩
  unfold stripControlChars
  apply List.filter_congr
  intro c _
  rw [stripped_eq_spec c]

/-- C4: the timing-safe comparator returns `true` on `(a, a)` (in
particular for every non-empty `a`), returns `false` whenever `a ≠ b`, and
— being a total function into `Bool` — never throws. -/
theorem claim_C4 (a b : Str) :
    timingSafeEqual a a = true ∧ (a ≠ b → timingSafeEqual a b = false) := by
  constructor
  · exact (timingSafeEqual_eq_true_iff a a).mpr rfl
  · intro hne
    cases hcase : timingSafeEqual a b
    · rfl
    · exact absurd ((timingSafeEqual_eq_true_iff a b).mp hcase) hne

/-- Witness for C4 at concrete strings. -/
theorem claim_C4_witness :
    S "abc" ≠ S "abd" ∧ timingSafeEqual (S "abc") (S "abc") = true ∧
      timingSafeEqual (S "abc") (S "abd") = false :=
  ⟨by decide, (claim_C4 (S "abc") (S "abd")).1,
    (claim_C4 (S "abc") (S "abd")).2 (by decide)⟩

/-- C10: whenever the trimmed `Authorization` header does not start with
the exact, case-sensitive prefix `Bearer `, `checkAdminAuth` returns
`false` for every comparator whatsoever (so the comparator is never
consulted); in particular a `bearer <secret>` header is rejected even when
`<secret>` equals the configured key. -/
theorem claim_C10 :
    (∀ (cmp : Str → Str → Bool) (hdr key : Option Str),
      (S "Bearer ").isPrefixOf (jsTrim (hdr.getD [])) = false →
        checkAdminAuthGen cmp hdr key = false) ∧
    checkAdminAuth (some (S "bearer aaaabbbbccccdddd"))
      (some (S "aaaabbbbccccdddd")) = false := by
  constructor
  · intro cmp hdr key h
    unfold checkAdminAuthGen
    cases key with
    | none => rfl
    | some k =>
      show (if k.length < 16 then false
        else if ¬ (S "Bearer ").isPrefixOf (jsTrim (hdr.getD [])) = true
          then false
          else cmp ((jsTrim (hdr.getD [])).drop 7) k) = false
      by_cases hk : k.length < 16
      · rw [if_pos hk]
      · rw [if_neg hk, if_pos]
        simp [h]
  · decide

/-- Witness for C10: an adversarial comparator that always answers `true`
still cannot make a lowercase `bearer` header authenticate. -/
theorem claim_C10_witness :
    (S "Bearer ").isPrefixOf
        (jsTrim ((some (S "bearer tok")).getD [])) = false ∧
      checkAdminAuthGen (fun _ _ => true) (some (S "bearer tok"))
        (some (S "aaaabbbbccccdddd")) = false :=
  ⟨by decide, claim_C10.1 (fun _ _ => true) (some (S "bearer tok"))
    (some (S "aaaabbbbccccdddd")) (by decide)⟩

/-- Counterexample to C3 as stated: `javascript:alert(1)` does not fail
with a scheme-not-allowed class error — because its scheme is not followed
by `//`, the scheme regex does not match at all and the failure is the
missing-scheme error, exactly the error class the claim says it is
distinct from. -/
theorem claim_C3_counterexample :
    validateUrl (S "javascript:alert(1)") =
      .error (S "URL must include a scheme (https:// or http://).") := by
  decide

/-- C3 (amended): `validateUrl("ftp://example.com")` fails with the
scheme-not-allowed error naming `ftp`, while
`validateUrl("javascript:alert(1)")` fails with the missing-scheme error
(its scheme is not followed by `//`, so the leading-scheme pattern does not
match); both fail. -/
theorem claim_C3 :
    validateUrl (S "ftp://example.com") =
      .error (S "URL scheme \"ftp\" is not allowed. Only http and https are accepted.") ∧
    validateUrl (S "javascript:alert(1)") =
      .error (S "URL must include a scheme (https:// or http://).") := by
  constructor
  · decide
  · decide

-- ─── C5: lookup policy covers the assignment policy ──────────────────────────

theorem slugHeadChar_not_stripped {c : Char} (h : slugHeadChar c = true) :
    isStrippedChar c = false := by
  simp only [slugHeadChar, isDigitChar, decide_eq_true_eq] at h
  simp only [isStrippedChar, decide_eq_false_iff_not]
  omega

theorem slugHeadChar_not_ws {c : Char} (h : slugHeadChar c = true) :
    isJsWhitespace c = false := by
  simp only [slugHeadChar, isDigitChar, decide_eq_true_eq] at h
  simp only [isJsWhitespace, decide_eq_false_iff_not]
  omega

theorem slugHeadChar_lower_fix {c : Char} (h : slugHeadChar c = true) :
    jsLowerChar c = c := by
  simp only [slugHeadChar, isDigitChar, decide_eq_true_eq] at h
  unfold jsLowerChar
  rw [if_neg]
  omega

theorem strip_fix_of_all {s : Str}
    (h : ∀ c ∈ s, isStrippedChar c = false) : stripControlChars s = s := by
  unfold stripControlChars
  induction s with
  | nil => rfl
  | cons c t ih =>
    rw [List.filter_cons_of_pos (by simp [h c (List.mem_cons_self c t)])]
    rw [ih (fun x hx => h x (List.mem_cons_of_mem c hx))]

theorem trim_fix_of_all {s : Str}
    (h : ∀ c ∈ s, isJsWhitespace c = false) : jsTrim s = s := by
  unfold jsTrim
  have h1 : s.dropWhile isJsWhitespace = s := by
    cases s with
    | nil => rfl
    | cons c t =>
      rw [List.dropWhile_cons_of_neg (by simp [h c (List.mem_cons_self c t)])]
  rw [h1]
  have h2 : s.reverse.dropWhile isJsWhitespace = s.reverse := by
    cases hr : s.reverse with
    | nil => rfl
    | cons c t =>
      have hc : c ∈ s := by
        rw [← List.mem_reverse, hr]
        exact List.mem_cons_self c t
      rw [List.dropWhile_cons_of_neg (by simp [h c hc])]
  rw [h2, List.reverse_reverse]

theorem lower_fix_of_all {s : Str}
    (h : ∀ c ∈ s, jsLowerChar c = c) : jsLower s = s :=
  map_id_of_fix jsLowerChar s h

/-- The character produced by `generateCode` for one random byte is always
lowercase alphanumeric. -/
theorem generateCode_char (b : Nat) :
    slugHeadChar (CHARS.getD (b % CHARS.length) 'a') = true := by
  show slugHeadChar (CHARS.getD (b % 36) 'a') = true
  have hm : b % 36 < 36 := Nat.mod_lt _ (by omega)
  set m := b % 36 with hmdef
  interval_cases m <;> decide

/-- Counterexample to C5 as stated: the raw slug `abⅰ` (with U+2170 SMALL
ROMAN NUMERAL ONE) is accepted by the strict policy — NFKC folds the
numeral to `i`, yielding `abi` — but the loose lookup policy, which applies
no NFKC, rejects the very same input string. -/
theorem claim_C5_counterexample :
    validateCustomSlug (S "abⅰ") = .ok (S "abi") ∧
      (validateLookupSlug (S "abⅰ")).isOk = false := by
  constructor
  · decide
  · decide

/-- C5 (amended): (1) every string accepted by `validateCustomSlug` whose
sanitized, trimmed, lowercased form is already NFKC-normal — every ASCII
input in particular — is accepted by `validateLookupSlug` with the same
slug; (2) machine-generated codes of 4-6 random bytes are accepted by
`validateLookupSlug` unchanged; (3) `validateLookupSlug` rejects every
string whose sanitized, trimmed, lowercased form contains `..`. -/
theorem claim_C5 :
    (∀ raw s,
      nfkc (jsLower (jsTrim (stripControlChars raw))) =
        jsLower (jsTrim (stripControlChars raw)) →
      validateCustomSlug raw = .ok s → validateLookupSlug raw = .ok s) ∧
    (∀ bytes : List Nat, 4 ≤ bytes.length → bytes.length ≤ 6 →
      validateLookupSlug (generateCode bytes) = .ok (generateCode bytes)) ∧
    (∀ raw, jsIncludes (S "..")
        (jsLower (jsTrim (stripControlChars raw))) = true →
      (validateLookupSlug raw).isOk = false) := by
  refine ⟨?_, ?_, ?_⟩
  · intro raw s hnf hok
    obtain ⟨hsv, hre, hlen2, hlen32, -, hdots, -, -⟩ :=
      validateCustomSlug_ok hok
    have hpre : jsLower (jsTrim (stripControlChars raw)) = s := by
      rw [← hnf, ← hsv]
    unfold validateLookupSlug
    rw [hpre]
    rw [if_neg (by omega)]
    rw [if_neg (by
      simp only [not_not]
      exact List.all_eq_true.mpr (slugRe_chars hre))]
    rw [if_neg (by simp [hdots])]
  · intro bytes h4 h6
    have hall : ∀ c ∈ generateCode bytes, slugHeadChar c = true := by
      intro c hc
      obtain ⟨b, -, rfl⟩ := List.mem_map.mp hc
      exact generateCode_char b
    have hlen : (generateCode bytes).length = bytes.length :=
      List.length_map _ _
    have hpre : jsLower (jsTrim (stripControlChars (generateCode bytes))) =
        generateCode bytes := by
      rw [strip_fix_of_all (fun c hc => slugHeadChar_not_stripped (hall c hc))]
      rw [trim_fix_of_all (fun c hc => slugHeadChar_not_ws (hall c hc))]
      exact lower_fix_of_all
        (fun c hc => slugHeadChar_lower_fix (hall c hc))
    unfold validateLookupSlug
    rw [hpre]
    rw [if_neg (by omega)]
    rw [if_neg (by
      simp only [not_not]
      exact List.all_eq_true.mpr (fun c hc => by
        simp [slugTailChar, hall c hc]))]
    rw [if_neg (by
      simp only [Bool.not_eq_true]
      exact jsIncludes_dotdot_false (fun c hc =>
        slugTailChar_ne_dot (by simp [slugTailChar, hall c hc])))]
  · intro raw hdd
    unfold validateLookupSlug VRes.isOk
    set slug := jsLower (jsTrim (stripControlChars raw)) with hs
    by_cases h1 : slug.length < 1 ∨ 64 < slug.length
    · rw [if_pos h1]
    rw [if_neg h1]
    by_cases h2 : ¬ slug.all slugTailChar = true
    · rw [if_pos h2]
    rw [if_neg h2]
    rw [if_pos hdd]

/-- Witness for C5 at concrete inputs: the ASCII slug `my-link_1`, the
generated code for bytes `[0, 1, 2, 3]` (namely `abcd`), and the
traversal string `a..b`. -/
theorem claim_C5_witness :
    (nfkc (jsLower (jsTrim (stripControlChars (S "my-link_1")))) =
        jsLower (jsTrim (stripControlChars (S "my-link_1"))) ∧
      validateCustomSlug (S "my-link_1") = .ok (S "my-link_1") ∧
      validateLookupSlug (S "my-link_1") = .ok (S "my-link_1")) ∧
    validateLookupSlug (generateCode [0, 1, 2, 3]) =
      .ok (generateCode [0, 1, 2, 3]) ∧
    (jsIncludes (S "..") (jsLower (jsTrim (stripControlChars (S "a..b")))) =
        true ∧
      (validateLookupSlug (S "a..b")).isOk = false) :=
  ⟨⟨by decide, by decide,
      claim_C5.1 (S "my-link_1") (S "my-link_1") (by decide) (by decide)⟩,
    claim_C5.2.1 [0, 1, 2, 3] (by decide) (by decide),
    ⟨by decide, claim_C5.2.2 (S "a..b") (by decide)⟩⟩

-- ─── C6: bounded ingestion ───────────────────────────────────────────────────

/-- When the stream as a whole exceeds the cap, the read loop aborts with
failure after reading exactly the shortest chunk prefix whose byte total
exceeds the cap. -/
theorem readLoop_exceeds :
    ∀ (chunks : List (List Nat)) (total : Nat),
      total ≤ MAX_BODY_BYTES →
      MAX_BODY_BYTES < total + sumBytes chunks →
      ∃ k, readLoop chunks total = (none, k) ∧
        MAX_BODY_BYTES < total + sumBytes (chunks.take k) ∧
        total + sumBytes (chunks.take (k - 1)) ≤ MAX_BODY_BYTES ∧
        1 ≤ k ∧ k ≤ chunks.length
  | [], total, hle, hgt => by
    exfalso
    simp [sumBytes] at hgt
    omega
  | chunk :: rest, total, hle, hgt => by
    unfold readLoop
    by_cases hc : MAX_BODY_BYTES < total + chunk.length
    · refine ⟨1, by rw [if_pos hc], ?_, ?_, le_refl 1, by simp⟩
      · simp only [sumBytes, List.take_succ_cons, List.take_zero,
          List.map_cons, List.map_nil, List.sum_cons, List.sum_nil]
        omega
      · simpa [sumBytes] using hle
    · rw [if_neg hc]
      push_neg at hc
      have hgt2 : MAX_BODY_BYTES <
          (total + chunk.length) + sumBytes rest := by
        simp only [sumBytes, List.map_cons, List.sum_cons] at hgt
        simp only [sumBytes]
        omega
      obtain ⟨k, hr, h1, h2, hk1, hkle⟩ :=
        readLoop_exceeds rest (total + chunk.length) hc hgt2
      refine ⟨k + 1, ?_, ?_, ?_, by omega, by simp; omega⟩
      · rw [hr]
        rfl
      · simp only [sumBytes, List.take_succ_cons, List.map_cons,
          List.sum_cons]
        simp only [sumBytes] at h1
        omega
      · have hk : (k + 1) - 1 = (k - 1) + 1 := by omega
        rw [hk]
        simp only [sumBytes, List.take_succ_cons, List.map_cons,
          List.sum_cons]
        simp only [sumBytes] at h2
        omega

/-- C6: with a declared `Content-Length` above the cap, `readJsonBody`
fails having read zero body chunks; with no declared length and a stream
whose total exceeds the cap (and a correct content type, without which it
fails before reading anyway), it fails with the body-too-large error after
reading exactly the shortest chunk prefix whose running total exceeds the
cap, and no further chunks. -/
theorem claim_C6 (jsonParse : Str → Option Json) (req : JsRequest) :
    (∀ n : Int, parseIntJS (req.contentLength.getD (S "0")) = some n →
      (MAX_BODY_BYTES : Int) < n →
      (readJsonBody jsonParse req).1.isOk = false ∧
        (readJsonBody jsonParse req).2 = 0) ∧
    (req.contentLength = none →
      jsLower (jsTrim ((req.contentType.getD []).takeWhile
        (fun c => ¬ c = ';'))) = S "application/json" →
      MAX_BODY_BYTES < sumBytes req.chunks →
      ∃ k, readJsonBody jsonParse req =
          (.error (S "Request body too large."), k) ∧
        MAX_BODY_BYTES < sumBytes (req.chunks.take k) ∧
        sumBytes (req.chunks.take (k - 1)) ≤ MAX_BODY_BYTES ∧
        k ≤ req.chunks.length) := by
  constructor
  · intro n hcl hgt
    unfold readJsonBody
    by_cases hct : ¬ jsLower (jsTrim ((req.contentType.getD []).takeWhile
        (fun c => ¬ c = ';'))) = S "application/json"
    · rw [if_pos hct]
      constructor <;> simp [JRes.isOk]
    · rw [if_neg hct]
      rw [hcl]
      simp only [decide_eq_true hgt]
      constructor <;> simp [JRes.isOk]
  · intro hnone hct hbig
    unfold readJsonBody
    rw [if_neg (by rw [hct]; exact not_not.mpr rfl)]
    rw [hnone]
    have h0 : parseIntJS ((none : Option Str).getD (S "0")) = some 0 := by
      decide
    rw [h0]
    obtain ⟨k, hr, h1, h2, -, hkle⟩ :=
      readLoop_exceeds req.chunks 0 (by simp [MAX_BODY_BYTES]) (by omega)
    refine ⟨k, ?_, by simpa using h1, by simpa using h2, hkle⟩
    simp only [decide_eq_false (by omega : ¬ (MAX_BODY_BYTES : Int) < 0),
      if_neg, Bool.false_eq_true, not_false_eq_true, hr]

/-- Witness for C6 at concrete requests: a declared length of 9000 fails
with zero chunks read; an undeclared length with two 5000-byte chunks
fails after reading exactly two chunks. -/
theorem claim_C6_witness :
    (parseIntJS (c6reqA.contentLength.getD (S "0")) = some 9000 ∧
      (MAX_BODY_BYTES : Int) < 9000 ∧
      (readJsonBody (fun _ => none) c6reqA).1.isOk = false ∧
      (readJsonBody (fun _ => none) c6reqA).2 = 0) ∧
    (c6reqB.contentLength = none ∧
      MAX_BODY_BYTES < sumBytes c6reqB.chunks ∧
      ∃ k, readJsonBody (fun _ => none) c6reqB =
          (.error (S "Request body too large."), k) ∧
        MAX_BODY_BYTES < sumBytes (c6reqB.chunks.take k) ∧
        sumBytes (c6reqB.chunks.take (k - 1)) ≤ MAX_BODY_BYTES ∧
        k ≤ c6reqB.chunks.length) :=
  by
  have h1 : sumBytes c6reqB.chunks = 10000 := by
    show sumBytes [List.replicate 5000 0, List.replicate 5000 0] = 10000
    unfold sumBytes
    simp only [List.map_cons, List.map_nil, List.length_replicate,
      List.sum_cons, List.sum_nil]
    omega
  have hbig : MAX_BODY_BYTES < sumBytes c6reqB.chunks := by
    rw [h1]
    decide
  exact ⟨⟨by decide, by decide,
    (claim_C6 (fun _ => none) c6reqA).1 9000 (by decide) (by decide)⟩,
    ⟨rfl, hbig,
      (claim_C6 (fun _ => none) c6reqB).2 rfl (by decide) hbig⟩⟩

-- ─── Decimal rendering lemmas ────────────────────────────────────────────────

theorem isDigitChar_digitChar {m : Nat} (h : m < 10) :
    isDigitChar (digitChar m) = true := by
  interval_cases m <;> decide

theorem natToDigitsAux_digits :
    ∀ (fuel n : Nat), ∀ c ∈ natToDigitsAux fuel n, isDigitChar c = true := by
  intro fuel
  induction fuel with
  | zero =>
    intro n c hc
    simp [natToDigitsAux] at hc
  | succ f ih =>
    intro n c hc
    unfold natToDigitsAux at hc
    by_cases hn : n = 0
    · rw [if_pos hn] at hc
      simp at hc
    · rw [if_neg hn] at hc
      rcases List.mem_append.mp hc with h1 | h2
      · exact ih _ c h1
      · have he : c = digitChar (n % 10) := by simpa using h2
        subst he
        exact isDigitChar_digitChar (Nat.mod_lt _ (by omega))

theorem natToDigits_digits (n : Nat) :
    ∀ c ∈ natToDigits n, isDigitChar c = true := by
  intro c hc
  unfold natToDigits at hc
  by_cases hn : n = 0
  · rw [if_pos hn] at hc
    simp at hc
    subst hc
    decide
  · rw [if_neg hn] at hc
    exact natToDigitsAux_digits 20 n c hc

theorem natToDigitsAux_ne_nil :
    ∀ (fuel n : Nat), ¬ n = 0 → ¬ fuel = 0 →
      ¬ natToDigitsAux fuel n = []
  | 0, _, _, hf => absurd rfl hf
  | fuel + 1, n, hn, _ => by
    unfold natToDigitsAux
    rw [if_neg hn]
    simp

theorem natToDigits_ne_nil (n : Nat) : ¬ natToDigits n = [] := by
  unfold natToDigits
  by_cases hn : n = 0
  · rw [if_pos hn]
    simp
  · rw [if_neg hn]
    exact natToDigitsAux_ne_nil 20 n hn (by omega)

theorem natToDigitsAux_length :
    ∀ (fuel n k : Nat), n < 10 ^ k → k ≤ fuel →
      (natToDigitsAux fuel n).length ≤ k
  | 0, n, k, _, _ => by simp [natToDigitsAux]
  | fuel + 1, n, k, hnk, hkf => by
    unfold natToDigitsAux
    by_cases hn : n = 0
    · simp [if_pos hn]
    · rw [if_neg hn]
      have hk0 : ¬ k = 0 := by
        intro h0
        subst h0
        simp at hnk
        omega
      have hpow : 10 ^ k = 10 ^ (k - 1) * 10 := by
        conv_lhs => rw [show k = (k - 1) + 1 by omega]
        rw [pow_succ]
      have hdiv : n / 10 < 10 ^ (k - 1) := by omega
      have hrec := natToDigitsAux_length fuel (n / 10) (k - 1) hdiv (by omega)
      simp only [List.length_append, List.length_cons, List.length_nil]
      omega

theorem natToDigits_length_le_three {n : Nat} (h : n ≤ 255) :
    (natToDigits n).length ≤ 3 := by
  unfold natToDigits
  by_cases hn : n = 0
  · simp [if_pos hn]
  · rw [if_neg hn]
    exact natToDigitsAux_length 20 n 3 (by omega) (by omega)

theorem natToDigits_length_pos (n : Nat) : 1 ≤ (natToDigits n).length := by
  cases h : natToDigits n with
  | nil => exact absurd h (natToDigits_ne_nil n)
  | cons a t => simp

theorem digit_ne_dot {c : Char} (h : isDigitChar c = true) : ¬ c = '.' := by
  intro e
  subst e
  simp [isDigitChar] at h

-- ─── Splitting lemmas ────────────────────────────────────────────────────────

theorem splitOnPred_ne_nil (p : Char → Bool) :
    ∀ s, ¬ splitOnPred p s = []
  | [] => by simp [splitOnPred]
  | c :: cs => by
    unfold splitOnPred
    cases h : splitOnPred p cs with
    | nil => simp
    | cons a t =>
      by_cases hp : p c = true
      · simp [hp]
      · simp [hp]

theorem splitOnPred_cons (p : Char → Bool) (c : Char) (cs : Str) :
    splitOnPred p (c :: cs) =
      match splitOnPred p cs with
      | [] => [[]]
      | h :: t => if p c = true then [] :: h :: t else (c :: h) :: t := rfl

theorem splitOnPred_no_sep (p : Char → Bool) :
    ∀ {s : Str}, (∀ c ∈ s, p c = false) → splitOnPred p s = [s]
  | [], _ => rfl
  | c :: cs, h => by
    rw [splitOnPred_cons,
      splitOnPred_no_sep p (fun x hx => h x (List.mem_cons_of_mem c hx))]
    simp [h c (List.mem_cons_self c cs)]

theorem splitOnPred_append (p : Char → Bool) :
    ∀ (x rest : Str), (∀ c ∈ x, p c = false) → ∀ sep, p sep = true →
      splitOnPred p (x ++ sep :: rest) = x :: splitOnPred p rest
  | [], rest, _, sep, hsep => by
    simp only [List.nil_append]
    rw [splitOnPred_cons]
    cases h : splitOnPred p rest with
    | nil => exact absurd h (splitOnPred_ne_nil p rest)
    | cons a t => simp [hsep]
  | c :: x, rest, hall, sep, hsep => by
    simp only [List.cons_append]
    rw [splitOnPred_cons]
    rw [splitOnPred_append p x rest
      (fun e he => hall e (List.mem_cons_of_mem c he)) sep hsep]
    simp [hall c (List.mem_cons_self c x)]

theorem splitOnChar_append (sep : Char) (x rest : Str)
    (hx : ∀ c ∈ x, ¬ c = sep) :
    splitOnChar sep (x ++ sep :: rest) = x :: splitOnChar sep rest := by
  unfold splitOnChar
  exact splitOnPred_append _ x rest
    (fun c hc => decide_eq_false (hx c hc)) sep (by simp)

theorem splitOnChar_no_sep (sep : Char) {s : Str}
    (h : ∀ c ∈ s, ¬ c = sep) : splitOnChar sep s = [s] := by
  unfold splitOnChar
  exact splitOnPred_no_sep _ (fun c hc => decide_eq_false (h c hc))

-- ─── The rendered quad through the classifier ────────────────────────────────

theorem splitOnChar_renderIPv4 (a b c d : Nat) :
    splitOnChar '.' (renderIPv4 a b c d) =
      [natToDigits a, natToDigits b, natToDigits c, natToDigits d] := by
  unfold renderIPv4
  simp only [List.cons_append, List.append_assoc]
  have hnd : ∀ n : Nat, ∀ c ∈ natToDigits n, ¬ c = '.' :=
    fun n c hc => digit_ne_dot (natToDigits_digits n c hc)
  rw [splitOnChar_append '.' _ _ (hnd a),
    splitOnChar_append '.' _ _ (hnd b),
    splitOnChar_append '.' _ _ (hnd c),
    splitOnChar_no_sep '.' (hnd d)]

theorem isDottedQuad_render {a b c d : Nat} (ha : a ≤ 255) (hb : b ≤ 255)
    (hc : c ≤ 255) (hd : d ≤ 255) :
    isDottedQuad (renderIPv4 a b c d) = true := by
  unfold isDottedQuad
  rw [splitOnChar_renderIPv4]
  apply decide_eq_true
  refine ⟨rfl, ?_⟩
  apply List.all_eq_true.mpr
  intro p hp
  have hform : p = natToDigits a ∨ p = natToDigits b ∨ p = natToDigits c ∨
      p = natToDigits d := by
    simpa using hp
  apply decide_eq_true
  have key : ∀ n : Nat, n ≤ 255 →
      1 ≤ (natToDigits n).length ∧ (natToDigits n).length ≤ 3 ∧
        (natToDigits n).all isDigitChar = true := by
    intro n hn
    exact ⟨natToDigits_length_pos n, natToDigits_length_le_three hn,
      List.all_eq_true.mpr (natToDigits_digits n)⟩
  rcases hform with rfl | rfl | rfl | rfl
  · exact key a ha
  · exact key b hb
  · exact key c hc
  · exact key d hd

theorem renderIPv4_chars (a b c d : Nat) :
    ∀ ch ∈ renderIPv4 a b c d, isDigitChar ch = true ∨ ch = '.' := by
  intro ch hc
  unfold renderIPv4 at hc
  simp only [List.cons_append, List.append_assoc] at hc
  have hnd : ∀ n : Nat, ch ∈ natToDigits n → isDigitChar ch = true ∨ ch = '.' :=
    fun n hm => Or.inl (natToDigits_digits n ch hm)
  rcases List.mem_append.mp hc with h1 | h2
  · exact hnd a h1
  rcases List.mem_cons.mp h2 with rfl | h3
  · exact Or.inr rfl
  rcases List.mem_append.mp h3 with h4 | h5
  · exact hnd b h4
  rcases List.mem_cons.mp h5 with rfl | h6
  · exact Or.inr rfl
  rcases List.mem_append.mp h6 with h7 | h8
  · exact hnd c h7
  rcases List.mem_cons.mp h8 with rfl | h9
  · exact Or.inr rfl
  · exact hnd d h9

theorem jsLower_render (a b c d : Nat) :
    jsLower (renderIPv4 a b c d) = renderIPv4 a b c d := by
  apply lower_fix_of_all
  intro ch hc
  rcases renderIPv4_chars a b c d ch hc with h | rfl
  · simp only [isDigitChar, decide_eq_true_eq] at h
    unfold jsLowerChar
    rw [if_neg]
    omega
  · decide

theorem render_ne_of_witness {a b c d : Nat} {nm : Str} {w : Char}
    (hw : w ∈ nm) (hd : isDigitChar w = false) (hdot : ¬ w = '.') :
    ¬ renderIPv4 a b c d = nm := by
  intro heq
  rcases renderIPv4_chars a b c d w (heq ▸ hw) with h | h
  · rw [h] at hd
    cases hd
  · exact hdot h

theorem render_not_blockedName (a b c d : Nat) :
    BLOCKED_HOSTNAMES.contains (renderIPv4 a b c d) = false := by
  have h1 : ¬ renderIPv4 a b c d = S "localhost" :=
    render_ne_of_witness (w := 'l') (by decide) (by decide) (by decide)
  have h2 : ¬ renderIPv4 a b c d = S "metadata.google.internal" :=
    render_ne_of_witness (w := 'm') (by decide) (by decide) (by decide)
  have h3 : ¬ renderIPv4 a b c d = S "metadata.goog" :=
    render_ne_of_witness (w := 'm') (by decide) (by decide) (by decide)
  have h4 : ¬ renderIPv4 a b c d = S "instance-data" :=
    render_ne_of_witness (w := 'i') (by decide) (by decide) (by decide)
  have h5 : ¬ renderIPv4 a b c d = S "computemetadata" :=
    render_ne_of_witness (w := 'c') (by decide) (by decide) (by decide)
  simp [BLOCKED_HOSTNAMES, List.contains, List.elem_cons, h1, h2, h3, h4, h5,
    beq_eq_false_iff_ne]

theorem render_not_internalSuffix (a b c d : Nat) :
    internalSuffix (renderIPv4 a b c d) = false := by
  have key : ∀ (suf : Str) (w : Char), w ∈ suf → isDigitChar w = false →
      ¬ w = '.' → suf.isSuffixOf (renderIPv4 a b c d) = false := by
    intro suf w hw hd hdot
    cases hss : suf.isSuffixOf (renderIPv4 a b c d) with
    | false => rfl
    | true =>
      exfalso
      rcases renderIPv4_chars a b c d w (isSuffixOf_mem hss hw) with h | h
      · rw [h] at hd
        cases hd
      · exact hdot h
  unfold internalSuffix
  simp [key (S ".local") 'l' (by decide) (by decide) (by decide),
    key (S ".internal") 'i' (by decide) (by decide) (by decide),
    key (S ".localhost") 'l' (by decide) (by decide) (by decide),
    key (S ".lan") 'l' (by decide) (by decide) (by decide),
    key (S ".corp") 'c' (by decide) (by decide) (by decide),
    key (S ".intranet") 'i' (by decide) (by decide) (by decide)]

theorem reZero_render (b c d : Nat) : reZero (renderIPv4 0 b c d) = true :=
  isPrefixOf_self_append (S "0.")
    (natToDigits b ++ '.' :: natToDigits c ++ '.' :: natToDigits d)

theorem re127_render (b c d : Nat) : re127 (renderIPv4 127 b c d) = true :=
  isPrefixOf_self_append (S "127.")
    (natToDigits b ++ '.' :: natToDigits c ++ '.' :: natToDigits d)

theorem re10_render (b c d : Nat) : re10 (renderIPv4 10 b c d) = true :=
  isPrefixOf_self_append (S "10.")
    (natToDigits b ++ '.' :: natToDigits c ++ '.' :: natToDigits d)

theorem re192168_render (c d : Nat) :
    re192168 (renderIPv4 192 168 c d) = true :=
  isPrefixOf_self_append (S "192.168.")
    (natToDigits c ++ '.' :: natToDigits d)

theorem re169254_render (c d : Nat) :
    re169254 (renderIPv4 169 254 c d) = true :=
  isPrefixOf_self_append (S "169.254.")
    (natToDigits c ++ '.' :: natToDigits d)

theorem re19851100_render (d : Nat) :
    re19851100 (renderIPv4 198 51 100 d) = true :=
  isPrefixOf_self_append (S "198.51.100.") (natToDigits d)

theorem re2030113_render (d : Nat) :
    re2030113 (renderIPv4 203 0 113 d) = true :=
  isPrefixOf_self_append (S "203.0.113.") (natToDigits d)

theorem re240_render (b c d : Nat) : re240 (renderIPv4 240 b c d) = true :=
  isPrefixOf_self_append (S "240.")
    (natToDigits b ++ '.' :: natToDigits c ++ '.' :: natToDigits d)

theorem re255_render : re255 (renderIPv4 255 255 255 255) = true := by
  decide

theorem re172_render {b : Nat} (hb1 : 16 ≤ b) (hb2 : b ≤ 31) (c d : Nat) :
    re172 (renderIPv4 172 b c d) = true := by
  interval_cases b <;> rfl

theorem re100_render {b : Nat} (hb1 : 64 ≤ b) (hb2 : b ≤ 127) (c d : Nat) :
    re100 (renderIPv4 100 b c d) = true := by
  interval_cases b <;> rfl

/-- Every quad in a range the code's regexes cover is matched by one of
them once rendered canonically. -/
theorem blocked_of_inCodeRange {a b c d : Nat} (ha : a ≤ 255) (hb : b ≤ 255)
    (hc : c ≤ 255) (hd : d ≤ 255) (h : inCodeBlockedRange a b c d = true) :
    BLOCKED_IPV4.any (fun re => re (renderIPv4 a b c d)) = true := by
  have hone : ∀ re ∈ BLOCKED_IPV4, re (renderIPv4 a b c d) = true →
      BLOCKED_IPV4.any (fun r => r (renderIPv4 a b c d)) = true :=
    fun re hm hre => List.any_eq_true.mpr ⟨re, hm, hre⟩
  simp only [inCodeBlockedRange, decide_eq_true_eq] at h
  rcases h with rfl | rfl | rfl | ⟨rfl, hb1, hb2⟩ | ⟨rfl, rfl⟩ | ⟨rfl, rfl⟩ |
    ⟨rfl, hb1, hb2⟩ | ⟨rfl, rfl, rfl⟩ | ⟨rfl, rfl, rfl⟩ | rfl |
    ⟨rfl, rfl, rfl, rfl⟩
  · exact hone reZero (by simp [BLOCKED_IPV4]) (reZero_render b c d)
  · exact hone re127 (by simp [BLOCKED_IPV4]) (re127_render b c d)
  · exact hone re10 (by simp [BLOCKED_IPV4]) (re10_render b c d)
  · exact hone re172 (by simp [BLOCKED_IPV4]) (re172_render hb1 hb2 c d)
  · exact hone re192168 (by simp [BLOCKED_IPV4]) (re192168_render c d)
  · exact hone re169254 (by simp [BLOCKED_IPV4]) (re169254_render c d)
  · exact hone re100 (by simp [BLOCKED_IPV4]) (re100_render hb1 hb2 c d)
  · exact hone re19851100 (by simp [BLOCKED_IPV4]) (re19851100_render d)
  · exact hone re2030113 (by simp [BLOCKED_IPV4]) (re2030113_render d)
  · exact hone re240 (by simp [BLOCKED_IPV4]) (re240_render b c d)
  · exact hone re255 (by simp [BLOCKED_IPV4]) re255_render

/-- The classifier blocks every canonically rendered quad in a covered
range. -/
theorem isBlockedHostname_render {a b c d : Nat} (ha : a ≤ 255)
    (hb : b ≤ 255) (hc : c ≤ 255) (hd : d ≤ 255)
    (hr : inCodeBlockedRange a b c d = true) :
    isBlockedHostname (renderIPv4 a b c d) = true := by
  unfold isBlockedHostname
  simp only []
  rw [jsLower_render]
  rw [if_neg (by rw [render_not_blockedName a b c d]; simp)]
  rw [if_neg (by rw [render_not_internalSuffix a b c d]; simp)]
  rw [if_pos (isDottedQuad_render ha hb hc hd)]
  exact blocked_of_inCodeRange ha hb hc hd hr

/-- The modelled parser only ever produces the schemes `http` and
`https`. -/
theorem parseURL_scheme {s : Str} {u : URLRecord}
    (h : parseURL s = some u) :
    u.scheme = S "http" ∨ u.scheme = S "https" := by
  unfold parseURL at h
  cases hs : splitScheme s with
  | none =>
    rw [hs] at h
    cases h
  | some pr =>
    rw [hs] at h
    obtain ⟨schemeRaw, rest⟩ := pr
    simp only [] at h
    by_cases hsc : ¬ (jsLower schemeRaw = S "http" ∨
        jsLower schemeRaw = S "https")
    · rw [if_pos hsc] at h
      cases h
    · rw [if_neg hsc] at h
      cases hauth : parseAuthority ((rest.dropWhile isSlash).takeWhile
          (fun c => ¬ authEndChar c)) with
      | none =>
        rw [hauth] at h
        cases h
      | some q =>
        rw [hauth] at h
        obtain ⟨un, pw, host, port0⟩ := q
        simp only [] at h
        have hu := Option.some.inj h
        rw [← hu]
        simpa using not_not.mp hsc

theorem renderIPv4_ne_nil (a b c d : Nat) : ¬ renderIPv4 a b c d = [] := by
  intro h
  unfold renderIPv4 at h
  simp only [List.append_assoc] at h
  exact natToDigits_ne_nil a (List.append_eq_nil.mp h).1

/-- Counterexample to C1 as stated: `241.1.1.1` lies in 240.0.0.0/4, one
of the claimed ranges, yet the code's regex `^240\.` covers only
240.0.0.0/8 — the classifier does not block it and `validateUrl` accepts
the URL outright. -/
theorem claim_C1_counterexample :
    inClaimedBlockedRange 241 1 1 1 = true ∧
      isBlockedHostname (renderIPv4 241 1 1 1) = false ∧
      validateUrl (S "http://241.1.1.1/") = .ok (S "http://241.1.1.1/") := by
  refine ⟨by decide, by decide, by decide⟩

/-- C1 (amended): for every URL string accepted up to the hostname check
whose parsed hostname is the canonical dotted quad of octets lying in the
code's ranges — the claimed list with 240.0.0.0/8 in place of
240.0.0.0/4 — `isBlockedHostname` returns blocked and `validateUrl` fails
with the blocked-address reason. -/
theorem claim_C1 (raw : Str) (a b c d : Nat) (parsed : URLRecord)
    (ha : a ≤ 255) (hb : b ≤ 255) (hc : c ≤ 255) (hd : d ≤ 255)
    (hrange : inCodeBlockedRange a b c d = true)
    (hne : ¬ (nfkc (jsTrim (stripControlChars raw))).length = 0)
    (hlen : ¬ 2048 < (nfkc (jsTrim (stripControlChars raw))).length)
    (hscheme : ∃ schemeRaw afterColon,
      splitScheme (nfkc (jsTrim (stripControlChars raw))) =
          some (schemeRaw, afterColon) ∧
        (S "//").isPrefixOf afterColon = true ∧
        (jsLower schemeRaw = S "http" ∨ jsLower schemeRaw = S "https"))
    (hparse : parseURL (nfkc (jsTrim (stripControlChars raw))) = some parsed)
    (hcred : parsed.username = [] ∧ parsed.password = [])
    (hhost : parsed.host = renderIPv4 a b c d) :
    isBlockedHostname parsed.host = true ∧
      validateUrl raw =
        .error (S "URL resolves to a reserved or private address.") := by
  have hblocked : isBlockedHostname parsed.host = true := by
    rw [hhost]
    exact isBlockedHostname_render ha hb hc hd hrange
  refine ⟨hblocked, ?_⟩
  obtain ⟨schemeRaw, afterColon, hsp, hpre, hsch⟩ := hscheme
  unfold validateUrl
  rw [if_neg hne, if_neg hlen, hsp]
  simp only [if_pos hpre]
  rw [if_neg (not_not.mpr hsch), hparse]
  simp only []
  rw [if_neg (by
    simp only [not_not]
    rcases parseURL_scheme hparse with h | h
    · exact Or.inl (by rw [h]; rfl)
    · exact Or.inr (by rw [h]; rfl))]
  rw [if_neg (by
    simp only [hcred.1, hcred.2]
    simp)]
  rw [if_neg (by rw [hhost]; exact renderIPv4_ne_nil a b c d)]
  rw [if_neg (by
    rw [hhost]
    simp [isDottedQuad_render ha hb hc hd])]
  rw [if_pos hblocked]

/-- Witness for C1 at the concrete URL `http://10.0.0.1/`. -/
theorem claim_C1_witness :
    parseURL (nfkc (jsTrim (stripControlChars (S "http://10.0.0.1/")))) =
        some ⟨S "http", [], [], S "10.0.0.1", none, [[]], none, none⟩ ∧
      inCodeBlockedRange 10 0 0 1 = true ∧
      isBlockedHostname (S "10.0.0.1") = true ∧
      validateUrl (S "http://10.0.0.1/") =
        .error (S "URL resolves to a reserved or private address.") := by
  refine ⟨by decide, by decide, ?_, ?_⟩
  · have h := claim_C1 (S "http://10.0.0.1/") 10 0 0 1
      ⟨S "http", [], [], S "10.0.0.1", none, [[]], none, none⟩
      (by decide) (by decide) (by decide) (by decide) (by decide)
      (by decide) (by decide)
      ⟨S "http", S "//10.0.0.1/", by decide, by decide, Or.inl (by decide)⟩
      (by decide) ⟨rfl, rfl⟩ (by decide)
    exact h.1
  · have h := claim_C1 (S "http://10.0.0.1/") 10 0 0 1
      ⟨S "http", [], [], S "10.0.0.1", none, [[]], none, none⟩
      (by decide) (by decide) (by decide) (by decide) (by decide)
      (by decide) (by decide)
      ⟨S "http", S "//10.0.0.1/", by decide, by decide, Or.inl (by decide)⟩
      (by decide) ⟨rfl, rfl⟩ (by decide)
    exact h.2

-- ─── C2: length bound ────────────────────────────────────────────────────────

theorem nfkc_fix_of_all {s : Str} (h : ∀ c ∈ s, nfkcChar c = [c]) :
    nfkc s = s := by
  unfold nfkc
  induction s with
  | nil => rfl
  | cons c t ih =>
    rw [List.flatMap_cons, h c (List.mem_cons_self c t),
      ih (fun x hx => h x (List.mem_cons_of_mem c hx))]
    rfl

/-- C2 (amended): `validateUrl` fails with the length error for every
input whose length after control-character stripping, trimming and NFKC
normalization exceeds 2048 — the length check runs on the sanitized,
normalized string, not on the raw input. -/
theorem claim_C2 (raw : Str)
    (h : 2048 < (nfkc (jsTrim (stripControlChars raw))).length) :
    validateUrl raw = .error (S "URL must be 2048 characters or fewer.") := by
  unfold validateUrl
  rw [if_neg (by omega), if_pos h]

/-- Counterexample to C2 as stated: a 2120-character input — a valid URL
padded with 2100 zero-width spaces — is accepted by `validateUrl`, because
the sanitizer removes the padding before the length check. -/
theorem claim_C2_counterexample :
    2048 < c2input.length ∧
      validateUrl c2input = .ok (S "https://example.com/") := by
  have hstrip : stripControlChars c2input = S "https://example.com/" := by
    unfold c2input stripControlChars
    rw [List.filter_append]
    have h1 : (S "https://example.com/").filter
        (fun c => ¬ isStrippedChar c) = S "https://example.com/" :=
      List.filter_eq_self.mpr (by decide)
    have h2 : (List.replicate 2100 (Char.ofNat 0x200B)).filter
        (fun c => ¬ isStrippedChar c) = [] := by
      rw [List.filter_eq_nil_iff]
      intro a ha
      rw [(List.mem_replicate.mp ha).2]
      decide
    rw [h1, h2, List.append_nil]
  constructor
  · have hlen : c2input.length =
        (S "https://example.com/").length +
          (List.replicate 2100 (Char.ofNat 0x200B)).length := by
      unfold c2input
      rw [List.length_append]
    rw [hlen, List.length_replicate]
    have : (S "https://example.com/").length = 20 := by decide
    omega
  · have hpipe : nfkc (jsTrim (stripControlChars c2input)) =
        S "https://example.com/" := by
      rw [hstrip]
      decide
    unfold validateUrl
    rw [hpipe]
    decide

/-- Witness for C2 at a concrete 2049-character input (no sanitization
shrinks it, so the normalized length equals the raw length). -/
theorem claim_C2_witness :
    2048 < (nfkc (jsTrim (stripControlChars
        (List.replicate 2049 'a')))).length ∧
      validateUrl (List.replicate 2049 'a') =
        .error (S "URL must be 2048 characters or fewer.") := by
  have hall : ∀ c ∈ List.replicate 2049 'a', c = 'a' :=
    fun c hc => (List.mem_replicate.mp hc).2
  have hpipe : nfkc (jsTrim (stripControlChars (List.replicate 2049 'a'))) =
      List.replicate 2049 'a' := by
    rw [strip_fix_of_all (fun c hc => by rw [hall c hc]; decide)]
    rw [trim_fix_of_all (fun c hc => by rw [hall c hc]; decide)]
    exact nfkc_fix_of_all (fun c hc => by rw [hall c hc]; decide)
  have hlen : 2048 <
      (nfkc (jsTrim (stripControlChars (List.replicate 2049 'a')))).length := by
    rw [hpipe, List.length_replicate]
    omega
  exact ⟨hlen, claim_C2 (List.replicate 2049 'a') hlen⟩

-- ─── Percent-encoding lemmas ─────────────────────────────────────────────────

theorem utf8Bytes_lt_256 (c : Char) : ∀ b ∈ utf8Bytes c, b < 256 := by
  have hv := char_valid_nat c
  rcases utf8Bytes_cases c with ⟨h, he⟩ | ⟨h1, h2, he⟩ | ⟨h1, h2, he⟩ |
      ⟨h1, h2, he⟩ <;>
    rw [he] <;> intro b hb <;> simp at hb <;>
    rcases hb with rfl | rfl | rfl | rfl <;> omega

theorem percentEncodeChar_ne_nil (safe : Char → Bool) (c : Char) :
    ¬ percentEncodeChar safe c = [] := by
  unfold percentEncodeChar
  by_cases h : safe c = true
  · simp [h]
  · rw [if_neg h]
    rcases utf8Bytes_cases c with ⟨_, he⟩ | ⟨_, _, he⟩ | ⟨_, _, he⟩ |
        ⟨_, _, he⟩ <;>
      simp [he, percentByte]

theorem percentEncode_eq_nil {safe : Char → Bool} :
    ∀ {s : Str}, percentEncode safe s = [] → s = []
  | [], _ => rfl
  | c :: t, h => by
    unfold percentEncode at h
    rw [List.flatMap_cons] at h
    exact absurd (List.append_eq_nil.mp h).1
      (percentEncodeChar_ne_nil safe c)

theorem hexDigitUpper_props {n : Nat} (h : n < 16) :
    pathSafeChar (hexDigitUpper n) = true ∧
    querySafeChar (hexDigitUpper n) = true ∧
    fragSafeChar (hexDigitUpper n) = true ∧
    isSlash (hexDigitUpper n) = false ∧
    ¬ hexDigitUpper n = '#' ∧ ¬ hexDigitUpper n = '?' ∧
    ¬ hexDigitUpper n = '.' := by
  interval_cases n <;> decide

theorem percentByte_mem {b : Nat} (hb : b < 256) {c : Char}
    (hc : c ∈ percentByte b) :
    c = '%' ∨ ∃ n : Nat, n < 16 ∧ c = hexDigitUpper n := by
  unfold percentByte at hc
  rcases List.mem_cons.mp hc with rfl | hc2
  · exact Or.inl rfl
  rcases List.mem_cons.mp hc2 with rfl | hc3
  · exact Or.inr ⟨b / 16, by omega, rfl⟩
  rcases List.mem_cons.mp hc3 with rfl | hc4
  · exact Or.inr ⟨b % 16, by omega, rfl⟩
  · exact absurd hc4 (List.not_mem_nil c)

theorem percentEncode_chars_path {s : Str}
    (hin : ∀ c ∈ s, isSlash c = false) :
    ∀ c ∈ percentEncode pathSafeChar s,
      (pathSafeChar c = true ∧ isSlash c = false) := by
  intro c hc
  unfold percentEncode at hc
  obtain ⟨x, hx, hcx⟩ := List.mem_flatMap.mp hc
  unfold percentEncodeChar at hcx
  by_cases hs : pathSafeChar x = true
  · rw [if_pos hs] at hcx
    have : c = x := by simpa using hcx
    subst this
    exact ⟨hs, hin c hx⟩
  · rw [if_neg hs] at hcx
    obtain ⟨b, hbm, hcb⟩ := List.mem_flatMap.mp hcx
    have hb := utf8Bytes_lt_256 x b hbm
    rcases percentByte_mem hb hcb with rfl | ⟨n, hn, rfl⟩
    · exact ⟨by decide, by decide⟩
    · obtain ⟨p1, _, _, p4, _⟩ := hexDigitUpper_props hn
      exact ⟨p1, p4⟩

theorem percentEncode_chars_query {s : Str} :
    ∀ c ∈ percentEncode querySafeChar s, querySafeChar c = true := by
  intro c hc
  unfold percentEncode at hc
  obtain ⟨x, hx, hcx⟩ := List.mem_flatMap.mp hc
  unfold percentEncodeChar at hcx
  by_cases hs : querySafeChar x = true
  · rw [if_pos hs] at hcx
    have : c = x := by simpa using hcx
    subst this
    exact hs
  · rw [if_neg hs] at hcx
    obtain ⟨b, hbm, hcb⟩ := List.mem_flatMap.mp hcx
    have hb := utf8Bytes_lt_256 x b hbm
    rcases percentByte_mem hb hcb with rfl | ⟨n, hn, rfl⟩
    · decide
    · exact (hexDigitUpper_props hn).2.1

theorem percentEncode_chars_frag {s : Str} :
    ∀ c ∈ percentEncode fragSafeChar s, fragSafeChar c = true := by
  intro c hc
  unfold percentEncode at hc
  obtain ⟨x, hx, hcx⟩ := List.mem_flatMap.mp hc
  unfold percentEncodeChar at hcx
  by_cases hs : fragSafeChar x = true
  · rw [if_pos hs] at hcx
    have : c = x := by simpa using hcx
    subst this
    exact hs
  · rw [if_neg hs] at hcx
    obtain ⟨b, hbm, hcb⟩ := List.mem_flatMap.mp hcx
    have hb := utf8Bytes_lt_256 x b hbm
    rcases percentByte_mem hb hcb with rfl | ⟨n, hn, rfl⟩
    · decide
    · exact (hexDigitUpper_props hn).2.2.1

theorem percentEncode_all_safe {safe : Char → Bool} :
    ∀ {s : Str}, (∀ c ∈ s, safe c = true) → percentEncode safe s = s
  | [], _ => rfl
  | c :: t, h => by
    have ht : percentEncode safe t = t :=
      percentEncode_all_safe (fun x hx => h x (List.mem_cons_of_mem c hx))
    unfold percentEncode at ht ⊢
    rw [List.flatMap_cons, ht]
    unfold percentEncodeChar
    rw [if_pos (h c (List.mem_cons_self c t))]
    rfl

theorem percentEncode_eq_dot {safe : Char → Bool} :
    ∀ {s : Str}, percentEncode safe s = S "." → s = S "."
  | [], h => by
    have h2 : ([] : Str) = S "." := h
    exact absurd h2 (by decide)
  | c :: t, h => by
    unfold percentEncode at h
    rw [List.flatMap_cons] at h
    unfold percentEncodeChar at h
    by_cases hs : safe c = true
    · rw [if_pos hs] at h
      have h2 : c :: (t.flatMap (percentEncodeChar safe)) = S "." := h
      have h3 := List.cons.injEq _ _ _ _ ▸ h2
      obtain ⟨rfl, h4⟩ := h3
      have : t = [] := percentEncode_eq_nil h4
      rw [this]
      rfl
    · rw [if_neg hs] at h
      exfalso
      rcases utf8Bytes_cases c with ⟨_, he⟩ | ⟨_, _, he⟩ | ⟨_, _, he⟩ |
          ⟨_, _, he⟩ <;>
      · rw [he] at h
        simp only [List.flatMap_cons, percentByte, List.cons_append,
          List.append_assoc] at h
        have h3 := (List.cons.injEq _ _ _ _ ▸ h).1
        exact absurd h3 (by decide)

theorem percentEncode_eq_dotdot {safe : Char → Bool} :
    ∀ {s : Str}, percentEncode safe s = S ".." → s = S ".."
  | [], h => by
    have h2 : ([] : Str) = S ".." := h
    exact absurd h2 (by decide)
  | c :: t, h => by
    unfold percentEncode at h
    rw [List.flatMap_cons] at h
    unfold percentEncodeChar at h
    by_cases hs : safe c = true
    · rw [if_pos hs] at h
      have h2 : c :: (t.flatMap (percentEncodeChar safe)) = S ".." := h
      have h3 := List.cons.injEq _ _ _ _ ▸ h2
      obtain ⟨rfl, h4⟩ := h3
      have : t = S "." := percentEncode_eq_dot h4
      rw [this]
      rfl
    · rw [if_neg hs] at h
      exfalso
      rcases utf8Bytes_cases c with ⟨_, he⟩ | ⟨_, _, he⟩ | ⟨_, _, he⟩ |
          ⟨_, _, he⟩ <;>
      · rw [he] at h
        simp only [List.flatMap_cons, percentByte, List.cons_append,
          List.append_assoc] at h
        have h3 := (List.cons.injEq _ _ _ _ ▸ h).1
        exact absurd h3 (by decide)

-- ─── Decimal parsing round trip ──────────────────────────────────────────────

theorem natToDigitsAux_zero : ∀ fuel, natToDigitsAux fuel 0 = []
  | 0 => rfl
  | fuel + 1 => by
    unfold natToDigitsAux
    rw [if_pos rfl]

theorem parseRadix_append (r : Nat) :
    ∀ (x y : Str) (acc : Nat),
      parseRadix r (x ++ y) acc =
        (parseRadix r x acc).bind (fun a => parseRadix r y a)
  | [], y, acc => by simp [parseRadix]
  | c :: x, y, acc => by
    simp only [List.cons_append]
    show (match radixVal r c with
          | some v => parseRadix r (x ++ y) (acc * r + v)
          | none => none) =
        (parseRadix r (c :: x) acc).bind (fun a => parseRadix r y a)
    cases h : radixVal r c with
    | none => simp [parseRadix, h]
    | some v =>
      simp only []
      rw [parseRadix_append r x y (acc * r + v)]
      simp [parseRadix, h]

theorem radixVal_digitChar {m : Nat} (hm : m < 10) :
    radixVal 10 (digitChar m) = some m := by
  interval_cases m <;> decide

theorem parseRadix_natToDigitsAux :
    ∀ (fuel n acc : Nat), n < 10 ^ fuel →
      parseRadix 10 (natToDigitsAux fuel n) acc =
        some (acc * 10 ^ (natToDigitsAux fuel n).length + n)
  | 0, n, acc, h => by
    have hn : n = 0 := by
      simp at h
      omega
    simp [natToDigitsAux, parseRadix, hn]
  | fuel + 1, n, acc, h => by
    unfold natToDigitsAux
    by_cases hn : n = 0
    · rw [if_pos hn]
      simp [parseRadix, hn]
    · rw [if_neg hn]
      rw [parseRadix_append]
      have hpow : 10 ^ (fuel + 1) = 10 ^ fuel * 10 := pow_succ 10 fuel
      have hrec := parseRadix_natToDigitsAux fuel (n / 10) acc (by omega)
      rw [hrec]
      have hdig : radixVal 10 (digitChar (n % 10)) = some (n % 10) :=
        radixVal_digitChar (Nat.mod_lt _ (by omega))
      simp only [Option.some_bind, parseRadix, hdig]
      have hlen : (natToDigitsAux fuel (n / 10) ++
          [digitChar (n % 10)]).length =
          (natToDigitsAux fuel (n / 10)).length + 1 := by
        simp
      rw [hlen]
      have hpow2 : 10 ^ ((natToDigitsAux fuel (n / 10)).length + 1) =
          10 ^ (natToDigitsAux fuel (n / 10)).length * 10 :=
        pow_succ 10 _
      rw [hpow2]
      congr 1
      have := Nat.div_add_mod n 10
      ring_nf
      omega

theorem parseRadix_natToDigits {n : Nat} (h : n < 10 ^ 20) :
    parseRadix 10 (natToDigits n) 0 = some n := by
  unfold natToDigits
  by_cases hn : n = 0
  · rw [if_pos hn, hn]
    decide
  · rw [if_neg hn]
    have := parseRadix_natToDigitsAux 20 n 0 h
    simpa using this

theorem digitChar_ne_zeroChar {m : Nat} (h1 : 1 ≤ m) (h9 : m < 10) :
    ¬ digitChar m = '0' := by
  interval_cases m <;> decide

theorem natToDigitsAux_head :
    ∀ (fuel n : Nat), ¬ n = 0 → n < 10 ^ fuel →
      ∃ d t, natToDigitsAux fuel n = d :: t ∧ isDigitChar d = true ∧
        ¬ d = '0'
  | 0, n, hn, h => by
    exfalso
    simp at h
    omega
  | fuel + 1, n, hn, h => by
    unfold natToDigitsAux
    rw [if_neg hn]
    by_cases h10 : n / 10 = 0
    · rw [h10, natToDigitsAux_zero]
      refine ⟨digitChar (n % 10), [], by simp,
        isDigitChar_digitChar (Nat.mod_lt _ (by omega)), ?_⟩
      have hlt : n < 10 := by omega
      have hmod : n % 10 = n := Nat.mod_eq_of_lt hlt
      exact digitChar_ne_zeroChar (by omega) (by omega)
    · have hpow : 10 ^ (fuel + 1) = 10 ^ fuel * 10 := pow_succ 10 fuel
      obtain ⟨d, t, he, hd, h0⟩ :=
        natToDigitsAux_head fuel (n / 10) h10 (by omega)
      exact ⟨d, t ++ [digitChar (n % 10)], by rw [he]; rfl, hd, h0⟩

theorem natToDigits_head {n : Nat} (hn : ¬ n = 0) (h : n < 10 ^ 20) :
    ∃ d t, natToDigits n = d :: t ∧ isDigitChar d = true ∧ ¬ d = '0' := by
  unfold natToDigits
  rw [if_neg hn]
  exact natToDigitsAux_head 20 n hn h

/-- The WHATWG IPv4-number parser inverts canonical decimal rendering. -/
theorem ipv4Number_natToDigits {k : Nat} (hk : k ≤ 255) :
    ipv4Number (natToDigits k) = some k := by
  by_cases hk0 : k = 0
  · subst hk0
    decide
  · obtain ⟨d, t, he, hd, h0⟩ := natToDigits_head hk0 (by omega)
    unfold ipv4Number
    rw [if_neg (natToDigits_ne_nil k)]
    have hxp : ∀ x : Char, (x :: 'x' :: []).isPrefixOf (natToDigits k) =
        false → True := fun _ _ => trivial
    have hp1 : (S "0x").isPrefixOf (natToDigits k) = false := by
      rw [he]
      show (('0' :: 'x' :: []) : Str).isPrefixOf (d :: t) = false
      simp only [List.isPrefixOf, Bool.and_eq_false_iff]
      exact Or.inl (beq_eq_false_iff_ne.mpr (fun e => h0 e.symm))
    have hp2 : (S "0X").isPrefixOf (natToDigits k) = false := by
      rw [he]
      show (('0' :: 'X' :: []) : Str).isPrefixOf (d :: t) = false
      simp only [List.isPrefixOf, Bool.and_eq_false_iff]
      exact Or.inl (beq_eq_false_iff_ne.mpr (fun e => h0 e.symm))
    rw [if_neg (by simp [hp1, hp2])]
    rw [if_neg (by
      rw [he]
      simp only [List.head?_cons]
      rintro ⟨-, h2⟩
      exact h0 (Option.some.inj h2))]
    exact parseRadix_natToDigits (by omega)

-- ─── IPv4 parser lemmas ──────────────────────────────────────────────────────

theorem mapIPv4Numbers_length :
    ∀ {l : List Str} {ns : List Nat}, mapIPv4Numbers l = some ns →
      ns.length = l.length
  | [], ns, h => by
    have h2 : ([] : List Nat) = ns := Option.some.inj h
    simp [← h2]
  | p :: ps, ns, h => by
    unfold mapIPv4Numbers at h
    cases h1 : ipv4Number p with
    | none =>
      rw [h1] at h
      cases h
    | some n =>
      rw [h1] at h
      cases h2 : mapIPv4Numbers ps with
      | none =>
        rw [h2] at h
        cases h
      | some ms =>
        rw [h2] at h
        simp only [] at h
        have h3 := Option.some.inj h
        rw [← h3]
        simp [mapIPv4Numbers_length h2]

theorem foldl256_lt :
    ∀ (l : List Nat), (∀ x ∈ l, x ≤ 255) → ∀ acc,
      l.foldl (fun acc x => acc * 256 + x) acc < (acc + 1) * 256 ^ l.length
  | [], _, acc => by simp
  | x :: t, h, acc => by
    simp only [List.foldl_cons, List.length_cons]
    have hx : x ≤ 255 := h x (List.mem_cons_self x t)
    have hrec := foldl256_lt t
      (fun y hy => h y (List.mem_cons_of_mem x hy)) (acc * 256 + x)
    calc t.foldl (fun acc x => acc * 256 + x) (acc * 256 + x) <
        (acc * 256 + x + 1) * 256 ^ t.length := hrec
      _ ≤ ((acc + 1) * 256) * 256 ^ t.length := by
          apply Nat.mul_le_mul_right
          omega
      _ = (acc + 1) * 256 ^ (t.length + 1) := by ring

/-- Every value the IPv4 parser produces fits in 32 bits. -/
theorem parseIPv4_lt {s : Str} {n : Nat} (hp : parseIPv4 s = some n) :
    n < 4294967296 := by
  unfold parseIPv4 at hp
  simp only [] at hp
  set parts0 := splitOnChar '.' s with hp0
  set parts :=
    if parts0.getLast? = some ([] : Str) ∧ 1 < parts0.length
    then parts0.dropLast else parts0 with hpa
  by_cases hl : parts.length = 0 ∨ 4 < parts.length
  · rw [if_pos hl] at hp
    cases hp
  rw [if_neg hl] at hp
  cases hm : mapIPv4Numbers parts with
  | none =>
    rw [hm] at hp
    cases hp
  | some nums =>
    rw [hm] at hp
    simp only [] at hp
    by_cases ha : nums.dropLast.any (fun x => 255 < x) = true
    · rw [if_pos ha] at hp
      cases hp
    rw [if_neg ha] at hp
    by_cases hb : 256 ^ (4 - nums.dropLast.length) ≤ nums.getLastD 0
    · rw [if_pos hb] at hp
      cases hp
    rw [if_neg hb] at hp
    have hn := Option.some.inj hp
    push_neg at hb
    push_neg at hl
    have hlen : nums.length = parts.length := mapIPv4Numbers_length hm
    have hflen : nums.dropLast.length ≤ 3 := by
      rw [List.length_dropLast]
      omega
    have hall : ∀ x ∈ nums.dropLast, x ≤ 255 := by
      intro x hx
      by_contra hgt
      exact absurd (List.any_eq_true.mpr ⟨x, hx, by simpa using by omega⟩) ha
    have hfold := foldl256_lt nums.dropLast hall 0
    rw [← hn]
    have hpow : 256 ^ nums.dropLast.length *
        256 ^ (4 - nums.dropLast.length) = 4294967296 := by
      rw [← pow_add]
      have : nums.dropLast.length + (4 - nums.dropLast.length) = 4 := by
        omega
      rw [this]
      rfl
    have h1 : nums.dropLast.foldl (fun acc x => acc * 256 + x) 0 ≤
        256 ^ nums.dropLast.length - 1 := by
      have := hfold
      omega
    calc nums.dropLast.foldl (fun acc x => acc * 256 + x) 0 *
          256 ^ (4 - nums.dropLast.length) + nums.getLastD 0
        ≤ (256 ^ nums.dropLast.length - 1) *
            256 ^ (4 - nums.dropLast.length) + nums.getLastD 0 := by
          apply Nat.add_le_add_right
          exact Nat.mul_le_mul_right _ h1
      _ < (256 ^ nums.dropLast.length - 1) *
            256 ^ (4 - nums.dropLast.length) +
              256 ^ (4 - nums.dropLast.length) := by
          omega
      _ ≤ 4294967296 := by
          have hle : 256 ^ (4 - nums.dropLast.length) ≤
              256 ^ nums.dropLast.length * 256 ^ (4 - nums.dropLast.length) :=
            Nat.le_mul_of_pos_left _ (by positivity)
          rw [Nat.sub_one_mul]
          omega

theorem endsInNumber_render (a b c d : Nat) :
    endsInNumber (renderIPv4 a b c d) = true := by
  unfold endsInNumber
  rw [splitOnChar_renderIPv4]
  unfold lastMeaningfulPart
  rw [show ([natToDigits a, natToDigits b, natToDigits c,
    natToDigits d] : List Str).getLast? = some (natToDigits d) from rfl]
  simp only []
  rw [if_neg (natToDigits_ne_nil d)]
  apply decide_eq_true
  exact ⟨natToDigits_ne_nil d,
    Or.inl (List.all_eq_true.mpr (natToDigits_digits d))⟩

/-- Parsing a canonically rendered dotted quad recovers the four octets. -/
theorem parseIPv4_quad {a b c d : Nat} (ha : a ≤ 255) (hb : b ≤ 255)
    (hc : c ≤ 255) (hd : d ≤ 255) :
    parseIPv4 (renderIPv4 a b c d) =
      some (((a * 256 + b) * 256 + c) * 256 + d) := by
  have hC1 : ¬ (([natToDigits a, natToDigits b, natToDigits c,
      natToDigits d] : List Str).getLast? = some ([] : Str) ∧
      1 < ([natToDigits a, natToDigits b, natToDigits c,
        natToDigits d] : List Str).length) := by
    rintro ⟨h1, -⟩
    rw [show ([natToDigits a, natToDigits b, natToDigits c,
      natToDigits d] : List Str).getLast? = some (natToDigits d) from rfl]
      at h1
    exact natToDigits_ne_nil d (Option.some.inj h1)
  have hC2 : ¬ (([natToDigits a, natToDigits b, natToDigits c,
      natToDigits d] : List Str).length = 0 ∨
      4 < ([natToDigits a, natToDigits b, natToDigits c,
        natToDigits d] : List Str).length) := by simp
  have hmap : mapIPv4Numbers [natToDigits a, natToDigits b, natToDigits c,
      natToDigits d] = some [a, b, c, d] := by
    simp only [mapIPv4Numbers, ipv4Number_natToDigits ha,
      ipv4Number_natToDigits hb, ipv4Number_natToDigits hc,
      ipv4Number_natToDigits hd]
  unfold parseIPv4
  simp only []
  rw [splitOnChar_renderIPv4, if_neg hC1, if_neg hC2, hmap]
  simp only []
  rw [show ([a, b, c, d] : List Nat).dropLast = [a, b, c] from rfl,
    show ([a, b, c, d] : List Nat).getLastD 0 = d from rfl]
  rw [if_neg (by
    simp only [List.any_cons, List.any_nil, Bool.or_false,
      Bool.or_eq_true, decide_eq_true_eq]
    omega)]
  rw [if_neg (show ¬ 256 ^ (4 - ([a, b, c] : List Nat).length) ≤ d by
    rw [show (4 - ([a, b, c] : List Nat).length) = 1 from rfl, pow_one]
    omega)]
  apply congrArg
  rw [show (4 - ([a, b, c] : List Nat).length) = 1 from rfl, pow_one]
  simp only [List.foldl_cons, List.foldl_nil]
  ring

/-- The IPv4 serializer-parser round trip. -/
theorem parseIPv4_serializeIPv4 {n : Nat} (h : n < 4294967296) :
    parseIPv4 (serializeIPv4 n) = some n := by
  unfold serializeIPv4
  rw [parseIPv4_quad (by omega) (by omega) (by omega) (by omega)]
  congr 1
  omega

-- ─── Host parser idempotence ─────────────────────────────────────────────────

theorem toNat_ofNat_valid {n : Nat} (h : Nat.isValidChar n) :
    (Char.ofNat n).toNat = n := by
  unfold Char.ofNat
  rw [dif_pos h]
  rfl

theorem jsLowerChar_toNat (c : Char) :
    (jsLowerChar c).toNat =
      if 65 ≤ c.toNat ∧ c.toNat ≤ 90 then c.toNat + 32 else c.toNat := by
  unfold jsLowerChar
  by_cases h : 65 ≤ c.toNat ∧ c.toNat ≤ 90
  · rw [if_pos h, if_pos h, toNat_ofNat_valid (Or.inl (by omega))]
  · rw [if_neg h, if_neg h]

theorem jsLowerChar_idem (c : Char) :
    jsLowerChar (jsLowerChar c) = jsLowerChar c := by
  show (if 65 ≤ (jsLowerChar c).toNat ∧ (jsLowerChar c).toNat ≤ 90
    then Char.ofNat ((jsLowerChar c).toNat + 32) else jsLowerChar c) =
      jsLowerChar c
  rw [if_neg]
  rw [jsLowerChar_toNat]
  split_ifs with h <;> omega

theorem jsLower_idem (s : Str) : jsLower (jsLower s) = jsLower s := by
  unfold jsLower
  rw [List.map_map]
  apply List.map_congr_left
  intro c _
  simp only [Function.comp_apply]
  exact jsLowerChar_idem c

theorem forbiddenHostChar_toNat {c : Char} (h : forbiddenHostChar c = true) :
    c.toNat = 35 ∨ c.toNat = 37 ∨ c.toNat = 47 ∨ c.toNat = 58 ∨
    c.toNat = 60 ∨ c.toNat = 62 ∨ c.toNat = 63 ∨ c.toNat = 64 ∨
    c.toNat = 91 ∨ c.toNat = 92 ∨ c.toNat = 93 ∨ c.toNat = 94 ∨
    c.toNat = 124 := by
  simp only [forbiddenHostChar, decide_eq_true_eq] at h
  rcases h with rfl|rfl|rfl|rfl|rfl|rfl|rfl|rfl|rfl|rfl|rfl|rfl|rfl <;> decide

theorem hostChar_jsLowerChar {c : Char} (h : hostChar c = true) :
    hostChar (jsLowerChar c) = true := by
  by_cases hr : 65 ≤ c.toNat ∧ c.toNat ≤ 90
  · have ht : (jsLowerChar c).toNat = c.toNat + 32 := by
      rw [jsLowerChar_toNat, if_pos hr]
    simp only [hostChar, decide_eq_true_eq]
    refine ⟨by omega, by omega, fun hf => ?_⟩
    have := forbiddenHostChar_toNat hf
    omega
  · have heq : jsLowerChar c = c := by
      unfold jsLowerChar
      rw [if_neg hr]
    rw [heq]
    exact h

theorem hostChar_digit_dot {c : Char} (h : isDigitChar c = true ∨ c = '.') :
    hostChar c = true := by
  rcases h with h | rfl
  · simp only [isDigitChar, decide_eq_true_eq] at h
    simp only [hostChar, decide_eq_true_eq]
    refine ⟨by omega, by omega, fun hf => ?_⟩
    have := forbiddenHostChar_toNat hf
    omega
  · decide

theorem renderIPv4_hostChars (a b c d : Nat) :
    ∀ ch ∈ renderIPv4 a b c d, hostChar ch = true :=
  fun ch hc => hostChar_digit_dot (renderIPv4_chars a b c d ch hc)

/-- A canonical IPv4 serialization is a fixed point of the host parser. -/
theorem parseHost_serializeIPv4 {n : Nat} (h : n < 4294967296) :
    parseHost (serializeIPv4 n) = some (serializeIPv4 n) := by
  unfold parseHost
  rw [if_neg (show ¬ serializeIPv4 n = [] from renderIPv4_ne_nil _ _ _ _)]
  have hallc : (serializeIPv4 n).all hostChar = true :=
    List.all_eq_true.mpr (fun c hc => renderIPv4_hostChars _ _ _ _ c hc)
  rw [if_neg (not_not_intro hallc)]
  simp only []
  rw [show jsLower (serializeIPv4 n) = serializeIPv4 n from
    jsLower_render _ _ _ _]
  rw [if_pos (show endsInNumber (serializeIPv4 n) = true from
    endsInNumber_render _ _ _ _)]
  rw [parseIPv4_serializeIPv4 h]
  rfl

/-- Any host the host parser outputs is nonempty, consists of host code
points, and is a fixed point of the host parser. -/
theorem parseHost_props {hp h : Str} (hph : parseHost hp = some h) :
    ¬ h = [] ∧ (∀ c ∈ h, hostChar c = true) ∧ parseHost h = some h := by
  unfold parseHost at hph
  by_cases he : hp = []
  · rw [if_pos he] at hph
    cases hph
  rw [if_neg he] at hph
  by_cases hall : hp.all hostChar = true
  case neg =>
    rw [if_pos hall] at hph
    cases hph
  rw [if_neg (not_not_intro hall)] at hph
  simp only [] at hph
  by_cases hnum : endsInNumber (jsLower hp) = true
  · rw [if_pos hnum] at hph
    cases hres : parseIPv4 (jsLower hp) with
    | none =>
      rw [hres] at hph
      cases hph
    | some n =>
      rw [hres, Option.map_some'] at hph
      have hn := parseIPv4_lt hres
      obtain rfl := Option.some.inj hph
      exact ⟨renderIPv4_ne_nil _ _ _ _,
        fun c hc => renderIPv4_hostChars _ _ _ _ c hc,
        parseHost_serializeIPv4 hn⟩
  · rw [if_neg hnum] at hph
    obtain rfl := Option.some.inj hph
    refine ⟨?_, ?_, ?_⟩
    · intro hnil
      exact he (List.map_eq_nil_iff.mp hnil)
    · intro c hc
      obtain ⟨c0, hc0, rfl⟩ := List.mem_map.mp hc
      exact hostChar_jsLowerChar (List.all_eq_true.mp hall c0 hc0)
    · unfold parseHost
      rw [if_neg (show ¬ jsLower hp = [] from
        fun hnil => he (List.map_eq_nil_iff.mp hnil))]
      rw [if_neg (not_not_intro (List.all_eq_true.mpr (fun c hc => by
        obtain ⟨c0, hc0, rfl⟩ := List.mem_map.mp hc
        exact hostChar_jsLowerChar (List.all_eq_true.mp hall c0 hc0))))]
      simp only []
      rw [jsLower_idem, if_neg hnum]

-- ─── Path, port and authority invariants ─────────────────────────────────────

theorem splitOnPred_mem_no_sep (p : Char → Bool) :
    ∀ (s : Str), ∀ x ∈ splitOnPred p s, ∀ c ∈ x, p c = false
  | [] => by
    intro x hx c hc
    have hx2 : x = [] := by simpa [splitOnPred] using hx
    subst hx2
    cases hc
  | ch :: cs => by
    intro x hx c hc
    rw [splitOnPred_cons] at hx
    cases hsp : splitOnPred p cs with
    | nil => exact absurd hsp (splitOnPred_ne_nil p cs)
    | cons a t =>
      rw [hsp] at hx
      simp only [] at hx
      by_cases hp : p ch = true
      · rw [if_pos hp] at hx
        rcases List.mem_cons.mp hx with rfl | hx2
        · cases hc
        · exact splitOnPred_mem_no_sep p cs x (hsp ▸ hx2) c hc
      · rw [if_neg hp] at hx
        rcases List.mem_cons.mp hx with rfl | hx2
        · rcases List.mem_cons.mp hc with rfl | hc2
          · exact Bool.eq_false_iff.mpr hp
          · exact splitOnPred_mem_no_sep p cs a
              (hsp ▸ List.mem_cons_self a t) c hc2
        · exact splitOnPred_mem_no_sep p cs x
            (hsp ▸ List.mem_cons_of_mem a hx2) c hc

theorem parsePort_le {ps : Str} {v : Nat}
    (h : parsePort ps = some (some v)) : v ≤ 65535 := by
  unfold parsePort at h
  by_cases he : ps = []
  · rw [if_pos he] at h
    cases h
  rw [if_neg he] at h
  by_cases hd : ps.all isDigitChar = true
  case neg =>
    rw [if_pos hd] at h
    cases h
  rw [if_neg (not_not_intro hd)] at h
  cases hr : parseRadix 10 ps 0 with
  | none =>
    rw [hr] at h
    cases h
  | some w =>
    rw [hr] at h
    simp only [] at h
    by_cases hw : 65535 < w
    · rw [if_pos hw] at h
      cases h
    · rw [if_neg hw] at h
      have := Option.some.inj h
      have hv : w = v := Option.some.inj this
      omega

theorem stripDefaultPort_some {scheme : Str} {p0 : Option Nat} {v : Nat}
    (h : stripDefaultPort scheme p0 = some v) :
    stripDefaultPort scheme (some v) = some v ∧ p0 = some v := by
  unfold stripDefaultPort at h ⊢
  cases p0 with
  | none => cases h
  | some w =>
    simp only [] at h ⊢
    by_cases hc : (scheme = S "http" ∧ w = 80) ∨
        (scheme = S "https" ∧ w = 443)
    · rw [if_pos hc] at h
      cases h
    · rw [if_neg hc] at h
      have hw : w = v := Option.some.inj h
      subst hw
      rw [if_neg hc]
      exact ⟨rfl, rfl⟩

theorem processSegs_ne_nil :
    ∀ (segs : List Str) (acc : List Str), ¬ segs = [] →
      ¬ processSegs acc segs = []
  | [], _, h => absurd rfl h
  | [s], acc, _ => by
    unfold processSegs
    split_ifs <;> simp
  | s :: s2 :: rest, acc, _ => by
    unfold processSegs
    split_ifs <;> exact processSegs_ne_nil (s2 :: rest) _ (by simp)

theorem processSegs_segs :
    ∀ (segs : List Str) (acc : List Str),
      (∀ x ∈ segs, ∀ c ∈ x, isSlash c = false) →
      (∀ x ∈ acc, ¬ x = S "." ∧ ¬ x = S ".." ∧
        ∀ c ∈ x, pathSafeChar c = true ∧ isSlash c = false) →
      ∀ x ∈ processSegs acc segs, ¬ x = S "." ∧ ¬ x = S ".." ∧
        ∀ c ∈ x, pathSafeChar c = true ∧ isSlash c = false
  | [], acc, _, hacc => hacc
  | [s], acc, hsegs, hacc => by
    intro x hx
    unfold processSegs at hx
    have hnil : ¬ ([] : Str) = S "." ∧ ¬ ([] : Str) = S ".." ∧
        ∀ c ∈ ([] : Str), pathSafeChar c = true ∧ isSlash c = false :=
      ⟨by decide, by decide, fun c hc => absurd hc (List.not_mem_nil c)⟩
    by_cases h2 : s = S ".."
    · rw [if_pos h2] at hx
      rcases List.mem_append.mp hx with hxa | hxe
      · exact hacc x (List.dropLast_subset acc hxa)
      · have : x = [] := by simpa using hxe
        subst this
        exact hnil
    rw [if_neg h2] at hx
    by_cases h1 : s = S "."
    · rw [if_pos h1] at hx
      rcases List.mem_append.mp hx with hxa | hxe
      · exact hacc x hxa
      · have : x = [] := by simpa using hxe
        subst this
        exact hnil
    rw [if_neg h1] at hx
    rcases List.mem_append.mp hx with hxa | hxe
    · exact hacc x hxa
    · have hxeq : x = percentEncode pathSafeChar s := by simpa using hxe
      subst hxeq
      refine ⟨fun he => h1 (percentEncode_eq_dot he),
        fun he => h2 (percentEncode_eq_dotdot he), ?_⟩
      exact percentEncode_chars_path
        (fun c hc => hsegs s (List.mem_cons_self s []) c hc)
  | s :: s2 :: rest, acc, hsegs, hacc => by
    intro x hx
    unfold processSegs at hx
    have hrest : ∀ y ∈ s2 :: rest, ∀ c ∈ y, isSlash c = false :=
      fun y hy => hsegs y (List.mem_cons_of_mem s hy)
    by_cases h2 : s = S ".."
    · rw [if_pos h2] at hx
      exact processSegs_segs (s2 :: rest) acc.dropLast hrest
        (fun y hy => hacc y (List.dropLast_subset acc hy)) x hx
    rw [if_neg h2] at hx
    by_cases h1 : s = S "."
    · rw [if_pos h1] at hx
      exact processSegs_segs (s2 :: rest) acc hrest hacc x hx
    rw [if_neg h1] at hx
    refine processSegs_segs (s2 :: rest)
      (acc ++ [percentEncode pathSafeChar s]) hrest ?_ x hx
    intro y hy
    rcases List.mem_append.mp hy with hya | hye
    · exact hacc y hya
    · have hyeq : y = percentEncode pathSafeChar s := by simpa using hye
      subst hyeq
      refine ⟨fun he => h1 (percentEncode_eq_dot he),
        fun he => h2 (percentEncode_eq_dotdot he), ?_⟩
      exact percentEncode_chars_path
        (fun c hc => hsegs s (List.mem_cons_self s (s2 :: rest)) c hc)

theorem parsePath_ne_nil (p : Str) : ¬ parsePath p = [] := by
  unfold parsePath
  cases p with
  | nil => simp
  | cons c tail =>
    exact processSegs_ne_nil (splitOnPred isSlash tail) []
      (splitOnPred_ne_nil isSlash tail)

theorem parsePath_segs (p : Str) :
    ∀ x ∈ parsePath p, ¬ x = S "." ∧ ¬ x = S ".." ∧
      ∀ c ∈ x, pathSafeChar c = true ∧ isSlash c = false := by
  unfold parsePath
  cases p with
  | nil =>
    intro x hx
    have hx2 : x = [] := by simpa using hx
    subst hx2
    exact ⟨by decide, by decide, fun c hc => absurd hc (List.not_mem_nil c)⟩
  | cons c tail =>
    exact processSegs_segs (splitOnPred isSlash tail) []
      (fun x hx c hc => splitOnPred_mem_no_sep isSlash tail x hx c hc)
      (fun x hx => absurd hx (List.not_mem_nil x))

theorem parseAfterAuthority_fst (rest : Str) :
    (parseAfterAuthority rest).1 =
      parsePath ((rest.takeWhile (fun c => ¬ c = '#')).takeWhile
        (fun c => ¬ c = '?')) := rfl

theorem parseAfterAuthority_query {rest q : Str}
    (h : (parseAfterAuthority rest).2.1 = some q) :
    ∃ qq, q = percentEncode querySafeChar qq := by
  unfold parseAfterAuthority at h
  simp only [] at h
  cases hq : (rest.takeWhile (fun c => ¬ c = '#')).dropWhile
      (fun c => ¬ c = '?') with
  | nil =>
    rw [hq] at h
    cases h
  | cons hd qq =>
    rw [hq] at h
    simp only [] at h
    exact ⟨qq, (Option.some.inj h).symm⟩

theorem parseAfterAuthority_frag {rest f : Str}
    (h : (parseAfterAuthority rest).2.2 = some f) :
    ∃ ff, f = percentEncode fragSafeChar ff := by
  unfold parseAfterAuthority at h
  simp only [] at h
  cases hf : rest.dropWhile (fun c => ¬ c = '#') with
  | nil =>
    rw [hf] at h
    cases h
  | cons hd ff =>
    rw [hf] at h
    simp only [] at h
    exact ⟨ff, (Option.some.inj h).symm⟩

theorem parseAuthority_core_noport {hp1 u1 u2 : Str}
    {u pw host : Str} {port0 : Option Nat}
    (h : (match parseHost hp1 with
          | none => none
          | some h2 => some (u1, u2, h2, none)) =
        some (u, pw, host, port0)) :
    parseHost host = some host ∧ ¬ host = [] ∧
      (∀ c ∈ host, hostChar c = true) ∧
      ∀ v, port0 = some v → v ≤ 65535 := by
  cases hph : parseHost hp1 with
  | none =>
    rw [hph] at h
    cases h
  | some h2 =>
    rw [hph] at h
    obtain ⟨hne, hchars, hfix⟩ := parseHost_props hph
    simp only [Option.some.injEq, Prod.mk.injEq] at h
    obtain ⟨-, -, hh, hp0⟩ := h
    subst hh
    refine ⟨hfix, hne, hchars, fun v hv => ?_⟩
    rw [← hp0] at hv
    cases hv

theorem parseAuthority_core_port {hp1 ps u1 u2 : Str}
    {u pw host : Str} {port0 : Option Nat}
    (h : (match parseHost hp1 with
          | none => none
          | some h2 =>
            match parsePort ps with
            | none => none
            | some port => some (u1, u2, h2, port)) =
        some (u, pw, host, port0)) :
    parseHost host = some host ∧ ¬ host = [] ∧
      (∀ c ∈ host, hostChar c = true) ∧
      ∀ v, port0 = some v → v ≤ 65535 := by
  cases hph : parseHost hp1 with
  | none =>
    rw [hph] at h
    cases h
  | some h2 =>
    rw [hph] at h
    simp only [] at h
    obtain ⟨hne, hchars, hfix⟩ := parseHost_props hph
    cases hpp : parsePort ps with
    | none =>
      rw [hpp] at h
      cases h
    | some port =>
      rw [hpp] at h
      simp only [Option.some.injEq, Prod.mk.injEq] at h
      obtain ⟨-, -, hh, hp0⟩ := h
      subst hh
      refine ⟨hfix, hne, hchars, fun v hv => ?_⟩
      rw [← hp0] at hv
      subst hv
      exact parsePort_le hpp

theorem parseAuthority_props {auth u pw host : Str} {port0 : Option Nat}
    (h : parseAuthority auth = some (u, pw, host, port0)) :
    parseHost host = some host ∧ ¬ host = [] ∧
      (∀ c ∈ host, hostChar c = true) ∧
      ∀ v, port0 = some v → v ≤ 65535 := by
  unfold parseAuthority at h
  cases hsl : splitLastAt '@' auth with
  | none =>
    rw [hsl] at h
    simp only [] at h
    cases hsf : splitFirstAt ':' auth with
    | none =>
      rw [hsf] at h
      simp only [] at h
      exact parseAuthority_core_noport h
    | some pr =>
      obtain ⟨hs, ps⟩ := pr
      rw [hsf] at h
      simp only [] at h
      exact parseAuthority_core_port h
  | some pr =>
    obtain ⟨ui, hp⟩ := pr
    rw [hsl] at h
    simp only [] at h
    cases hsf : splitFirstAt ':' hp with
    | none =>
      rw [hsf] at h
      simp only [] at h
      exact parseAuthority_core_noport h
    | some pr2 =>
      obtain ⟨hs, ps⟩ := pr2
      rw [hsf] at h
      simp only [] at h
      exact parseAuthority_core_port h

/-- Every record the modelled URL parser produces with empty credentials
satisfies the round-trip invariants. -/
theorem parseURL_good {s : Str} {rec : URLRecord}
    (h : parseURL s = some rec)
    (hu : rec.username = []) (hpw : rec.password = []) : GoodRec rec := by
  unfold parseURL at h
  cases hs : splitScheme s with
  | none =>
    rw [hs] at h
    cases h
  | some pr =>
    rw [hs] at h
    obtain ⟨schemeRaw, rest⟩ := pr
    simp only [] at h
    by_cases hsc : ¬ (jsLower schemeRaw = S "http" ∨
        jsLower schemeRaw = S "https")
    · rw [if_pos hsc] at h
      cases h
    rw [if_neg hsc] at h
    cases hauth : parseAuthority ((rest.dropWhile isSlash).takeWhile
        (fun c => ¬ authEndChar c)) with
    | none =>
      rw [hauth] at h
      cases h
    | some q =>
      rw [hauth] at h
      obtain ⟨un, pw, host, port0⟩ := q
      simp only [] at h
      obtain ⟨hph, hne, hchars, hport⟩ := parseAuthority_props hauth
      have hrec := (Option.some.inj h).symm
      subst hrec
      constructor
      · simpa using not_not.mp hsc
      · exact hu
      · exact hpw
      · exact hne
      · exact hchars
      · exact hph
      · intro p hp
        obtain ⟨hfix2, hp0⟩ := stripDefaultPort_some hp
        have hle := hport p hp0
        exact ⟨hle, hfix2⟩
      · rw [parseAfterAuthority_fst]
        exact parsePath_ne_nil _
      · rw [parseAfterAuthority_fst]
        exact parsePath_segs _
      · intro qv hqv
        obtain ⟨qq, rfl⟩ := parseAfterAuthority_query hqv
        exact percentEncode_chars_query
      · intro fv hfv
        obtain ⟨ff, rfl⟩ := parseAfterAuthority_frag hfv
        exact percentEncode_chars_frag

-- ─── Serializer round-trip helpers ───────────────────────────────────────────

theorem splitFirstAt_none (sep : Char) :
    ∀ {s : Str}, (∀ c ∈ s, ¬ c = sep) → splitFirstAt sep s = none
  | [], _ => rfl
  | c :: cs, h => by
    unfold splitFirstAt
    rw [if_neg (h c (List.mem_cons_self c cs)),
      splitFirstAt_none sep (fun x hx => h x (List.mem_cons_of_mem c hx))]
    rfl

theorem splitFirstAt_append (sep : Char) :
    ∀ {x : Str} (r : Str), (∀ c ∈ x, ¬ c = sep) →
      splitFirstAt sep (x ++ sep :: r) = some (x, r)
  | [], r, _ => by
    simp only [List.nil_append]
    unfold splitFirstAt
    rw [if_pos rfl]
  | c :: x, r, h => by
    simp only [List.cons_append]
    unfold splitFirstAt
    rw [if_neg (h c (List.mem_cons_self c _)),
      splitFirstAt_append sep r (fun e he => h e (List.mem_cons_of_mem c he))]
    rfl

theorem splitLastAt_none (sep : Char) {s : Str}
    (h : ∀ c ∈ s, ¬ c = sep) : splitLastAt sep s = none := by
  unfold splitLastAt
  rw [splitFirstAt_none sep (fun c hc => h c (List.mem_reverse.mp hc))]

theorem splitScheme_http (r : Str) :
    splitScheme (S "http" ++ ':' :: r) = some (S "http", r) := by
  show splitScheme ('h' :: (S "ttp" ++ ':' :: r)) = some (S "http", r)
  unfold splitScheme
  simp only []
  rw [if_pos (by decide)]
  rw [dropWhile_append_all (by decide) (':' :: r),
    List.dropWhile_cons_of_neg (by decide)]
  simp only []
  rw [takeWhile_append_all (by decide) (':' :: r),
    List.takeWhile_cons_of_neg (by decide)]
  rfl

theorem splitScheme_https (r : Str) :
    splitScheme (S "https" ++ ':' :: r) = some (S "https", r) := by
  show splitScheme ('h' :: (S "ttps" ++ ':' :: r)) = some (S "https", r)
  unfold splitScheme
  simp only []
  rw [if_pos (by decide)]
  rw [dropWhile_append_all (by decide) (':' :: r),
    List.dropWhile_cons_of_neg (by decide)]
  simp only []
  rw [takeWhile_append_all (by decide) (':' :: r),
    List.takeWhile_cons_of_neg (by decide)]
  rfl

theorem splitScheme_serial {scheme : Str}
    (hs : scheme = S "http" ∨ scheme = S "https") (r : Str) :
    splitScheme (scheme ++ ':' :: r) = some (scheme, r) := by
  rcases hs with rfl | rfl
  · exact splitScheme_http r
  · exact splitScheme_https r

theorem parsePort_natToDigits {p : Nat} (h : p ≤ 65535) :
    parsePort (natToDigits p) = some (some p) := by
  unfold parsePort
  rw [if_neg (natToDigits_ne_nil p)]
  rw [if_neg (not_not_intro (List.all_eq_true.mpr (natToDigits_digits p)))]
  rw [parseRadix_natToDigits (by omega)]
  simp only []
  rw [if_neg (by omega)]

theorem processSegs_fix :
    ∀ (segs : List Str) (acc : List Str),
      (∀ s ∈ segs, ¬ s = S "." ∧ ¬ s = S ".." ∧
        ∀ c ∈ s, pathSafeChar c = true) →
      processSegs acc segs = acc ++ segs
  | [], acc, _ => (List.append_nil acc).symm
  | [s], acc, h => by
    obtain ⟨h1, h2, h3⟩ := h s (List.mem_cons_self s [])
    unfold processSegs
    rw [if_neg h2, if_neg h1, percentEncode_all_safe h3]
  | s :: s2 :: rest, acc, h => by
    obtain ⟨h1, h2, h3⟩ := h s (List.mem_cons_self s _)
    unfold processSegs
    rw [if_neg h2, if_neg h1,
      processSegs_fix (s2 :: rest) (acc ++ [percentEncode pathSafeChar s])
        (fun x hx => h x (List.mem_cons_of_mem s hx)),
      percentEncode_all_safe h3]
    simp [List.append_assoc]

theorem splitOnPred_join :
    ∀ (segs : List Str) (s : Str), (∀ c ∈ s, isSlash c = false) →
      (∀ x ∈ segs, ∀ c ∈ x, isSlash c = false) →
      splitOnPred isSlash (s ++ joinPath segs) = s :: segs
  | [], s, hs, _ => by
    show splitOnPred isSlash (s ++ []) = [s]
    rw [List.append_nil]
    exact splitOnPred_no_sep isSlash hs
  | s2 :: rest, s, hs, hsegs => by
    show splitOnPred isSlash (s ++ '/' :: (s2 ++ joinPath rest)) =
      s :: s2 :: rest
    rw [splitOnPred_append isSlash s (s2 ++ joinPath rest) hs '/' (by decide)]
    rw [splitOnPred_join rest s2
      (fun c hc => hsegs s2 (List.mem_cons_self _ _) c hc)
      (fun x hx => hsegs x (List.mem_cons_of_mem s2 hx))]

theorem parsePath_joinPath {path : List Str}
    (hne : ¬ path = [])
    (hsegs : ∀ s ∈ path, ¬ s = S "." ∧ ¬ s = S ".." ∧
      ∀ c ∈ s, pathSafeChar c = true ∧ isSlash c = false) :
    parsePath (joinPath path) = path := by
  cases path with
  | nil => exact absurd rfl hne
  | cons s rest =>
    show parsePath ('/' :: (s ++ joinPath rest)) = s :: rest
    unfold parsePath
    simp only []
    rw [splitOnPred_join rest s
      (fun c hc => ((hsegs s (List.mem_cons_self _ _)).2.2 c hc).2)
      (fun x hx c hc => ((hsegs x (List.mem_cons_of_mem s hx)).2.2 c hc).2)]
    rw [processSegs_fix (s :: rest) []
      (fun x hx => ⟨(hsegs x hx).1, (hsegs x hx).2.1,
        fun c hc => ((hsegs x hx).2.2 c hc).1⟩)]
    rfl

theorem parseHost_fix_lower {h : Str} (hf : parseHost h = some h) :
    jsLower h = h := by
  unfold parseHost at hf
  by_cases he : h = []
  · rw [if_pos he] at hf
    cases hf
  rw [if_neg he] at hf
  by_cases hall : h.all hostChar = true
  case neg =>
    rw [if_pos hall] at hf
    cases hf
  rw [if_neg (not_not_intro hall)] at hf
  simp only [] at hf
  by_cases hnum : endsInNumber (jsLower h) = true
  · rw [if_pos hnum] at hf
    cases hres : parseIPv4 (jsLower h) with
    | none =>
      rw [hres] at hf
      cases hf
    | some n =>
      rw [hres, Option.map_some'] at hf
      have h2 := Option.some.inj hf
      rw [← h2]
      exact jsLower_render _ _ _ _
  · rw [if_neg hnum] at hf
    exact Option.some.inj hf

theorem hostChar_excl {c : Char} (h : hostChar c = true) :
    ¬ c = '@' ∧ ¬ c = ':' ∧ authEndChar c = false ∧ isSlash c = false := by
  simp only [hostChar, decide_eq_true_eq] at h
  obtain ⟨-, -, hnf⟩ := h
  refine ⟨?_, ?_, ?_, ?_⟩
  · intro he
    subst he
    exact hnf (by decide)
  · intro he
    subst he
    exact hnf (by decide)
  · apply decide_eq_false
    rintro (rfl | rfl | rfl | rfl) <;> exact hnf (by decide)
  · apply decide_eq_false
    rintro (rfl | rfl) <;> exact hnf (by decide)

theorem digit_excl {c : Char} (h : isDigitChar c = true) :
    ¬ c = '@' ∧ authEndChar c = false := by
  refine ⟨?_, ?_⟩
  · intro he
    subst he
    exact absurd h (by decide)
  · apply decide_eq_false
    rintro (rfl | rfl | rfl | rfl) <;> exact absurd h (by decide)

theorem pathSafe_excl {c : Char} (h : pathSafeChar c = true) :
    ¬ c = '#' ∧ ¬ c = '?' := by
  refine ⟨?_, ?_⟩ <;> intro he <;> subst he <;> exact absurd h (by decide)

theorem querySafe_ne_hash {c : Char} (h : querySafeChar c = true) :
    ¬ c = '#' := by
  intro he
  subst he
  exact absurd h (by decide)

theorem joinPath_mem :
    ∀ {segs : List Str} {c : Char}, c ∈ joinPath segs →
      c = '/' ∨ ∃ s ∈ segs, c ∈ s
  | [], c, hc => absurd hc (List.not_mem_nil c)
  | s :: rest, c, hc => by
    have hc2 : c ∈ '/' :: (s ++ joinPath rest) := hc
    rcases List.mem_cons.mp hc2 with rfl | hc3
    · exact Or.inl rfl
    rcases List.mem_append.mp hc3 with hcs | hcr
    · exact Or.inr ⟨s, List.mem_cons_self _ _, hcs⟩
    · rcases joinPath_mem hcr with h | ⟨t, ht, hct⟩
      · exact Or.inl h
      · exact Or.inr ⟨t, List.mem_cons_of_mem s ht, hct⟩

/-- Parsing the serialized authority (empty userinfo, canonical host,
decimal port) recovers host and port. -/
theorem parseAuthority_serial {host : Str} {port : Option Nat}
    (hne : ¬ host = []) (hchars : ∀ c ∈ host, hostChar c = true)
    (hfix : parseHost host = some host)
    (hle : ∀ p, port = some p → p ≤ 65535) :
    parseAuthority (host ++ portSerial port) =
      some (([] : Str), ([] : Str), host, port) := by
  have hcolon : ∀ c ∈ host, ¬ c = ':' :=
    fun c hc => (hostChar_excl (hchars c hc)).2.1
  cases port with
  | none =>
    show parseAuthority (host ++ []) = some ([], [], host, none)
    rw [List.append_nil]
    unfold parseAuthority
    rw [splitLastAt_none '@' (fun c hc => (hostChar_excl (hchars c hc)).1)]
    simp only []
    rw [splitFirstAt_none ':' hcolon]
    simp only []
    rw [hfix]
  | some p =>
    show parseAuthority (host ++ ':' :: natToDigits p) =
      some ([], [], host, some p)
    unfold parseAuthority
    rw [splitLastAt_none '@' (by
      intro c hc
      rcases List.mem_append.mp hc with hch | hcp
      · exact (hostChar_excl (hchars c hch)).1
      rcases List.mem_cons.mp hcp with rfl | hcd
      · decide
      · exact (digit_excl (natToDigits_digits p c hcd)).1)]
    simp only []
    rw [splitFirstAt_append ':' (natToDigits p) hcolon]
    simp only []
    rw [hfix]
    simp only []
    rw [parsePort_natToDigits (hle p rfl)]

/-- Parsing the serialized path-query-fragment tail recovers the record
components. -/
theorem parseAfterAuthority_serial {path : List Str} {query frag : Option Str}
    (hpne : ¬ path = [])
    (hsegs : ∀ s ∈ path, ¬ s = S "." ∧ ¬ s = S ".." ∧
      ∀ c ∈ s, pathSafeChar c = true ∧ isSlash c = false)
    (hq : ∀ q, query = some q → ∀ c ∈ q, querySafeChar c = true)
    (hf : ∀ f, frag = some f → ∀ c ∈ f, fragSafeChar c = true) :
    parseAfterAuthority (joinPath path ++
      (querySerial query ++ fragSerial frag)) = (path, query, frag) := by
  have hjp : ∀ c ∈ joinPath path, ¬ c = '#' ∧ ¬ c = '?' := by
    intro c hc
    rcases joinPath_mem hc with rfl | ⟨s, hs, hcs⟩
    · exact ⟨by decide, by decide⟩
    · exact pathSafe_excl ((hsegs s hs).2.2 c hcs).1
  have hpp := parsePath_joinPath hpne hsegs
  unfold parseAfterAuthority
  simp only []
  cases query with
  | none =>
    cases frag with
    | none =>
      simp only [querySerial, fragSerial, List.nil_append, List.append_nil]
      rw [takeWhile_all_eq_self
        (fun c hc => decide_eq_true ((hjp c hc).1))]
      rw [dropWhile_all_eq_nil
        (fun c hc => decide_eq_true ((hjp c hc).1))]
      rw [takeWhile_all_eq_self
        (fun c hc => decide_eq_true ((hjp c hc).2))]
      rw [dropWhile_all_eq_nil
        (fun c hc => decide_eq_true ((hjp c hc).2))]
      rw [hpp]
    | some f =>
      have hff := hf f rfl
      simp only [querySerial, fragSerial, List.nil_append]
      rw [takeWhile_append_all
        (fun c hc => decide_eq_true ((hjp c hc).1)) ('#' :: f)]
      rw [dropWhile_append_all
        (fun c hc => decide_eq_true ((hjp c hc).1)) ('#' :: f)]
      rw [List.takeWhile_cons_of_neg (by decide),
        List.dropWhile_cons_of_neg (by decide)]
      rw [List.append_nil]
      rw [takeWhile_all_eq_self
        (fun c hc => decide_eq_true ((hjp c hc).2))]
      rw [dropWhile_all_eq_nil
        (fun c hc => decide_eq_true ((hjp c hc).2))]
      rw [hpp]
      simp only []
      rw [percentEncode_all_safe hff]
  | some q =>
    have hqq := hq q rfl
    have hqhash : ∀ c ∈ joinPath path ++ '?' :: q, ¬ c = '#' := by
      intro c hc
      rcases List.mem_append.mp hc with hcj | hcq
      · exact (hjp c hcj).1
      rcases List.mem_cons.mp hcq with rfl | hcq2
      · decide
      · exact querySafe_ne_hash (hqq c hcq2)
    cases frag with
    | none =>
      simp only [querySerial, fragSerial, List.append_nil]
      rw [takeWhile_all_eq_self
        (fun c hc => decide_eq_true (hqhash c hc))]
      rw [dropWhile_all_eq_nil
        (fun c hc => decide_eq_true (hqhash c hc))]
      rw [takeWhile_append_all
        (fun c hc => decide_eq_true ((hjp c hc).2)) ('?' :: q)]
      rw [dropWhile_append_all
        (fun c hc => decide_eq_true ((hjp c hc).2)) ('?' :: q)]
      rw [List.takeWhile_cons_of_neg (by decide),
        List.dropWhile_cons_of_neg (by decide)]
      rw [List.append_nil, hpp]
      simp only []
      rw [percentEncode_all_safe hqq]
    | some f =>
      have hff := hf f rfl
      simp only [querySerial, fragSerial]
      rw [show joinPath path ++ ('?' :: q ++ '#' :: f) =
        (joinPath path ++ '?' :: q) ++ '#' :: f by
          simp [List.append_assoc]]
      rw [takeWhile_append_all
        (fun c hc => decide_eq_true (hqhash c hc)) ('#' :: f)]
      rw [dropWhile_append_all
        (fun c hc => decide_eq_true (hqhash c hc)) ('#' :: f)]
      rw [List.takeWhile_cons_of_neg (by decide),
        List.dropWhile_cons_of_neg (by decide)]
      rw [List.append_nil]
      rw [takeWhile_append_all
        (fun c hc => decide_eq_true ((hjp c hc).2)) ('?' :: q)]
      rw [dropWhile_append_all
        (fun c hc => decide_eq_true ((hjp c hc).2)) ('?' :: q)]
      rw [List.takeWhile_cons_of_neg (by decide),
        List.dropWhile_cons_of_neg (by decide)]
      rw [List.append_nil, hpp]
      simp only []
      rw [percentEncode_all_safe hqq, percentEncode_all_safe hff]

/-- The API-setter normalization of part_000 lines 232-239 is the identity
on records the parser already canonicalized. -/
theorem normalizeRec_fix {rec : URLRecord} (hg : GoodRec rec) :
    normalizeRec rec = rec := by
  obtain ⟨scheme, user, pass, host, port, path, query, frag⟩ := rec
  obtain ⟨hsch, -, -, -, -, hfix, hport, -, -, -, -⟩ := hg
  have hlows : jsLower scheme = scheme := by
    rcases hsch with rfl | rfl <;> decide
  have hlowh : jsLower host = host := parseHost_fix_lower hfix
  unfold normalizeRec
  simp only []
  rw [hlows, hlowh]
  have hcond : ¬ ((scheme ++ [':'] = S "http:" ∧ port = some 80) ∨
      (scheme ++ [':'] = S "https:" ∧ port = some 443)) := by
    rintro (⟨hs, hp⟩ | ⟨hs, hp⟩)
    · have h80 := (hport 80 hp).2
      rcases hsch with rfl | rfl
      · unfold stripDefaultPort at h80
        simp only [] at h80
        rw [if_pos (Or.inl (by constructor <;> trivial))] at h80
        cases h80
      · exact absurd hs (by decide)
    · have h443 := (hport 443 hp).2
      rcases hsch with rfl | rfl
      · exact absurd hs (by decide)
      · unfold stripDefaultPort at h443
        simp only [] at h443
        rw [if_pos (Or.inr (by constructor <;> trivial))] at h443
        cases h443
  rw [if_neg hcond]

/-- The serializer-parser round trip on canonical records. -/
theorem parseURL_serializeURL {rec : URLRecord} (hg : GoodRec rec) :
    parseURL (serializeURL rec) = some rec := by
  obtain ⟨scheme, user, pass, host, port, path, query, frag⟩ := rec
  obtain ⟨hsch, huser, hpass, hne, hchars, hfix, hport, hpne, hsegs,
    hq, hf⟩ := hg
  have huser2 : user = [] := huser
  have hpass2 : pass = [] := hpass
  subst huser2
  subst hpass2
  obtain ⟨s, pr, hpath⟩ : ∃ s pr, path = s :: pr := by
    cases path with
    | nil => exact absurd rfl hpne
    | cons s pr => exact ⟨s, pr, rfl⟩
  have hjoin : joinPath path = '/' :: (s ++ joinPath pr) := by
    rw [hpath]
    rfl
  have hser : serializeURL ⟨scheme, [], [], host, port, path, query, frag⟩ =
      scheme ++ ':' :: '/' :: '/' ::
        (host ++ (portSerial port ++ (joinPath path ++
          (querySerial query ++ fragSerial frag)))) := by
    unfold serializeURL
    simp only []
    rw [if_pos (by constructor <;> trivial)]
    simp only [List.append_assoc, List.nil_append]
    rfl
  have hms_chars : ∀ c ∈ portSerial port,
      authEndChar c = false ∧ ¬ c = '@' := by
    cases port with
    | none =>
      intro c hc
      simp only [portSerial] at hc
      exact absurd hc (List.not_mem_nil c)
    | some p =>
      intro c hc
      simp only [portSerial] at hc
      rcases List.mem_cons.mp hc with rfl | hcd
      · exact ⟨by decide, by decide⟩
      · obtain ⟨h1, h2⟩ := digit_excl (natToDigits_digits p c hcd)
        exact ⟨h2, h1⟩
  have hall : ∀ c ∈ host ++ portSerial port, ¬ authEndChar c = true := by
    intro c hc
    rcases List.mem_append.mp hc with h1 | h2
    · simp [(hostChar_excl (hchars c h1)).2.2.1]
    · simp [(hms_chars c h2).1]
  have hassoc : host ++ (portSerial port ++
      ('/' :: (s ++ joinPath pr) ++
        (querySerial query ++ fragSerial frag))) =
      (host ++ portSerial port) ++
        ('/' :: ((s ++ joinPath pr) ++
          (querySerial query ++ fragSerial frag))) := by
    simp [List.append_assoc]
  have hauthT : (host ++ (portSerial port ++ (joinPath path ++
      (querySerial query ++ fragSerial frag)))).takeWhile
        (fun c => ¬ authEndChar c) = host ++ portSerial port := by
    rw [hjoin, hassoc]
    rw [takeWhile_append_all (fun c hc => decide_eq_true (hall c hc)) _]
    rw [List.takeWhile_cons_of_neg (by decide), List.append_nil]
  have hauthD : (host ++ (portSerial port ++ (joinPath path ++
      (querySerial query ++ fragSerial frag)))).dropWhile
        (fun c => ¬ authEndChar c) =
      joinPath path ++ (querySerial query ++ fragSerial frag) := by
    rw [hjoin, hassoc]
    rw [dropWhile_append_all (fun c hc => decide_eq_true (hall c hc)) _]
    rw [List.dropWhile_cons_of_neg (by decide)]
    simp [List.cons_append, List.append_assoc]
  have hstrip : stripDefaultPort scheme port = port := by
    cases port with
    | none => rfl
    | some p => exact (hport p rfl).2
  rw [hser]
  unfold parseURL
  rw [splitScheme_serial hsch]
  simp only []
  have hlow : jsLower scheme = scheme := by
    rcases hsch with rfl | rfl <;> decide
  rw [hlow]
  rw [if_neg (not_not_intro hsch)]
  have hdrop : List.dropWhile isSlash ('/' :: '/' ::
      (host ++ (portSerial port ++ (joinPath path ++
        (querySerial query ++ fragSerial frag))))) =
      host ++ (portSerial port ++ (joinPath path ++
        (querySerial query ++ fragSerial frag))) := by
    rw [List.dropWhile_cons_of_pos (by decide),
      List.dropWhile_cons_of_pos (by decide)]
    cases host with
    | nil => exact absurd rfl hne
    | cons hc ht =>
      simp only [List.cons_append]
      rw [List.dropWhile_cons_of_neg (by
        simp [(hostChar_excl (hchars hc (List.mem_cons_self hc ht))).2.2.2])]
  rw [hdrop, hauthT, hauthD]
  rw [parseAuthority_serial hne hchars hfix (fun p hp => (hport p hp).1)]
  simp only []
  rw [parseAfterAuthority_serial hpne hsegs hq hf]
  simp only []
  rw [hstrip]

-- ─── Serialized URLs survive the input pipeline ──────────────────────────────

theorem hostChar_bounds {c : Char} (h : hostChar c = true) :
    0x20 < c.toNat ∧ c.toNat < 0x7F := by
  simp only [hostChar, decide_eq_true_eq] at h
  exact ⟨h.1, h.2.1⟩

theorem pathSafeChar_bounds {c : Char} (h : pathSafeChar c = true) :
    0x20 < c.toNat ∧ c.toNat < 0x7F := by
  simp only [pathSafeChar, decide_eq_true_eq] at h
  exact ⟨h.1, h.2.1⟩

theorem querySafeChar_bounds {c : Char} (h : querySafeChar c = true) :
    0x20 < c.toNat ∧ c.toNat < 0x7F := by
  simp only [querySafeChar, decide_eq_true_eq] at h
  exact ⟨h.1, h.2.1⟩

theorem fragSafeChar_bounds {c : Char} (h : fragSafeChar c = true) :
    0x20 < c.toNat ∧ c.toNat < 0x7F := by
  simp only [fragSafeChar, decide_eq_true_eq] at h
  exact ⟨h.1, h.2.1⟩

theorem isDigitChar_bounds {c : Char} (h : isDigitChar c = true) :
    0x20 < c.toNat ∧ c.toNat < 0x7F := by
  simp only [isDigitChar, decide_eq_true_eq] at h
  omega

/-- Every character of a serialized canonical record is printable ASCII
other than space. -/
theorem serializeURL_chars {rec : URLRecord} (hg : GoodRec rec) :
    ∀ c ∈ serializeURL rec, 0x20 < c.toNat ∧ c.toNat < 0x7F := by
  intro c hc
  unfold serializeURL at hc
  rw [if_pos ⟨hg.user_nil, hg.pass_nil⟩] at hc
  simp only [List.append_nil, List.nil_append, List.mem_append] at hc
  rcases hc with ((((((h | h) | h) | h) | h) | h) | h)
  · rcases hg.scheme_ok with hsch | hsch
    · rw [hsch] at h
      exact (by decide :
        ∀ x ∈ S "http", 0x20 < x.toNat ∧ x.toNat < 0x7F) c h
    · rw [hsch] at h
      exact (by decide :
        ∀ x ∈ S "https", 0x20 < x.toNat ∧ x.toNat < 0x7F) c h
  · exact (by decide :
      ∀ x ∈ S "://", 0x20 < x.toNat ∧ x.toNat < 0x7F) c h
  · exact hostChar_bounds (hg.host_chars c h)
  · cases hp : rec.port with
    | none =>
      rw [hp] at h
      simp only [portSerial] at h
      exact absurd h (List.not_mem_nil c)
    | some p =>
      rw [hp] at h
      simp only [portSerial] at h
      rcases List.mem_cons.mp h with rfl | hcd
      · decide
      · exact isDigitChar_bounds (natToDigits_digits p c hcd)
  · rcases joinPath_mem h with rfl | ⟨seg, hs, hcs⟩
    · decide
    · exact pathSafeChar_bounds
        (((hg.path_segs seg hs).2.2 c hcs).1)
  · cases hq : rec.query with
    | none =>
      rw [hq] at h
      simp only [querySerial] at h
      exact absurd h (List.not_mem_nil c)
    | some q =>
      rw [hq] at h
      simp only [querySerial] at h
      rcases List.mem_cons.mp h with rfl | hcq
      · decide
      · exact querySafeChar_bounds (hg.query_chars q hq c hcq)
  · cases hf : rec.fragment with
    | none =>
      rw [hf] at h
      simp only [fragSerial] at h
      exact absurd h (List.not_mem_nil c)
    | some f =>
      rw [hf] at h
      simp only [fragSerial] at h
      rcases List.mem_cons.mp h with rfl | hcf
      · decide
      · exact fragSafeChar_bounds (hg.frag_chars f hf c hcf)

/-- Printable-ASCII-minus-space strings pass the sanitize-trim-normalize
pipeline unchanged. -/
theorem pipeline_fix_of_printable {s : Str}
    (h : ∀ c ∈ s, 0x20 < c.toNat ∧ c.toNat < 0x7F) :
    nfkc (jsTrim (stripControlChars s)) = s := by
  have h1 : stripControlChars s = s := by
    apply strip_fix_of_all
    intro c hc
    obtain ⟨hl, hr⟩ := h c hc
    simp only [isStrippedChar]
    apply decide_eq_false
    omega
  have h2 : jsTrim s = s := by
    apply trim_fix_of_all
    intro c hc
    obtain ⟨hl, hr⟩ := h c hc
    simp only [isJsWhitespace]
    apply decide_eq_false
    omega
  have h3 : nfkc s = s := by
    apply nfkc_fix_of_all
    intro c hc
    obtain ⟨hl, hr⟩ := h c hc
    unfold nfkcChar
    rw [if_neg]
    omega
  rw [h1, h2, h3]

/-- A serialized canonical record is nonempty (it starts with the
scheme). -/
theorem serializeURL_ne_nil {rec : URLRecord} (hg : GoodRec rec) :
    ¬ serializeURL rec = [] := by
  intro he
  unfold serializeURL at he
  simp only [List.append_assoc] at he
  have hs := (List.append_eq_nil.mp he).1
  rcases hg.scheme_ok with hsch | hsch <;> rw [hsch] at hs <;> cases hs

theorem serializeURL_shape {rec : URLRecord} (hu : rec.username = [])
    (hp : rec.password = []) :
    serializeURL rec = rec.scheme ++ ':' :: '/' :: '/' ::
      (rec.host ++ (portSerial rec.port ++ (joinPath rec.path ++
        (querySerial rec.query ++ fragSerial rec.fragment)))) := by
  unfold serializeURL
  rw [if_pos ⟨hu, hp⟩]
  simp only [List.append_assoc, List.nil_append]
  rfl

/-- On success, `validateUrl` parsed the normalized input into a record
with empty credentials whose hostname passed the domain-shape and
blocked-address checks, and returned the serialized normalized record. -/
theorem validateUrl_ok {raw u : Str} (h : validateUrl raw = .ok u) :
    ∃ parsed, parseURL (nfkc (jsTrim (stripControlChars raw))) =
        some parsed ∧
      parsed.username = [] ∧ parsed.password = [] ∧
      ¬ (¬ (isDottedQuad parsed.host = true ∨
            parsed.host.contains ':' = true) ∧
         ¬ parsed.host.contains '.' = true) ∧
      isBlockedHostname parsed.host = false ∧
      u = serializeURL (normalizeRec parsed) := by
  unfold validateUrl at h
  set str := nfkc (jsTrim (stripControlChars raw)) with hs
  by_cases h1 : str.length = 0
  · rw [if_pos h1] at h
    exact VRes.noConfusion h
  rw [if_neg h1] at h
  by_cases h2 : 2048 < str.length
  · rw [if_pos h2] at h
    exact VRes.noConfusion h
  rw [if_neg h2] at h
  cases hsp : splitScheme str with
  | none =>
    rw [hsp] at h
    simp only [] at h
    exact VRes.noConfusion h
  | some pr =>
    obtain ⟨schemeRaw, afterColon⟩ := pr
    rw [hsp] at h
    simp only [] at h
    by_cases hpre : (S "//").isPrefixOf afterColon = true
    case neg =>
      rw [if_neg hpre] at h
      simp only [] at h
      exact VRes.noConfusion h
    rw [if_pos hpre] at h
    simp only [] at h
    by_cases hsc : ¬ (jsLower schemeRaw = S "http" ∨
        jsLower schemeRaw = S "https")
    · rw [if_pos hsc] at h
      exact VRes.noConfusion h
    rw [if_neg hsc] at h
    cases hpu : parseURL str with
    | none =>
      rw [hpu] at h
      exact VRes.noConfusion h
    | some parsed =>
      rw [hpu] at h
      simp only [] at h
      by_cases hproto : ¬ (parsed.scheme ++ [':'] = S "http:" ∨
          parsed.scheme ++ [':'] = S "https:")
      · rw [if_pos hproto] at h
        exact VRes.noConfusion h
      rw [if_neg hproto] at h
      by_cases hcred : ¬ parsed.username = [] ∨ ¬ parsed.password = []
      · rw [if_pos hcred] at h
        exact VRes.noConfusion h
      rw [if_neg hcred] at h
      by_cases hhost : parsed.host = []
      · rw [if_pos hhost] at h
        exact VRes.noConfusion h
      rw [if_neg hhost] at h
      by_cases hdom : ¬ (isDottedQuad parsed.host = true ∨
          parsed.host.contains ':' = true) ∧
          ¬ parsed.host.contains '.' = true
      · rw [if_pos hdom] at h
        exact VRes.noConfusion h
      rw [if_neg hdom] at h
      by_cases hblock : isBlockedHostname parsed.host = true
      · rw [if_pos hblock] at h
        exact VRes.noConfusion h
      rw [if_neg hblock] at h
      push_neg at hcred
      exact ⟨parsed, rfl, hcred.1, hcred.2, hdom,
        Bool.eq_false_iff.mpr hblock, (VRes.ok.inj h).symm⟩

/-- C7 (amended): `validateUrl` is idempotent on those accepted outputs
that are at most 2048 characters long — re-validating such an output
succeeds and returns it unchanged.  (The unconditional statement fails:
percent-encoding can push the canonical form past the length bound.) -/
theorem claim_C7 {raw u : Str} (h : validateUrl raw = .ok u)
    (hlen : u.length ≤ 2048) : validateUrl u = .ok u := by
  obtain ⟨parsed, hpu, hun, hpw, hdom, hblock, hueq⟩ := validateUrl_ok h
  have hg : GoodRec parsed := parseURL_good hpu hun hpw
  rw [normalizeRec_fix hg] at hueq
  subst hueq
  have hchars := serializeURL_chars hg
  have hpipe : nfkc (jsTrim (stripControlChars (serializeURL parsed))) =
      serializeURL parsed := pipeline_fix_of_printable hchars
  unfold validateUrl
  simp only []
  rw [hpipe]
  rw [if_neg (by
    intro h0
    exact serializeURL_ne_nil hg (List.length_eq_zero.mp h0))]
  rw [if_neg (by omega)]
  have hsplit : splitScheme (serializeURL parsed) =
      some (parsed.scheme, '/' :: '/' ::
        (parsed.host ++ (portSerial parsed.port ++ (joinPath parsed.path ++
          (querySerial parsed.query ++ fragSerial parsed.fragment))))) := by
    rw [serializeURL_shape hg.user_nil hg.pass_nil]
    exact splitScheme_serial hg.scheme_ok _
  rw [hsplit]
  simp only []
  rw [if_pos (show (S "//").isPrefixOf ('/' :: '/' ::
      (parsed.host ++ (portSerial parsed.port ++ (joinPath parsed.path ++
        (querySerial parsed.query ++ fragSerial parsed.fragment))))) = true
    from isPrefixOf_self_append (S "//") _)]
  simp only []
  have hlow : jsLower parsed.scheme = parsed.scheme := by
    rcases hg.scheme_ok with hs | hs <;> rw [hs] <;> decide
  rw [hlow]
  rw [if_neg (not_not_intro hg.scheme_ok)]
  rw [parseURL_serializeURL hg]
  simp only []
  rw [if_neg (not_not_intro (by
    rcases hg.scheme_ok with hs | hs
    · exact Or.inl (by rw [hs]; decide)
    · exact Or.inr (by rw [hs]; decide)))]
  rw [if_neg (by
    rintro (hc | hc)
    · exact hc hg.user_nil
    · exact hc hg.pass_nil)]
  rw [if_neg hg.host_ne]
  rw [if_neg hdom]
  rw [if_neg (by simp [hblock])]
  rw [normalizeRec_fix hg]

theorem flatten_replicate_length (n : Nat) (l : Str) :
    ((List.replicate n l).flatten).length = n * l.length := by
  induction n with
  | zero => simp
  | succ k ih =>
    rw [List.replicate_succ, List.flatten_cons, List.length_append, ih]
    ring

theorem flatMap_replicate (f : Char → Str) (n : Nat) (c : Char) :
    (List.replicate n c).flatMap f = (List.replicate n (f c)).flatten := by
  induction n with
  | zero => rfl
  | succ k ih =>
    rw [List.replicate_succ, List.replicate_succ, List.flatMap_cons,
      List.flatten_cons, ih]

theorem c7input_pipeline :
    nfkc (jsTrim (stripControlChars c7input)) = c7input := by
  have hmem1 : ∀ c ∈ c7input,
      c ∈ S "https://example.com/" ∨ c = ' ' ∨ c = 'a' := by
    intro c hc
    unfold c7input at hc
    simp only [List.append_assoc, List.mem_append] at hc
    rcases hc with h | h | h
    · exact Or.inl h
    · exact Or.inr (Or.inl (List.mem_replicate.mp h).2)
    · exact Or.inr (Or.inr (List.mem_singleton.mp h))
  have hstrip1 : stripControlChars c7input = c7input := by
    apply strip_fix_of_all
    intro c hc
    rcases hmem1 c hc with h | rfl | rfl
    · exact (by decide :
        ∀ x ∈ S "https://example.com/", isStrippedChar x = false) c h
    · decide
    · decide
  have htrim1 : jsTrim c7input = c7input := by
    have hhead : c7input = 'h' :: ((S "ttps://example.com/" ++
        List.replicate 680 ' ') ++ S "a") := rfl
    have hrev : c7input.reverse =
        'a' :: (S "https://example.com/" ++
          List.replicate 680 ' ').reverse := by
      rw [show c7input = (S "https://example.com/" ++
        List.replicate 680 ' ') ++ S "a" from rfl]
      rw [show (S "a" : Str) = ['a'] from rfl]
      rw [List.reverse_append, List.reverse_singleton,
        List.singleton_append]
    unfold jsTrim
    rw [hhead, List.dropWhile_cons_of_neg (by decide), ← hhead]
    rw [hrev, List.dropWhile_cons_of_neg (by decide), ← hrev,
      List.reverse_reverse]
  have hnfkc1 : nfkc c7input = c7input := by
    apply nfkc_fix_of_all
    intro c hc
    rcases hmem1 c hc with h | rfl | rfl
    · exact (by decide :
        ∀ x ∈ S "https://example.com/", nfkcChar x = [x]) c h
    · decide
    · decide
  rw [hstrip1, htrim1, hnfkc1]

theorem c7input_length : c7input.length = 701 := by
  unfold c7input
  rw [List.length_append, List.length_append, List.length_replicate]
  have hB : (S "https://example.com/").length = 20 := by decide
  have hA : (S "a").length = 1 := by decide
  omega

theorem c7output_length : c7output.length = 2061 := by
  unfold c7output
  rw [List.length_append, List.length_append, flatten_replicate_length]
  have hB : (S "https://example.com/").length = 20 := by decide
  have h20 : (S "%20").length = 3 := by decide
  have hA : (S "a").length = 1 := by decide
  omega

theorem percentEncode_c7seg :
    percentEncode pathSafeChar (List.replicate 680 ' ' ++ S "a") =
      (List.replicate 680 (S "%20")).flatten ++ S "a" := by
  unfold percentEncode
  rw [List.flatMap_append, flatMap_replicate]
  rw [show percentEncodeChar pathSafeChar ' ' = S "%20" from by decide]
  rw [show (S "a").flatMap (percentEncodeChar pathSafeChar) = S "a" from
    by decide]

theorem parseAfterAuthority_plain {t : Str}
    (hno : ∀ c ∈ t, ¬ c = '#' ∧ ¬ c = '?' ∧ isSlash c = false)
    (hnd1 : ¬ t = S ".") (hnd2 : ¬ t = S "..") :
    parseAfterAuthority ('/' :: t) =
      ([percentEncode pathSafeChar t], none, none) := by
  have hh : ∀ c ∈ '/' :: t, ¬ c = '#' := by
    intro c hc
    rcases List.mem_cons.mp hc with rfl | hc2
    · decide
    · exact (hno c hc2).1
  have hq : ∀ c ∈ '/' :: t, ¬ c = '?' := by
    intro c hc
    rcases List.mem_cons.mp hc with rfl | hc2
    · decide
    · exact (hno c hc2).2.1
  unfold parseAfterAuthority
  simp only []
  rw [takeWhile_all_eq_self (fun c hc => decide_eq_true (hh c hc))]
  rw [dropWhile_all_eq_nil (fun c hc => decide_eq_true (hh c hc))]
  rw [takeWhile_all_eq_self (fun c hc => decide_eq_true (hq c hc))]
  rw [dropWhile_all_eq_nil (fun c hc => decide_eq_true (hq c hc))]
  unfold parsePath
  simp only []
  rw [splitOnPred_no_sep isSlash (fun c hc => (hno c hc).2.2)]
  unfold processSegs
  rw [if_neg hnd2, if_neg hnd1]
  rfl

theorem parseURL_eval {s2 scheme rest : Str}
    (hsp : splitScheme s2 = some (scheme, rest))
    (hlow : jsLower scheme = scheme)
    (hsch : scheme = S "http" ∨ scheme = S "https")
    {auth after : Str}
    (htk : (rest.dropWhile isSlash).takeWhile
      (fun c => ¬ authEndChar c) = auth)
    (hdr : (rest.dropWhile isSlash).dropWhile
      (fun c => ¬ authEndChar c) = after)
    {u1 u2 host : Str} {port0 : Option Nat}
    (hpa : parseAuthority auth = some (u1, u2, host, port0))
    {pqf : List Str × Option Str × Option Str}
    (hba : parseAfterAuthority after = pqf) :
    parseURL s2 = some { scheme := scheme, username := u1,
                         password := u2, host := host,
                         port := stripDefaultPort scheme port0,
                         path := pqf.1, query := pqf.2.1,
                         fragment := pqf.2.2 } := by
  unfold parseURL
  rw [hsp]
  simp only []
  rw [hlow, if_neg (not_not_intro hsch), htk, hdr, hpa]
  simp only []
  rw [hba]

theorem validateUrl_eval {raw s2 : Str}
    (hp : nfkc (jsTrim (stripControlChars raw)) = s2)
    (h0 : ¬ s2.length = 0) (hle : ¬ 2048 < s2.length)
    {scheme rest : Str}
    (hsp : splitScheme s2 = some (scheme, rest))
    (hpre : (S "//").isPrefixOf rest = true)
    (hlow : jsLower scheme = scheme)
    (hsch : scheme = S "http" ∨ scheme = S "https")
    {parsed : URLRecord} (hpu : parseURL s2 = some parsed)
    (hproto : parsed.scheme ++ [':'] = S "http:" ∨
      parsed.scheme ++ [':'] = S "https:")
    (hcu : parsed.username = []) (hcp : parsed.password = [])
    (hhne : ¬ parsed.host = [])
    (hdom : ¬ (¬ (isDottedQuad parsed.host = true ∨
        parsed.host.contains ':' = true) ∧
        ¬ parsed.host.contains '.' = true))
    (hblock : ¬ isBlockedHostname parsed.host = true) :
    validateUrl raw = .ok (serializeURL (normalizeRec parsed)) := by
  unfold validateUrl
  rw [hp]
  simp only []
  rw [if_neg h0, if_neg hle, hsp]
  simp only []
  rw [if_pos hpre]
  simp only []
  rw [hlow, if_neg (not_not_intro hsch), hpu]
  simp only []
  rw [if_neg (not_not_intro hproto)]
  rw [if_neg (by
    rintro (hc | hc)
    · exact hc hcu
    · exact hc hcp)]
  rw [if_neg hhne, if_neg hdom, if_neg hblock]

theorem validateUrl_too_long {raw s2 : Str}
    (hp : nfkc (jsTrim (stripControlChars raw)) = s2)
    (h0 : ¬ s2.length = 0) (h1 : 2048 < s2.length) :
    validateUrl raw = .error (S "URL must be 2048 characters or fewer.") := by
  unfold validateUrl
  rw [hp]
  simp only []
  rw [if_neg h0, if_pos h1]

theorem c7input_split : c7input = S "https" ++ ':' :: ('/' :: '/' ::
    (S "example.com" ++ '/' :: (List.replicate 680 ' ' ++ S "a"))) := by
  unfold c7input
  rw [show S "https://example.com/" = S "https" ++ ':' ::
    ('/' :: '/' :: (S "example.com" ++ ['/'])) from rfl]
  simp only [List.append_assoc, List.cons_append, List.singleton_append,
    List.nil_append]

theorem c7seg_chars : ∀ c ∈ List.replicate 680 ' ' ++ S "a",
    c = ' ' ∨ c = 'a' := by
  intro c hc
  rcases List.mem_append.mp hc with h | h
  · exact Or.inl (List.mem_replicate.mp h).2
  · exact Or.inr (List.mem_singleton.mp h)

theorem c7seg_ne_dot : ¬ (List.replicate 680 ' ' ++ S "a" : Str) = S "." := by
  intro h
  have hl := congrArg List.length h
  rw [List.length_append, List.length_replicate] at hl
  have hA : (S "a").length = 1 := by decide
  have hD : (S ".").length = 1 := by decide
  omega

theorem c7seg_ne_dotdot :
    ¬ (List.replicate 680 ' ' ++ S "a" : Str) = S ".." := by
  intro h
  have hl := congrArg List.length h
  rw [List.length_append, List.length_replicate] at hl
  have hA : (S "a").length = 1 := by decide
  have hD : (S "..").length = 2 := by decide
  omega

theorem parseURL_c7input :
    parseURL c7input = some
      { scheme := S "https", username := [], password := [],
        host := S "example.com", port := none,
        path := [percentEncode pathSafeChar
          (List.replicate 680 ' ' ++ S "a")],
        query := none, fragment := none } := by
  have hsp : splitScheme c7input = some (S "https", '/' :: '/' ::
      (S "example.com" ++ '/' :: (List.replicate 680 ' ' ++ S "a"))) := by
    rw [c7input_split]
    exact splitScheme_https _
  have hdrop : List.dropWhile isSlash ('/' :: '/' ::
      (S "example.com" ++ '/' :: (List.replicate 680 ' ' ++ S "a"))) =
      S "example.com" ++ '/' :: (List.replicate 680 ' ' ++ S "a") := by
    rw [List.dropWhile_cons_of_pos (by decide),
      List.dropWhile_cons_of_pos (by decide)]
    rw [show (S "example.com" ++ '/' ::
      (List.replicate 680 ' ' ++ S "a") : Str) = 'e' ::
      (S "xample.com" ++ '/' :: (List.replicate 680 ' ' ++ S "a"))
      from rfl]
    rw [List.dropWhile_cons_of_neg (by decide)]
  have htake : (List.dropWhile isSlash ('/' :: '/' ::
      (S "example.com" ++ '/' ::
        (List.replicate 680 ' ' ++ S "a")))).takeWhile
        (fun c => ¬ authEndChar c) = S "example.com" := by
    rw [hdrop]
    rw [takeWhile_append_all (fun c hc => decide_eq_true
      ((by decide : ∀ x ∈ S "example.com", ¬ authEndChar x = true) c hc)) _]
    rw [List.takeWhile_cons_of_neg (by decide), List.append_nil]
  have hdropA : (List.dropWhile isSlash ('/' :: '/' ::
      (S "example.com" ++ '/' ::
        (List.replicate 680 ' ' ++ S "a")))).dropWhile
        (fun c => ¬ authEndChar c) =
      '/' :: (List.replicate 680 ' ' ++ S "a") := by
    rw [hdrop]
    rw [dropWhile_append_all (fun c hc => decide_eq_true
      ((by decide : ∀ x ∈ S "example.com", ¬ authEndChar x = true) c hc)) _]
    rw [List.dropWhile_cons_of_neg (by decide)]
  have hpa : parseAuthority (S "example.com") =
      some (([] : Str), ([] : Str), S "example.com", none) := by decide
  have hba : parseAfterAuthority ('/' ::
      (List.replicate 680 ' ' ++ S "a")) =
      ([percentEncode pathSafeChar (List.replicate 680 ' ' ++ S "a")],
        none, none) := by
    apply parseAfterAuthority_plain
    · intro c hc
      rcases c7seg_chars c hc with rfl | rfl
      · exact ⟨by decide, by decide, by decide⟩
      · exact ⟨by decide, by decide, by decide⟩
    · exact c7seg_ne_dot
    · exact c7seg_ne_dotdot
  exact parseURL_eval hsp (by decide) (Or.inr rfl) htake hdropA hpa hba

/-- Counterexample to C7 as stated: the 701-character URL `c7input`
(680 spaces in the path) is accepted with canonical form `c7output`, but
`c7output` is 2061 characters long, so re-validating it fails the length
check — the round trip is not unconditional. -/
theorem claim_C7_counterexample :
    validateUrl c7input = .ok c7output ∧ 2048 < c7output.length ∧
      validateUrl c7output =
        .error (S "URL must be 2048 characters or fewer.") := by
  refine ⟨?_, by rw [c7output_length]; omega, ?_⟩
  · have hsp : splitScheme c7input = some (S "https", '/' :: '/' ::
        (S "example.com" ++ '/' :: (List.replicate 680 ' ' ++ S "a"))) := by
      rw [c7input_split]
      exact splitScheme_https _
    rw [validateUrl_eval c7input_pipeline
      (by rw [c7input_length]; omega) (by rw [c7input_length]; omega)
      hsp
      (isPrefixOf_self_append (S "//") _)
      (by decide) (Or.inr rfl) parseURL_c7input
      (Or.inr (by decide)) rfl rfl (by decide)
      (by
        rintro ⟨-, h2⟩
        exact h2 (by decide))
      (by decide)]
    have hnorm : normalizeRec
        { scheme := S "https", username := [], password := [],
          host := S "example.com", port := none,
          path := [percentEncode pathSafeChar
            (List.replicate 680 ' ' ++ S "a")],
          query := none, fragment := none } =
        { scheme := S "https", username := [], password := [],
          host := S "example.com", port := none,
          path := [percentEncode pathSafeChar
            (List.replicate 680 ' ' ++ S "a")],
          query := none, fragment := none } := by
      unfold normalizeRec
      simp only []
      rw [show jsLower (S "https") = S "https" from by decide]
      rw [show jsLower (S "example.com") = S "example.com" from by decide]
      rw [if_neg (by rintro (⟨-, h⟩ | ⟨-, h⟩) <;> cases h)]
    rw [hnorm]
    rw [serializeURL_shape rfl rfl]
    rw [percentEncode_c7seg]
    unfold c7output
    rw [show S "https://example.com/" = S "https" ++ ':' ::
      ('/' :: '/' :: (S "example.com" ++ ['/'])) from rfl]
    simp only [joinPath, portSerial, querySerial, fragSerial,
      List.nil_append, List.append_nil, List.append_assoc,
      List.cons_append, List.singleton_append]
  · have hmem2 : ∀ c ∈ c7output, 0x20 < c.toNat ∧ c.toNat < 0x7F := by
      intro c hc
      unfold c7output at hc
      simp only [List.append_assoc, List.mem_append] at hc
      rcases hc with h | h | h
      · exact (by decide : ∀ x ∈ S "https://example.com/",
          0x20 < x.toNat ∧ x.toNat < 0x7F) c h
      · obtain ⟨l, hl, hcl⟩ := List.mem_flatten.mp h
        rw [(List.mem_replicate.mp hl).2] at hcl
        exact (by decide : ∀ x ∈ S "%20",
          0x20 < x.toNat ∧ x.toNat < 0x7F) c hcl
      · exact (by decide : ∀ x ∈ S "a",
          0x20 < x.toNat ∧ x.toNat < 0x7F) c h
    exact validateUrl_too_long (pipeline_fix_of_printable hmem2)
      (by rw [c7output_length]; omega) (by rw [c7output_length]; omega)

/-- Witness for C7 (amended) at a concrete accepted URL of length 18. -/
theorem claim_C7_witness :
    validateUrl (S "http://241.1.1.1/") = .ok (S "http://241.1.1.1/") ∧
      (S "http://241.1.1.1/").length ≤ 2048 ∧
      validateUrl (S "http://241.1.1.1/") = .ok (S "http://241.1.1.1/") :=
  ⟨by decide, by decide,
    @claim_C7 (S "http://241.1.1.1/") (S "http://241.1.1.1/")
      (by decide) (by decide)⟩

end B0x
